import Mathlib

/-!
Verification development for the monthly shift-schedule generation engine of
the backend-caliente repository (src/core/api/services/schedule_generator.py).

The engine is shallowly embedded: Django model instances become Lean
structures, the database of Schedule rows becomes an explicit list threaded
through the computation, and dates are absolute day numbers (Int) with day 0
a Monday, so that the Python weekday() >= 5 weekend test becomes d % 7 >= 5.

Audit-log message strings are kept at the exact branch points where the
Python code appends them, but their formatted payloads are abbreviated
(message text never influences control flow, only the warning/error/decision
list lengths matter to the generation-log status).
-/

namespace Caliente

/-- Employee.Role choices relevant to the generator: the three trader roles
plus a catch-all for every other role (draftsman etc.), which the roster
filter removes. -/
inductive Role where
  | monitorTrader
  | inplayTrader
  | prematchTrader
  | other
deriving Repr, DecidableEq

/-- Schedule.EditSource choices. -/
inductive EditSource where
  | algorithm
  | manual
  | bulkImport
  | swap
  | gridEdit
deriving Repr, DecidableEq

/-- Vacation.Status choices. -/
inductive VacStatus where
  | pending
  | approved
  | rejected
  | cancelled
deriving Repr, DecidableEq

/-- ScheduleGenerationLog.Status: success = SUCCESS, warned = PARTIAL
(run finished with warnings), failed = FAILED. -/
inductive LogStatus where
  | success
  | warned
  | failed
deriving Repr, DecidableEq

/-- api.models.Employee, restricted to the fields the generator reads. -/
structure Employee where
  id : Nat
  role : Role
  isActive : Bool
  excludeFromGrid : Bool
deriving Repr, DecidableEq

/-- api.models.ShiftType; category is the category code of the FK target,
startHour/endHour the .hour of the optional start/end times. -/
structure ShiftType where
  code : String
  category : Option String
  startHour : Option Nat
  endHour : Option Nat
  isWorkingShift : Bool
  applicableToMonitor : Bool
  applicableToInplay : Bool
  isActive : Bool
deriving Repr, DecidableEq

/-- api.models.ShiftCategory. -/
structure ShiftCategory where
  code : String
  minTraders : Nat
  displayOrder : Nat
deriving Repr, DecidableEq

/-- api.models.ShiftCycleConfig. -/
structure ShiftCycleConfig where
  traderRole : Role
  shiftOrder : List String
  isDefault : Bool
deriving Repr, DecidableEq

/-- api.models.Vacation, dates as absolute day numbers. -/
structure Vacation where
  employeeId : Nat
  startDate : Int
  endDate : Int
  status : VacStatus
deriving Repr, DecidableEq

/-- api.models.SportEvent; dateStart is date_start.date(), dateEnd is
date_end.date() when present. -/
structure SportEvent where
  dateStart : Int
  dateEnd : Option Int
  priority : Nat
deriving Repr, DecidableEq

/-- api.models.SystemSettings singleton fields the generator snapshots. -/
structure Settings where
  maxConsecutiveDays : Nat
  minRestHours : Nat
  weekendScheduling : Bool
deriving Repr, DecidableEq

/-- api.models.Schedule row (audit-only fields such as title, created_by and
last_edited_at are omitted: the generator never branches on them). The
shift_type FK is inlined so that DB fallback reads of
sched.shift_type.is_working_shift need no separate catalog lookup. -/
structure Schedule where
  employeeId : Nat
  date : Int
  shiftType : ShiftType
  editSource : EditSource
deriving Repr, DecidableEq

/-- api.models.ScheduleGenerationLog, minus wall-clock execution time. -/
structure GenLog where
  month : Nat
  year : Nat
  status : LogStatus
  totalAssignments : Nat
  eventsConsidered : Nat
  tradersScheduled : Nat
  warnings : List String
  errors : List String
  algorithmDecisions : List String
  algorithmVersion : String
  paramMaxConsecutiveDays : Nat
  paramMinRestHours : Nat
  paramWeekendScheduling : Bool
deriving Repr, DecidableEq

/-- Modelled from the spec: the SportEvent.demand_weight property (the
api.models module defining it is not under src/; only its caller is).
Spec: a derived per-event staffing-pressure score, 11 minus the event's
priority. -/
def demandWeight (p : Nat) : Int := 11 - (p : Int)

/-- Python dict insertion: replace the value in place when the key exists,
append otherwise (3.7+ dicts keep the original key position on overwrite). -/
def dictInsert (key : α → String) (l : List α) (x : α) : List α :=
  if l.any (fun y => key y = key x) then
    l.map (fun y => if key y = key x then x else y)
  else l ++ [x]

/-- Builds a Python dict (as an ordered association list) from a list,
later entries overwriting earlier ones with the same key. -/
def dictOf (key : α → String) (l : List α) : List α :=
  l.foldl (dictInsert key) []

/-- dict.get on a code-keyed cache. -/
def cacheGet (cache : List ShiftType) (code : String) : Option ShiftType :=
  cache.find? (fun st => st.code = code)

/-- Stable insertion used by sortBy: x goes before the first element
strictly greater than it, hence after all earlier equal keys. -/
def insertBy (lt : α → α → Bool) (x : α) : List α → List α
  | [] => [x]
  | y :: ys => if lt x y then x :: y :: ys else y :: insertBy lt x ys

/-- Stable sort (same result as Python list.sort with a key function:
ascending by key, ties in original order). -/
def sortBy (lt : α → α → Bool) (l : List α) : List α :=
  l.foldl (fun acc x => insertBy lt x acc) []

/-- Shift codes the engine treats as non-working when walking history. -/
def nonWorkingCodes : List String := ["OFF", "VAC", "FES", "CUMPLE"]

/-- Schedule.objects.filter(employee_id=tid, date=d).first(). -/
def dbFirst (db : List Schedule) (tid : Nat) (d : Int) : Option Schedule :=
  db.find? (fun r => r.employeeId == tid && r.date == d)

/-- Loop body of _get_consecutive_work_days: fuel counts the remaining
iterations of the while count < 10 loop (each continuing iteration adds
exactly 1 to count, so 10 units of fuel reproduce the guard). -/
def getConsecutiveGo (locked : Nat × Int → Option String)
    (runAssignments : Nat × Int → Option String) (db : List Schedule)
    (tid : Nat) : Nat → Int → Nat → Nat
  | 0, _, count => count
  | fuel + 1, check, count =>
    match locked (tid, check) with
    | some code =>
      if nonWorkingCodes.contains code then count
      else getConsecutiveGo locked runAssignments db tid fuel (check - 1) (count + 1)
    | none =>
      match runAssignments (tid, check) with
      | some code =>
        if nonWorkingCodes.contains code then count
        else getConsecutiveGo locked runAssignments db tid fuel (check - 1) (count + 1)
      | none =>
        match dbFirst db tid check with
        | some sched =>
          if sched.shiftType.isWorkingShift then
            getConsecutiveGo locked runAssignments db tid fuel (check - 1) (count + 1)
          else count
        | none => count

/-- _get_consecutive_work_days: how many consecutive working days the
trader has immediately before day, scanning backwards through locked
cells, this run's in-memory assignments, then the database, stopping at
the first non-working day and after at most 10 days. -/
def getConsecutiveWorkDays (locked : Nat × Int → Option String)
    (runAssignments : Nat × Int → Option String) (db : List Schedule)
    (tid : Nat) (day : Int) : Nat :=
  getConsecutiveGo locked runAssignments db tid 10 (day - 1) 0

/-- rest >= min_rest with rest = (24 - end_hour) + 6 (earliest start 06:00). -/
def restOk (endHour : Nat) (minRest : Nat) : Bool :=
  (24 - (endHour : Int)) + 6 ≥ (minRest : Int)

/-- _check_rest_hours: true if enough rest since the previous day's shift,
consulting in order the current run's assignments, the database, then the
Layer-1 last-shift seed. -/
def checkRestHours (runAssignments : Nat × Int → Option String)
    (db : List Schedule) (stCache : List ShiftType)
    (lastShiftMap : Nat → Option String) (tid : Nat) (day : Int)
    (minRest : Nat) : Bool :=
  let yesterday := day - 1
  match runAssignments (tid, yesterday) with
  | some code =>
    if nonWorkingCodes.contains code then true
    else
      match cacheGet stCache code with
      | none => true
      | some prevSt =>
        match prevSt.endHour with
        | none => true
        | some endHour => restOk endHour minRest
  | none =>
    match dbFirst db tid yesterday with
    | some prevSched =>
      match prevSched.shiftType.endHour with
      | none => true
      | some endHour => restOk endHour minRest
    | none =>
      match lastShiftMap tid with
      | none => true
      | some lastCode =>
        if lastCode = "OFF" ∨ lastCode = "VAC" then true
        else
          match cacheGet stCache lastCode with
          | none => true
          | some prevSt =>
            match prevSt.endHour with
            | none => true
            | some endHour => restOk endHour minRest

/-- _shift_applicable_to_trader: role-based applicability (PREMATCH and
anything else falls back to the inplay flag). -/
def shiftApplicableToTrader (shift : ShiftType) (trader : Employee) : Bool :=
  match trader.role with
  | Role.monitorTrader => shift.applicableToMonitor
  | Role.inplayTrader => shift.applicableToInplay
  | _ => shift.applicableToInplay

/-- The scanning loop of _pick_shift_from_cycle: try offsets off,
off + 1, ... while fuel remains, answering the first offset whose cycle
code is among the applicable codes. -/
def firstMatchFrom (cycle : List String) (pos : Nat) (codes : List String) :
    Nat → Nat → Option Nat
  | _, 0 => none
  | off, remaining + 1 =>
    if codes.contains (cycle.getD ((pos + off) % cycle.length) "") then some off
    else firstMatchFrom cycle pos codes (off + 1) remaining

/-- First cycle offset (in range(len cycle)) whose code is applicable. -/
def firstMatchOffset (cycle : List String) (pos : Nat) (codes : List String) :
    Option Nat :=
  firstMatchFrom cycle pos codes 0 cycle.length

/-- _pick_shift_from_cycle: scan the rotation forward from pos (wrapping)
for the first code among the applicable shifts, returning that shift and
the advanced position; with no rotation match, fall back to the first
applicable shift leaving the position unchanged. -/
def pickShiftFromCycle (cycle : List String) (pos : Nat)
    (applicableShifts : List ShiftType) : Option ShiftType × Nat :=
  let applicableCodes := applicableShifts.map (fun s => s.code)
  match firstMatchOffset cycle pos applicableCodes with
  | some off =>
    let code := cycle.getD ((pos + off) % cycle.length) ""
    (applicableShifts.find? (fun s => s.code = code), (pos + off + 1) % cycle.length)
  | none => (applicableShifts.head?, pos)

/-- Event active-day window: date_end falls back to date_start when null. -/
def eventEndDay (e : SportEvent) : Int := e.dateEnd.getD e.dateStart

/-- event_start <= day <= event_end. -/
def eventActiveOn (e : SportEvent) (d : Int) : Bool :=
  e.dateStart ≤ d && d ≤ eventEndDay e

/-- Total demand weight of the events active on a day (the per-day sum
accumulated by _compute_demand_map). -/
def demandOn (events : List SportEvent) (d : Int) : Int :=
  (events.filter (fun e => eventActiveOn e d)).foldl
    (fun a e => a + demandWeight e.priority) 0

/-- _compute_demand_map as a function: the Python dict is initialised to 0.0
exactly on the month's days and later read with .get(day, 0.0), so days
outside the month map to 0. -/
def computeDemandMap (events : List SportEvent) (days : List Int) :
    Int → Int :=
  fun d => if days.contains d then demandOn events d else 0

/-- day.weekday() >= 5 with dates as day numbers anchored on a Monday. -/
def isWeekendDay (d : Int) : Bool := d % 7 ≥ 5

/-- _should_assign_off. The Python fairness test
current_off < target*day_number/total_days - 0.5 uses float division on
small integers; it is embedded as the exact rational comparison
2*current*total < 2*target*day_number - total. -/
def shouldAssignOff (traderId : Nat) (offToday : Nat) (effectiveMaxOff : Nat)
    (offCounts : Nat → Nat) (targetOffPerTrader : Nat) (needOff : List Nat)
    (isHighDemand : Bool) (totalDays : Nat) (dayNumber : Int) : Bool :=
  if needOff.contains traderId then true
  else if offToday ≥ effectiveMaxOff then false
  else if isHighDemand then false
  else
    decide (2 * ((offCounts traderId : Int)) * (totalDays : Int) <
      2 * (targetOffPerTrader : Int) * dayNumber - (totalDays : Int))

/-- Point update of a finite map represented as a function. -/
def updFun [DecidableEq α] (f : α → β) (k : α) (v : β) : α → β :=
  fun x => if x = k then v else f x

/-- Cross-day mutable generator state (the fairness and cycle counters plus
the in-memory _run_assignments tracker and the decisions list). -/
structure RunState where
  assignmentCounts : Nat → Nat
  offCounts : Nat → Nat
  lastShift : Nat → Option String
  cyclePositions : Nat → Nat
  runAssignments : Nat × Int → Option String
  decisions : List String

/-- Per-run read-only context handed to _assign_day (db is the state of the
Schedule table after the prior-algorithm-row delete; cycles yields the
configured rotation per role, None outside the dict so that the two call
sites can apply their different defaults). -/
structure DayCtx where
  db : List Schedule
  locked : Nat × Int → Option String
  stCache : List ShiftType
  cycles : Role → Option (List String)
  settings : Settings
  categories : List ShiftCategory
  traders : List Employee
  monitorTraders : List Employee
  demandMap : Int → Int
  maxOffPerDay : Nat
  targetOffPerTrader : Nat
  totalDays : Nat
  firstDay : Int

/-- cat_min dict lookup with default 0. -/
def ctxCatMin (ctx : DayCtx) (code : String) : Nat :=
  match (dictOf (fun c => c.code) ctx.categories).find? (fun c => c.code = code) with
  | some cat => cat.minTraders
  | none => 0

/-- In-day mutable state of one _assign_day invocation. -/
structure DS where
  run : RunState
  assignments : List Schedule
  dayCoverage : String → Nat
  assignedTraders : List Nat
  available : List Employee
  availMonitors : List Employee
  needOff : List Nat
  offToday : Nat

/-- list.remove(trader): drop the first element with the trader's id
(Django model equality is pk equality). -/
def removeFirstById : List Employee → Nat → List Employee
  | [], _ => []
  | x :: xs, tid => if x.id = tid then xs else x :: removeFirstById xs tid

/-- _make_schedule plus the count bump every assignment site performs:
record the Schedule row, mirror it into _run_assignments, and increment the
fairness counter. -/
def assignShift (s : DS) (t : Employee) (day : Int) (st : ShiftType) : DS :=
  { s with
    assignments := s.assignments ++
      [{ employeeId := t.id, date := day, shiftType := st
         editSource := EditSource.algorithm }]
    run := { s.run with
      runAssignments := updFun s.run.runAssignments (t.id, day) (some st.code)
      assignmentCounts :=
        updFun s.run.assignmentCounts t.id (s.run.assignmentCounts t.id + 1) } }

/-- The common payload of every day-off assignment site: record the OFF row
and bump off_counts and last_shift (the literal code string OFF). -/
def assignOffTo (s : DS) (t : Employee) (day : Int) (off : ShiftType) : DS :=
  let s2 := assignShift s t day off
  { s2 with
    run := { s2.run with
      offCounts := updFun s2.run.offCounts t.id (s2.run.offCounts t.id + 1)
      lastShift := updFun s2.run.lastShift t.id (some "OFF") } }

/-- One trader of the disabled-weekend loop: everyone not already locked is
assigned the day-off shift when it exists. -/
def weekendStep (offShift : Option ShiftType) (day : Int) (s : DS)
    (t : Employee) : DS :=
  if s.assignedTraders.contains t.id then s
  else
    match offShift with
    | some off => assignOffTo s t day off
    | none => s

/-- The per-trader hard-rest test of the need_off pass: at or over the
consecutive-day maximum, or not enough rest hours (the Python loop's two
early-exit adds, folded into one disjunction). -/
def mustRest (ctx : DayCtx) (day : Int) (rs : RunState) (t : Employee) : Bool :=
  (getConsecutiveWorkDays ctx.locked rs.runAssignments ctx.db t.id day ≥
    ctx.settings.maxConsecutiveDays)
  || ¬ checkRestHours rs.runAssignments ctx.db ctx.stCache rs.lastShift
      t.id day ctx.settings.minRestHours

/-- The hard-constraint pass computing need_off: traders at or over the
consecutive-day maximum, or without enough rest hours, must rest. -/
def computeNeedOff (ctx : DayCtx) (day : Int) (rs : RunState)
    (available : List Employee) : List Nat :=
  available.foldl (fun acc t => if mustRest ctx day rs t then acc ++ [t.id] else acc) []

/-- Working shifts of a category applicable to a given (monitor) trader, in
st_cache iteration order. -/
def catShiftsForMonitor (ctx : DayCtx) (catCode : String) (t : Employee) :
    List ShiftType :=
  ctx.stCache.filter (fun st =>
    (match st.category with | some c => c = catCode | none => false)
    && st.isWorkingShift && shiftApplicableToTrader st t)

/-- One pass of the Layer-5 loop over the avail_monitors snapshot: find the
first monitor (skipping forced-to-rest ones on pass 1) with an applicable
working shift in the category, assign it via the cycle walk, and update
every piece of state the Python loop mutates; None when the pass assigns
nobody. -/
def monitorScan (ctx : DayCtx) (day : Int) (catCode : String)
    (passOne : Bool) : List Employee → DS → Option DS
  | [], _ => none
  | t :: rest, s =>
    if passOne && s.needOff.contains t.id then
      monitorScan ctx day catCode passOne rest s
    else
      let catShifts := catShiftsForMonitor ctx catCode t
      if catShifts.isEmpty then monitorScan ctx day catCode passOne rest s
      else
        let cycle := (ctx.cycles t.role).getD []
        let pick := pickShiftFromCycle cycle (s.run.cyclePositions t.id) catShifts
        match pick.1 with
        | none => monitorScan ctx day catCode passOne rest s
        | some shift =>
          let s2 := assignShift s t day shift
          some { s2 with
            run := { s2.run with
              cyclePositions := updFun s2.run.cyclePositions t.id pick.2
              lastShift := updFun s2.run.lastShift t.id (some shift.code) }
            dayCoverage := updFun s2.dayCoverage catCode (s2.dayCoverage catCode + 1)
            assignedTraders := s2.assignedTraders ++ [t.id]
            available := removeFirstById s2.available t.id
            availMonitors := removeFirstById s2.availMonitors t.id
            needOff := s2.needOff.filter (fun x => x ≠ t.id) }

/-- Layer 5 for one anchor category: skip it if a monitor trader is already
locked into the category today, otherwise run pass 1 (rested monitors) then
pass 2 (any monitor), logging a decision when both fail. -/
def monitorStep (ctx : DayCtx) (day : Int) (s : DS) (catCode : String) : DS :=
  let alreadyHasMonitor := ctx.monitorTraders.any (fun t =>
    match ctx.locked (t.id, day) with
    | some code =>
      match cacheGet ctx.stCache code with
      | some st => (match st.category with | some c => decide (c = catCode) | none => false)
      | none => false
    | none => false)
  if alreadyHasMonitor then s
  else
    match monitorScan ctx day catCode true s.availMonitors s with
    | some s2 => s2
    | none =>
      match monitorScan ctx day catCode false s.availMonitors s with
      | some s2 => s2
      | none =>
        { s with run := { s.run with decisions := s.run.decisions ++
            ["LAYER5: Sin Monitor Trader disponible para " ++ catCode ++
             " el " ++ toString day] } }

/-- Anchor categories of the Layer-5 monitor rule, in processing order. -/
def monitorTargetCats : List String := ["AM", "INS", "MID"]

/-- Working shifts of a category in st_cache order (no applicability filter
yet: Phase 1 filters per trader). -/
def catShiftsForCategory (ctx : DayCtx) (catCode : String) : List ShiftType :=
  ctx.stCache.filter (fun st =>
    (match st.category with | some c => c = catCode | none => false)
    && st.isWorkingShift)

/-- Phase-1 scan of one category over the snapshot of available traders:
stop once the needed count is filled; skip forced-to-rest traders unless
the day is high demand; assign fairness-ordered traders whose role permits
a shift of the category via the cycle walk. -/
def phase1Scan (ctx : DayCtx) (day : Int) (catCode : String) (needed : Nat)
    (catShifts : List ShiftType) (isHighDemand : Bool) :
    List Employee → Nat → DS → DS × Nat
  | [], filled, s => (s, filled)
  | t :: rest, filled, s =>
    if filled ≥ needed then (s, filled)
    else if s.needOff.contains t.id && ¬ isHighDemand then
      phase1Scan ctx day catCode needed catShifts isHighDemand rest filled s
    else
      let applicable := catShifts.filter (fun st => shiftApplicableToTrader st t)
      if applicable.isEmpty then
        phase1Scan ctx day catCode needed catShifts isHighDemand rest filled s
      else
        let cycle := (ctx.cycles t.role).getD []
        let pick := pickShiftFromCycle cycle (s.run.cyclePositions t.id) applicable
        match pick.1 with
        | none => phase1Scan ctx day catCode needed catShifts isHighDemand rest filled s
        | some shift =>
          let s2 := assignShift s t day shift
          let s3 := { s2 with
            run := { s2.run with
              cyclePositions := updFun s2.run.cyclePositions t.id pick.2
              lastShift := updFun s2.run.lastShift t.id (some shift.code) }
            dayCoverage := updFun s2.dayCoverage catCode (s2.dayCoverage catCode + 1)
            assignedTraders := s2.assignedTraders ++ [t.id]
            available := removeFirstById s2.available t.id }
          phase1Scan ctx day catCode needed catShifts isHighDemand rest (filled + 1) s3

/-- Phase 1 for one category: compute the outstanding minimum and scan; a
persistent shortfall logs a COVERAGE decision. -/
def phase1Step (ctx : DayCtx) (day : Int) (isHighDemand : Bool) (s : DS)
    (cat : ShiftCategory) : DS :=
  let minT := ctxCatMin ctx cat.code
  let cov := s.dayCoverage cat.code
  if minT ≤ cov then s
  else
    let needed := minT - cov
    let catShifts := catShiftsForCategory ctx cat.code
    if catShifts.isEmpty then s
    else
      let scanned := phase1Scan ctx day cat.code needed catShifts isHighDemand
        s.available 0 s
      if scanned.2 < needed then
        { scanned.1 with run := { scanned.1.run with
            decisions := scanned.1.run.decisions ++
              ["COVERAGE: " ++ cat.code ++ " el " ++ toString day] } }
      else scanned.1

/-- Phase-2 step for one still-available trader: decide work or day off via
the smart-off heuristic, otherwise walk the cycle for a working shift,
falling back to a day off when nothing applies. -/
def phase2Step (ctx : DayCtx) (day : Int) (isHighDemand : Bool)
    (effectiveMaxOff : Nat) (offShift : Option ShiftType) (s : DS)
    (t : Employee) : DS :=
  let dayNumber := day - ctx.firstDay + 1
  let shouldOff := shouldAssignOff t.id s.offToday effectiveMaxOff
    s.run.offCounts ctx.targetOffPerTrader s.needOff isHighDemand
    ctx.totalDays dayNumber
  match (if shouldOff then offShift else none) with
  | some off =>
    let s2 := assignOffTo s t day off
    { s2 with
      offToday := s2.offToday + 1
      assignedTraders := s2.assignedTraders ++ [t.id] }
  | none =>
    let cycle := (ctx.cycles t.role).getD ["OFF"]
    let workingShifts := cycle.filterMap (fun c =>
      if c = "OFF" then none
      else
        match cacheGet ctx.stCache c with
        | some st => if shiftApplicableToTrader st t then some st else none
        | none => none)
    if workingShifts.isEmpty then
      match offShift with
      | some off =>
        let s2 := assignOffTo s t day off
        { s2 with
          offToday := s2.offToday + 1
          assignedTraders := s2.assignedTraders ++ [t.id] }
      | none => s
    else
      let pickCycle := (ctx.cycles t.role).getD []
      let pick := pickShiftFromCycle pickCycle (s.run.cyclePositions t.id) workingShifts
      match pick.1 with
      | some shift =>
        let s2 := assignShift s t day shift
        let s3 := { s2 with
          run := { s2.run with
            cyclePositions := updFun s2.run.cyclePositions t.id pick.2
            lastShift := updFun s2.run.lastShift t.id (some shift.code) }
          assignedTraders := s2.assignedTraders ++ [t.id] }
        match shift.category with
        | some c => { s3 with dayCoverage := updFun s3.dayCoverage c (s3.dayCoverage c + 1) }
        | none => s3
      | none =>
        match offShift with
        | some off =>
          let s2 := assignOffTo s t day off
          { s2 with
            offToday := s2.offToday + 1
            assignedTraders := s2.assignedTraders ++ [t.id] }
        | none => s

/-- Final completeness guarantee: any trader still without an assignment
and not locked is defensively assigned the day off (when it exists) with a
FALLBACK decision entry. -/
def guaranteeStep (ctx : DayCtx) (day : Int) (offShift : Option ShiftType)
    (s : DS) (t : Employee) : DS :=
  if s.assignedTraders.contains t.id then s
  else
    match ctx.locked (t.id, day) with
    | some _ => s
    | none =>
      match offShift with
      | some off =>
        let s2 := assignOffTo s t day off
        { s2 with run := { s2.run with decisions := s2.run.decisions ++
            ["FALLBACK: trader " ++ toString t.id ++ " OFF el " ++ toString day] } }
      | none => s

/-- is_high_demand: the day's summed demand weight reaches 9 (the weight a
single priority-2 event carries). -/
def isHighDemandDay (ctx : DayCtx) (day : Int) : Bool :=
  ctx.demandMap day ≥ 9

/-- One trader of the locked-cell seeding loop at the top of _assign_day:
a locked trader joins assigned_traders, and a working locked shift with a
category counts toward that category's coverage. -/
def seedStep (ctx : DayCtx) (day : Int) (s : DS) (t : Employee) : DS :=
  match ctx.locked (t.id, day) with
  | some code =>
    let s2 :=
      match cacheGet ctx.stCache code with
      | some st =>
        if st.isWorkingShift then
          match st.category with
          | some c => { s with dayCoverage := updFun s.dayCoverage c (s.dayCoverage c + 1) }
          | none => s
        else s
      | none => s
    { s2 with assignedTraders := s2.assignedTraders ++ [t.id] }
  | none => s

/-- The pristine in-day state before seeding. -/
def seedInit (rs : RunState) : DS :=
  { run := rs
    assignments := []
    dayCoverage := fun _ => 0
    assignedTraders := []
    available := []
    availMonitors := []
    needOff := []
    offToday := 0 }

/-- Locked-cell seeding at the top of _assign_day. -/
def seedLocked (ctx : DayCtx) (day : Int) (rs : RunState) : DS :=
  ctx.traders.foldl (seedStep ctx day) (seedInit rs)

/-- Fairness comparison used to sort available traders: ascending by
(total assignments, accumulated OFFs), ties in original order. -/
def fairnessLt (rs : RunState) (a b : Employee) : Bool :=
  rs.assignmentCounts a.id < rs.assignmentCounts b.id ||
    (rs.assignmentCounts a.id = rs.assignmentCounts b.id &&
     rs.offCounts a.id < rs.offCounts b.id)

/-- effective_max_off after the demand/weekend adjustment. -/
def effectiveMaxOffOf (ctx : DayCtx) (day : Int) : Nat :=
  if isHighDemandDay ctx day then max 1 (ctx.maxOffPerDay / 2)
  else if isWeekendDay day && ¬ ctx.settings.weekendScheduling then
    ctx.traders.length
  else ctx.maxOffPerDay

/-- The available list: in-order traders not already locked today. -/
def availableOf (ctx : DayCtx) (s1 : DS) : List Employee :=
  ctx.traders.filter (fun t => ¬ s1.assignedTraders.contains t.id)

/-- State after seeding, need_off computation, the fairness sort and the
avail_monitors split (the common prologue of a non-suppressed day). -/
def stageSorted (ctx : DayCtx) (day : Int) (rs : RunState) : DS :=
  let s1 := seedLocked ctx day rs
  let available := availableOf ctx s1
  let needOff := computeNeedOff ctx day s1.run available
  let availSorted := sortBy (fairnessLt s1.run) available
  { s1 with
    available := availSorted
    availMonitors := availSorted.filter (fun t => t.role == Role.monitorTrader)
    needOff := needOff }

/-- State after the Layer-5 monitor rule over AM, INS, MID. -/
def stageMonitor (ctx : DayCtx) (day : Int) (rs : RunState) : DS :=
  monitorTargetCats.foldl (monitorStep ctx day) (stageSorted ctx day rs)

/-- State after the Phase-1 category-minimum fill. -/
def stagePhase1 (ctx : DayCtx) (day : Int) (rs : RunState) : DS :=
  ctx.categories.foldl (phase1Step ctx day (isHighDemandDay ctx day))
    (stageMonitor ctx day rs)

/-- off_today seeded from locked OFF cells before Phase 2. -/
def offTodayInitOf (ctx : DayCtx) (day : Int) : Nat :=
  (ctx.traders.filter (fun t => ctx.locked (t.id, day) == some "OFF")).length

/-- State after the Phase-2 remaining-employee pass. -/
def stagePhase2 (ctx : DayCtx) (day : Int) (rs : RunState) : DS :=
  let s5 := { stagePhase1 ctx day rs with offToday := offTodayInitOf ctx day }
  s5.available.foldl
    (phase2Step ctx day (isHighDemandDay ctx day) (effectiveMaxOffOf ctx day)
      (cacheGet ctx.stCache "OFF")) s5

/-- State after the final no-trader-left-blank guarantee. -/
def stageFinal (ctx : DayCtx) (day : Int) (rs : RunState) : DS :=
  ctx.traders.foldl (guaranteeStep ctx day (cacheGet ctx.stCache "OFF"))
    (stagePhase2 ctx day rs)

/-- State of the everyone-off loop of a weekend with scheduling disabled. -/
def weekendState (ctx : DayCtx) (day : Int) (rs : RunState) : DS :=
  ctx.traders.foldl (weekendStep (cacheGet ctx.stCache "OFF") day)
    (seedLocked ctx day rs)

/-- _assign_day: one full day of the Layer 4+5 engine. Returns the day's
produced Schedule rows and the updated cross-day state. -/
def assignDay (ctx : DayCtx) (rs : RunState) (day : Int) :
    List Schedule × RunState :=
  if ¬ ctx.settings.weekendScheduling && isWeekendDay day then
    ((weekendState ctx day rs).assignments, (weekendState ctx day rs).run)
  else
    ((stageFinal ctx day rs).assignments, (stageFinal ctx day rs).run)

/-- Inputs of one generate() invocation: the caller identity is dropped
(only audit metadata), the target month is abstracted by the absolute day
number of date(year, month, 1) and calendar.monthrange(year, month)[1]. -/
structure GenInput where
  month : Nat
  year : Nat
  firstDay : Int
  numDays : Nat
  roster : List Employee
  shiftTypes : List ShiftType
  categories : List ShiftCategory
  cycleConfigs : List ShiftCycleConfig
  vacations : List Vacation
  events : List SportEvent
  settings : Settings

/-- _get_active_traders: active, not excluded from the grid, trader role. -/
def activeTraders (inp : GenInput) : List Employee :=
  inp.roster.filter (fun e => e.isActive && ¬ e.excludeFromGrid &&
    (e.role == Role.monitorTrader || e.role == Role.inplayTrader ||
     e.role == Role.prematchTrader))

/-- _get_month_days as absolute day numbers. -/
def monthDays (inp : GenInput) : List Int :=
  (List.range inp.numDays).map (fun (i : Nat) => inp.firstDay + (i : Int))

/-- days[-1], the last day of the target month. -/
def lastDay (inp : GenInput) : Int := inp.firstDay + inp.numDays - 1

/-- _get_shift_types: active catalog entries. -/
def activeShiftTypes (inp : GenInput) : List ShiftType :=
  inp.shiftTypes.filter (fun st => st.isActive)

/-- st_cache, the code-keyed dict over active shift types. -/
def stCacheOf (inp : GenInput) : List ShiftType :=
  dictOf (fun st => st.code) (activeShiftTypes inp)

/-- _get_categories: all categories ordered by display_order. -/
def sortedCategories (inp : GenInput) : List ShiftCategory :=
  sortBy (fun a b => a.displayOrder < b.displayOrder) inp.categories

/-- _get_cycle_configs: default-flagged configs keyed by role (later rows
overwrite earlier ones), with built-in fallback rotations for any of the
three trader roles left unconfigured. -/
def cycleConfigsOf (inp : GenInput) : Role → Option (List String) :=
  let base := (inp.cycleConfigs.filter (fun cfg => cfg.isDefault)).foldl
    (fun f cfg => updFun f cfg.traderRole (some cfg.shiftOrder)) (fun _ => none)
  fun r =>
    match base r with
    | some c => some c
    | none =>
      match r with
      | Role.monitorTrader => some ["MON6", "MON12", "MON14", "OFF"]
      | Role.inplayTrader => some ["IP6", "IP9", "IP10", "IP12", "IP14", "OFF"]
      | Role.prematchTrader => some ["IP6", "IP9", "IP10", "IP12", "IP14", "OFF"]
      | Role.other => none

/-- The Layer-1 lookback rows: any Schedule row of an in-scope trader dated
in the 7 days before the month, in date order (a stable sort; the
(employee, date) uniqueness constraint makes residual tie order per
employee immaterial). -/
def priorRows (inp : GenInput) (db : List Schedule) : List Schedule :=
  sortBy (fun a b => a.date < b.date)
    (db.filter (fun r => (activeTraders inp).any (fun t => t.id == r.employeeId)
      && inp.firstDay - 7 ≤ r.date && r.date ≤ inp.firstDay - 1))

/-- _load_prior_history: chronological shift codes per employee. -/
def priorHistoryOf (inp : GenInput) (db : List Schedule) :
    Nat → List String :=
  fun tid => ((priorRows inp db).filter (fun r => r.employeeId == tid)).map
    (fun r => r.shiftType.code)

/-- Approved vacations of in-scope traders intersecting the month. -/
def approvedVacs (inp : GenInput) : List Vacation :=
  inp.vacations.filter (fun v =>
    (activeTraders inp).any (fun t => t.id == v.employeeId)
    && v.status == VacStatus.approved
    && v.startDate ≤ lastDay inp && v.endDate ≥ inp.firstDay)

/-- _lock_approved_vacations: lock every covered (employee, day) cell of the
month with the VAC code; with no active VAC shift type nothing locks (a
warning is emitted instead by generate). -/
def vacationLocked (inp : GenInput) : Nat × Int → Option String :=
  if (cacheGet (stCacheOf inp) "VAC").isSome then
    (approvedVacs inp).foldl (fun f v =>
      (monthDays inp).foldl (fun g d =>
        if v.startDate ≤ d && d ≤ v.endDate then
          updFun g (v.employeeId, d) (some "VAC")
        else g) f)
      (fun _ => none)
  else fun _ => none

/-- Number of cells locked by approved vacations (Layer 2 total counter). -/
def vacCellCount (inp : GenInput) : Nat :=
  ((approvedVacs inp).map (fun v =>
    ((monthDays inp).filter (fun d => v.startDate ≤ d && d ≤ v.endDate)).length)).sum

/-- The month rows _lock_existing_schedules preserves: every non-algorithm
row of an in-scope trader dated in the month. -/
def existingRows (inp : GenInput) (db : List Schedule) : List Schedule :=
  db.filter (fun r => (monthDays inp).contains r.date
    && (activeTraders inp).any (fun t => t.id == r.employeeId)
    && ¬ (r.editSource == EditSource.algorithm))

/-- _lock_existing_schedules fold: add each preserved row's cell unless a
vacation already locked it, counting the added cells. -/
def lockExisting (locked0 : Nat × Int → Option String)
    (rows : List Schedule) : (Nat × Int → Option String) × Nat :=
  rows.foldl (fun acc r =>
    match acc.1 (r.employeeId, r.date) with
    | some _ => acc
    | none => (updFun acc.1 (r.employeeId, r.date) (some r.shiftType.code),
        acc.2 + 1))
    (locked0, 0)

/-- The complete locked-cell map (Layer 2 plus preserved edits). -/
def lockedCellsOf (inp : GenInput) (db : List Schedule) :
    Nat × Int → Option String :=
  (lockExisting (vacationLocked inp) (existingRows inp db)).1

/-- Rows the pre-run cleanup deletes: algorithm-authored rows of in-scope
traders dated in the month. -/
def algoRowPred (inp : GenInput) (r : Schedule) : Bool :=
  (monthDays inp).contains r.date
  && (activeTraders inp).any (fun t => t.id == r.employeeId)
  && r.editSource == EditSource.algorithm

/-- The Schedule table after the cleanup delete. -/
def postDeleteDb (inp : GenInput) (db : List Schedule) : List Schedule :=
  db.filter (fun r => ¬ algoRowPred inp r)

/-- Events the demand mapper considers: started no later than the month's
last day, ending (if an end exists) no earlier than its first day. -/
def consideredEvents (inp : GenInput) : List SportEvent :=
  inp.events.filter (fun e => e.dateStart ≤ lastDay inp &&
    (match e.dateEnd with | some ed => ed ≥ inp.firstDay | none => true))

/-- The demand map of this run. -/
def demandMapOf (inp : GenInput) : Int → Int :=
  computeDemandMap (consideredEvents inp) (monthDays inp)

/-- Days of the month on which some priority ≤ 2 event is active (the
high_demand_days set _compute_demand_map logs). -/
def p1p2Days (inp : GenInput) : List Int :=
  (monthDays inp).filter (fun d =>
    (consideredEvents inp).any (fun e => eventActiveOn e d && e.priority ≤ 2))

/-- target_off_per_trader = max(1, len(days) // 7). -/
def targetOffPerTraderOf (inp : GenInput) : Nat := max 1 (inp.numDays / 7)

/-- max_off_per_day = max(1, ceil(total * target / len(days))), the float
ceiling written as exact Nat ceiling division. -/
def maxOffPerDayOf (inp : GenInput) : Nat :=
  max 1 (((activeTraders inp).length * targetOffPerTraderOf inp
    + inp.numDays - 1) / inp.numDays)

/-- Layer-1 seeding of last_shift: the last code of the trailing history. -/
def seededLastShift (inp : GenInput) (db : List Schedule) :
    Nat → Option String :=
  fun tid => (priorHistoryOf inp db tid).getLast?

/-- Layer-1 seeding of cycle positions: one past the rotation index of the
last historical code when it occurs in the trader's rotation, else 0. -/
def seededCyclePositions (inp : GenInput) (db : List Schedule) : Nat → Nat :=
  fun tid =>
    match (activeTraders inp).find? (fun t => t.id == tid) with
    | none => 0
    | some t =>
      let cycle := (cycleConfigsOf inp t.role).getD []
      let hist := priorHistoryOf inp db tid
      match hist.getLast? with
      | none => 0
      | some lastCode =>
        if cycle.isEmpty then 0
        else if cycle.contains lastCode then
          (cycle.indexOf lastCode + 1) % cycle.length
        else 0

/-- Pre-loop decision entries, in the order generate() appends them. -/
def setupDecisions (inp : GenInput) (db : List Schedule) : List String :=
  (if (priorRows inp db).isEmpty then [] else ["LAYER1 CONTINUITY"])
  ++ (if (cacheGet (stCacheOf inp) "VAC").isSome then
        (approvedVacs inp).map (fun v => "LAYER2 VAC LOCK: empleado "
          ++ toString v.employeeId)
        ++ (if vacCellCount inp == 0 then [] else
          ["LAYER2 TOTAL: " ++ toString (vacCellCount inp) ++ " celdas"])
      else [])
  ++ (if (lockExisting (vacationLocked inp) (existingRows inp db)).2 == 0
      then [] else ["EXISTING: celdas manuales preservadas"])
  ++ (if (db.filter (algoRowPred inp)).isEmpty then []
      else ["CLEANUP: asignaciones algoritmo previas eliminadas"])
  ++ (if (p1p2Days inp).isEmpty then [] else ["LAYER3 HIGH DEMAND"])
  ++ (if (consideredEvents inp).isEmpty then [] else ["LAYER3 EVENTS"])
  ++ ["CONFIG: max_off/dia=" ++ toString (maxOffPerDayOf inp)]

/-- Initial cross-day state of the assignment loop. -/
def initRunState (inp : GenInput) (db : List Schedule) : RunState :=
  { assignmentCounts := fun _ => 0
    offCounts := fun _ => 0
    lastShift := seededLastShift inp db
    cyclePositions := seededCyclePositions inp db
    runAssignments := fun _ => none
    decisions := setupDecisions inp db }

/-- The read-only per-day context of this run. -/
def dayCtxOf (inp : GenInput) (db : List Schedule) : DayCtx :=
  { db := postDeleteDb inp db
    locked := lockedCellsOf inp db
    stCache := stCacheOf inp
    cycles := cycleConfigsOf inp
    settings := inp.settings
    categories := sortedCategories inp
    traders := activeTraders inp
    monitorTraders := (activeTraders inp).filter
      (fun t => t.role == Role.monitorTrader)
    demandMap := demandMapOf inp
    maxOffPerDay := maxOffPerDayOf inp
    targetOffPerTrader := targetOffPerTraderOf inp
    totalDays := inp.numDays
    firstDay := inp.firstDay }

/-- The Layer 4+5 day loop: all produced Schedule rows in creation order
plus the final cross-day state. -/
def generateCore (inp : GenInput) (db : List Schedule) :
    List Schedule × RunState :=
  (monthDays inp).foldl (fun acc day =>
    let step := assignDay (dayCtxOf inp db) acc.2 day
    (acc.1 ++ step.1, step.2))
    ([], initRunState inp db)

/-- bulk_create(..., ignore_conflicts=True) against the (employee, date)
uniqueness constraint: insert each row unless its cell is already taken. -/
def bulkCreateIgnoreConflicts (db : List Schedule) (rows : List Schedule) :
    List Schedule :=
  rows.foldl (fun acc r =>
    if acc.any (fun x => x.employeeId == r.employeeId && x.date == r.date)
    then acc else acc ++ [r]) db

/-- _create_log: FAILED on any error, else PARTIAL on any warning, else
SUCCESS; decisions truncated to 100 entries. -/
def createLog (inp : GenInput) (total : Nat) (scheduledTraders : Nat)
    (eventsConsidered : Nat) (warnings : List String) (errors : List String)
    (decisions : List String) : GenLog :=
  { month := inp.month
    year := inp.year
    status :=
      if ¬ errors.isEmpty then LogStatus.failed
      else if ¬ warnings.isEmpty then LogStatus.warned
      else LogStatus.success
    totalAssignments := total
    eventsConsidered := eventsConsidered
    tradersScheduled := scheduledTraders
    warnings := warnings
    errors := errors
    algorithmDecisions := decisions.take 100
    algorithmVersion := "2.0"
    paramMaxConsecutiveDays := inp.settings.maxConsecutiveDays
    paramMinRestHours := inp.settings.minRestHours
    paramWeekendScheduling := inp.settings.weekendScheduling }

/-- Warnings of a (non-aborted) run: only the missing-VAC warning exists. -/
def runWarnings (inp : GenInput) : List String :=
  if (cacheGet (stCacheOf inp) "VAC").isSome then []
  else ["ShiftType VAC no encontrado"]

/-- generate(): the full engine. Returns the generation log and the state
of the Schedule table after the run (the empty-roster abort touches
nothing; the top-level exception handler is unreachable in this total
embedding). -/
def generate (inp : GenInput) (db : List Schedule) : GenLog × List Schedule :=
  if (activeTraders inp).isEmpty then
    (createLog inp 0 0 0 [] ["No hay traders activos disponibles."] [], db)
  else
    let core := generateCore inp db
    let total := core.1.length
    let scheduledTraders := (core.1.map (fun a => a.employeeId)).dedup.length
    let db2 :=
      if core.1.isEmpty then postDeleteDb inp db
      else bulkCreateIgnoreConflicts (postDeleteDb inp db) core.1
    (createLog inp total scheduledTraders (consideredEvents inp).length
      (runWarnings inp) [] core.2.decisions, db2)

/-! ### Invariant predicates over the in-day state -/

/-- Number of produced rows for one employee in the day state. -/
def cntRows (s : DS) (tid : Nat) : Nat :=
  (s.assignments.filter (fun a => a.employeeId == tid)).length

/-- Shape invariant of _assign_day: available and monitor pools hold only
unlocked in-scope traders, every produced row is an algorithm row of an
unlocked in-scope trader dated today, and every locked trader is already
in assigned_traders. -/
def WS (ctx : DayCtx) (day : Int) (s : DS) : Prop :=
  (∀ u ∈ s.available, u ∈ ctx.traders ∧ ctx.locked (u.id, day) = none) ∧
  (∀ u ∈ s.availMonitors, u ∈ ctx.traders ∧ ctx.locked (u.id, day) = none) ∧
  (∀ a ∈ s.assignments, a.date = day ∧ a.editSource = EditSource.algorithm ∧
    (∃ u ∈ ctx.traders, u.id = a.employeeId) ∧
    ctx.locked (a.employeeId, day) = none) ∧
  (∀ u ∈ ctx.traders, ctx.locked (u.id, day) ≠ none → u.id ∈ s.assignedTraders)

/-- The tracked trader has not been assigned yet today. -/
def Untouched (s : DS) (t : Employee) : Prop :=
  cntRows s t.id = 0 ∧ t.id ∉ s.assignedTraders ∧ t ∈ s.available

/-- The tracked trader id is settled with n rows (n = 0 for locked cells,
n = 1 once assigned) and can no longer be picked from the pools. -/
def TDone (s : DS) (tid : Nat) (n : Nat) : Prop :=
  cntRows s tid = n ∧ tid ∈ s.assignedTraders ∧
  (∀ u ∈ s.available, u.id ≠ tid) ∧ (∀ u ∈ s.availMonitors, u.id ≠ tid)

/-- The pools carry no duplicate employee ids. -/
def IdsNodup (s : DS) : Prop :=
  (s.available.map (fun u => u.id)).Nodup ∧
  (s.availMonitors.map (fun u => u.id)).Nodup

/-- The six fields the invariant proofs track are unchanged (decisions,
coverage and cycle state may differ). -/
def FieldsEq (s s2 : DS) : Prop :=
  s2.assignments = s.assignments ∧ s2.assignedTraders = s.assignedTraders ∧
  s2.available = s.available ∧ s2.availMonitors = s.availMonitors ∧
  s2.needOff = s.needOff ∧ s2.offToday = s.offToday

/-- The tracked trader is settled: n rows today and registered assigned. -/
def Done (s : DS) (tid : Nat) (n : Nat) : Prop :=
  cntRows s tid = n ∧ tid ∈ s.assignedTraders

/-! ### Concrete instances used by witnesses and counterexamples -/

/-- An empty day context with max_consecutive_days = 11. -/
def ctxCap11 : DayCtx :=
  { db := [], locked := fun _ => none, stCache := [], cycles := fun _ => none
    settings := { maxConsecutiveDays := 11, minRestHours := 12,
                  weekendScheduling := true }
    categories := [], traders := [], monitorTraders := []
    demandMap := fun _ => 0, maxOffPerDay := 1, targetOffPerTrader := 1
    totalDays := 30, firstDay := 0 }

/-- A fresh cross-day state. -/
def rsFresh : RunState :=
  { assignmentCounts := fun _ => 0, offCounts := fun _ => 0
    lastShift := fun _ => none, cyclePositions := fun _ => 0
    runAssignments := fun _ => none, decisions := [] }

/-- Input with an empty roster (C6 witness). -/
def inpNoTraders : GenInput :=
  { month := 6, year := 2025, firstDay := 0, numDays := 30
    roster := [], shiftTypes := [], categories := [], cycleConfigs := []
    vacations := [], events := []
    settings := { maxConsecutiveDays := 6, minRestHours := 12,
                  weekendScheduling := true } }

/-- A priority-5 event on day 0. -/
def evP5 : SportEvent := { dateStart := 0, dateEnd := some 0, priority := 5 }

/-- A priority-3 event spanning days 0-1 (C9 witness). -/
def evP3 : SportEvent := { dateStart := 0, dateEnd := some 1, priority := 3 }

/-- One-day month with two simultaneous priority-5 events and no trader
(C4 counterexample: their weights sum to 12 >= 9 with no P1/P2 event). -/
def inpTwoP5 : GenInput :=
  { month := 6, year := 2025, firstDay := 0, numDays := 1
    roster := [], shiftTypes := [], categories := [], cycleConfigs := []
    vacations := [], events := [evP5, evP5]
    settings := { maxConsecutiveDays := 6, minRestHours := 12,
                  weekendScheduling := true } }

/-- Two-day month carrying the single priority-3 event (C9 witness). -/
def inpOneP3 : GenInput :=
  { month := 6, year := 2025, firstDay := 0, numDays := 2
    roster := [], shiftTypes := [], categories := [], cycleConfigs := []
    vacations := [], events := [evP3]
    settings := { maxConsecutiveDays := 6, minRestHours := 12,
                  weekendScheduling := true } }

/-- A monitor-applicable working MON12 shift (C8 witness). -/
def stMON12 : ShiftType :=
  { code := "MON12", category := some "INS", startHour := some 12
    endHour := some 20, isWorkingShift := true, applicableToMonitor := true
    applicableToInplay := false, isActive := true }

/-- A monitor-applicable working MON14 shift (C8 witness). -/
def stMON14 : ShiftType :=
  { code := "MON14", category := some "MID", startHour := some 14
    endHour := some 22, isWorkingShift := true, applicableToMonitor := true
    applicableToInplay := false, isActive := true }

/-- Day-off shift type. -/
def stOFFc : ShiftType :=
  { code := "OFF", category := none, startHour := none, endHour := none
    isWorkingShift := false, applicableToMonitor := true
    applicableToInplay := true, isActive := true }

/-- Vacation shift type. -/
def stVACc : ShiftType :=
  { code := "VAC", category := none, startHour := none, endHour := none
    isWorkingShift := false, applicableToMonitor := true
    applicableToInplay := true, isActive := true }

/-- An inplay working shift in category AM. -/
def stIP6c : ShiftType :=
  { code := "IP6", category := some "AM", startHour := some 6
    endHour := some 14, isWorkingShift := true, applicableToMonitor := false
    applicableToInplay := true, isActive := true }

/-- A monitor working shift in category AM. -/
def stMON6c : ShiftType :=
  { code := "MON6", category := some "AM", startHour := some 6
    endHour := some 14, isWorkingShift := true, applicableToMonitor := true
    applicableToInplay := false, isActive := true }

/-- An inplay trader. -/
def empI : Employee :=
  { id := 2, role := Role.inplayTrader, isActive := true
    excludeFromGrid := false }

/-- A monitor trader. -/
def empM : Employee :=
  { id := 1, role := Role.monitorTrader, isActive := true
    excludeFromGrid := false }

/-- Two-day month, one inplay trader, min_rest_hours = 20: resting 16 hours
after IP6 (ends 14:00) fails the rest check, so day 1 forces the trader
onto the need_off list (C3 witness input). -/
def inpRest : GenInput :=
  { month := 6, year := 2025, firstDay := 0, numDays := 2
    roster := [empI], shiftTypes := [stOFFc, stIP6c], categories := []
    cycleConfigs := [], vacations := [], events := []
    settings := { maxConsecutiveDays := 6, minRestHours := 20
                  weekendScheduling := true } }

/-- Two-day month, one inplay trader, OFF and IP6 in the catalog. -/
def inpBasic : GenInput :=
  { month := 6, year := 2025, firstDay := 0, numDays := 2
    roster := [empI], shiftTypes := [stOFFc, stIP6c], categories := []
    cycleConfigs := [], vacations := [], events := []
    settings := { maxConsecutiveDays := 6, minRestHours := 12
                  weekendScheduling := true } }

/-- One-day month with an empty shift catalog: no OFF shift exists, the
trader has no applicable working shift, and the run produces nothing for
an unlocked in-scope trader (C1 counterexample). -/
def inpNoOff : GenInput :=
  { month := 6, year := 2025, firstDay := 0, numDays := 1
    roster := [empI], shiftTypes := [], categories := []
    cycleConfigs := [], vacations := [], events := []
    settings := { maxConsecutiveDays := 6, minRestHours := 12
                  weekendScheduling := true } }

/-- Two-day month where the trader has an approved vacation covering the
whole month (C2). -/
def inpVacFull : GenInput :=
  { month := 6, year := 2025, firstDay := 0, numDays := 2
    roster := [empI], shiftTypes := [stOFFc, stVACc, stIP6c], categories := []
    cycleConfigs := []
    vacations := [{ employeeId := 2, startDate := 0, endDate := 40
                    status := VacStatus.approved }]
    events := []
    settings := { maxConsecutiveDays := 6, minRestHours := 12
                  weekendScheduling := true } }

/-- One monitor trader with applicable working shifts in both AM (MON6)
and INS (MON12), one-day month (C5 counterexample: AM consumes the only
monitor, INS gets none although an eligible monitor existed that day). -/
def inpOneMonitor : GenInput :=
  { month := 6, year := 2025, firstDay := 0, numDays := 1
    roster := [empM], shiftTypes := [stOFFc, stMON6c, stMON12], categories := []
    cycleConfigs := [], vacations := [], events := []
    settings := { maxConsecutiveDays := 6, minRestHours := 12
                  weekendScheduling := true } }

/-- One monitor trader, max_consecutive_days = 1, two-day month: the
anchor-coverage fallback (pass 2) assigns the forced-to-rest monitor a
working shift on day 1, producing two consecutive working days with no
locked cell (C3 counterexample). -/
def inpTiredMonitor : GenInput :=
  { month := 6, year := 2025, firstDay := 0, numDays := 2
    roster := [empM], shiftTypes := [stOFFc, stMON6c], categories := []
    cycleConfigs := [], vacations := [], events := []
    settings := { maxConsecutiveDays := 1, minRestHours := 12
                  weekendScheduling := true } }

/-! ### Helper lemmas -/

theorem getConsecutiveGo_le (locked runAssg : Nat × Int → Option String)
    (db : List Schedule) (tid : Nat) :
    ∀ (fuel : Nat) (check : Int) (count : Nat),
      getConsecutiveGo locked runAssg db tid fuel check count ≤ count + fuel := by
  intro fuel
  induction fuel with
  | zero => intro check count; simp [getConsecutiveGo]
  | succ n ih =>
    intro check count
    have h1 := ih (check - 1) (count + 1)
    unfold getConsecutiveGo
    split
    · split <;> omega
    · split
      · split <;> omega
      · split
        · split <;> omega
        · omega

theorem getConsecutiveWorkDays_le (locked runAssg : Nat × Int → Option String)
    (db : List Schedule) (tid : Nat) (day : Int) :
    getConsecutiveWorkDays locked runAssg db tid day ≤ 10 := by
  have := getConsecutiveGo_le locked runAssg db tid 10 (day - 1) 0
  simpa [getConsecutiveWorkDays] using this

/-- Membership in an id-collecting filter fold. -/
theorem mem_foldl_collectIds (p : Employee → Bool) :
    ∀ (l : List Employee) (acc : List Nat) (tid : Nat),
      (tid ∈ l.foldl (fun acc t => if p t then acc ++ [t.id] else acc) acc ↔
        tid ∈ acc ∨ ∃ t ∈ l, t.id = tid ∧ p t = true) := by
  intro l
  induction l with
  | nil => intro acc tid; simp
  | cons u rest ih =>
    intro acc tid
    simp only [List.foldl_cons]
    by_cases hp : p u = true
    · rw [if_pos hp, ih]
      constructor
      · rintro (h | h)
        · rcases List.mem_append.mp h with h2 | h2
          · exact Or.inl h2
          · exact Or.inr ⟨u, by simp, (List.mem_singleton.mp h2).symm, hp⟩
        · rcases h with ⟨t, ht, hid, hpt⟩
          exact Or.inr ⟨t, by simp [ht], hid, hpt⟩
      · rintro (h | ⟨t, ht, hid, hpt⟩)
        · exact Or.inl (by simp [h])
        · rcases List.mem_cons.mp ht with h1 | h1
          · subst h1; exact Or.inl (by simp [hid])
          · exact Or.inr ⟨t, h1, hid, hpt⟩
    · rw [if_neg hp, ih]
      constructor
      · rintro (h | ⟨t, ht, hid, hpt⟩)
        · exact Or.inl h
        · exact Or.inr ⟨t, by simp [ht], hid, hpt⟩
      · rintro (h | ⟨t, ht, hid, hpt⟩)
        · exact Or.inl h
        · rcases List.mem_cons.mp ht with h1 | h1
          · exact absurd (h1 ▸ hpt) hp
          · exact Or.inr ⟨t, h1, hid, hpt⟩

theorem mem_computeNeedOff (ctx : DayCtx) (day : Int) (rs : RunState)
    (available : List Employee) (tid : Nat) :
    tid ∈ computeNeedOff ctx day rs available ↔
      ∃ t ∈ available, t.id = tid ∧ mustRest ctx day rs t = true := by
  unfold computeNeedOff
  simpa using mem_foldl_collectIds (mustRest ctx day rs) available [] tid

/-! ### C10: the backward scan of the consecutive-day counter is capped at
10 days. -/

/-- C10. Implicit scan cap on the consecutive-day counter: the count
computed by _get_consecutive_work_days is always at most 10, so when
max_consecutive_days exceeds 10 the consecutive-day forced-rest guard
(consec >= max_consecutive_days, which feeds need_off) never holds for
any trader on any day, and need_off membership degenerates to the
rest-hours check alone. -/
theorem consecutive_scan_capped (ctx : DayCtx) (rs : RunState) (day : Int)
    (tid : Nat) (available : List Employee)
    (hmax : 10 < ctx.settings.maxConsecutiveDays) :
    getConsecutiveWorkDays ctx.locked rs.runAssignments ctx.db tid day ≤ 10 ∧
    ¬ (getConsecutiveWorkDays ctx.locked rs.runAssignments ctx.db tid day ≥
        ctx.settings.maxConsecutiveDays) ∧
    (tid ∈ computeNeedOff ctx day rs available ↔
      ∃ t ∈ available, t.id = tid ∧
        checkRestHours rs.runAssignments ctx.db ctx.stCache rs.lastShift t.id
          day ctx.settings.minRestHours = false) := by
  have hcap := getConsecutiveWorkDays_le ctx.locked rs.runAssignments ctx.db tid day
  refine ⟨hcap, by omega, ?_⟩
  rw [mem_computeNeedOff]
  constructor
  · rintro ⟨t, ht, hid, hmr⟩
    refine ⟨t, ht, hid, ?_⟩
    have hcap2 := getConsecutiveWorkDays_le ctx.locked rs.runAssignments ctx.db t.id day
    unfold mustRest at hmr
    rcases Bool.or_eq_true_iff.mp hmr with h | h
    · exfalso
      have := of_decide_eq_true h
      omega
    · simpa using h
  · rintro ⟨t, ht, hid, hrest⟩
    refine ⟨t, ht, hid, ?_⟩
    unfold mustRest
    simp [hrest]

/-- Witness for consecutive_scan_capped at a concrete state. -/
theorem consecutive_scan_capped_witness :
    getConsecutiveWorkDays ctxCap11.locked rsFresh.runAssignments ctxCap11.db 1 0 ≤ 10 ∧
    ¬ (getConsecutiveWorkDays ctxCap11.locked rsFresh.runAssignments ctxCap11.db 1 0 ≥
        ctxCap11.settings.maxConsecutiveDays) ∧
    (1 ∈ computeNeedOff ctxCap11 0 rsFresh [] ↔
      ∃ t ∈ ([] : List Employee), t.id = 1 ∧
        checkRestHours rsFresh.runAssignments ctxCap11.db ctxCap11.stCache
          rsFresh.lastShift t.id 0 ctxCap11.settings.minRestHours = false) :=
  consecutive_scan_capped ctxCap11 rsFresh 0 1 [] (by decide)

/-! ### Month-day bookkeeping -/

theorem mem_monthDays_bounds (inp : GenInput) (d : Int)
    (hd : d ∈ monthDays inp) : inp.firstDay ≤ d ∧ d ≤ lastDay inp := by
  unfold monthDays at hd
  rcases List.mem_map.mp hd with ⟨i, hi, rfl⟩
  rw [List.mem_range] at hi
  unfold lastDay
  omega

theorem foldl_add_eq_sum (w : α → Int) :
    ∀ (l : List α) (a : Int), l.foldl (fun acc e => acc + w e) a = a + (l.map w).sum := by
  intro l
  induction l with
  | nil => intro a; simp
  | cons x xs ih =>
    intro a
    simp only [List.foldl_cons, List.map_cons, List.sum_cons, ih]
    ring

theorem demandOn_eq_sum (events : List SportEvent) (d : Int) :
    demandOn events d =
      ((events.filter (fun e => eventActiveOn e d)).map
        (fun e => demandWeight e.priority)).sum := by
  unfold demandOn
  simpa using foldl_add_eq_sum (fun e => demandWeight e.priority)
    (events.filter (fun e => eventActiveOn e d)) 0

theorem demandMapOf_on_month (inp : GenInput) (d : Int)
    (hd : d ∈ monthDays inp) :
    demandMapOf inp d = demandOn (consideredEvents inp) d := by
  unfold demandMapOf computeDemandMap
  rw [if_pos]
  exact List.elem_eq_true_of_mem hd

theorem active_mem_consideredEvents (inp : GenInput) (e : SportEvent)
    (he : e ∈ inp.events) (d : Int) (hd : d ∈ monthDays inp)
    (ha : eventActiveOn e d = true) : e ∈ consideredEvents inp := by
  have hb := mem_monthDays_bounds inp d hd
  unfold eventActiveOn eventEndDay at ha
  rcases Bool.and_eq_true_iff.mp ha with ⟨h1, h2⟩
  have h1i : e.dateStart ≤ d := by exact_mod_cast of_decide_eq_true h1
  have h2i : d ≤ e.dateEnd.getD e.dateStart := by exact_mod_cast of_decide_eq_true h2
  unfold consideredEvents
  rw [List.mem_filter]
  refine ⟨he, ?_⟩
  cases hend : e.dateEnd with
  | none =>
    simp only [hend]
    simp only [Bool.and_eq_true, decide_eq_true_eq]
    exact ⟨by omega, trivial⟩
  | some ed =>
    rw [hend] at h2i
    simp only [hend]
    simp only [Bool.and_eq_true, decide_eq_true_eq]
    have : (Option.some ed).getD e.dateStart = ed := rfl
    rw [this] at h2i
    exact ⟨by omega, by omega⟩

/-! ### C9: demand weight formula -/

/-- C9. Demand weight formula: an event of priority p in 1..10 contributes
demand weight 11 - p to every day it is active on (shown for the demand
map of a single-event run), and in particular priority 1 yields weight 10
and priority 10 yields weight 1. demandWeight itself is modelled from the
spec because the api.models module defining the property is not in src. -/
theorem demand_weight_formula (inp : GenInput) (e : SportEvent) (d : Int)
    (hev : inp.events = [e]) (hd : d ∈ monthDays inp)
    (ha : eventActiveOn e d = true)
    (h1 : 1 ≤ e.priority) (h10 : e.priority ≤ 10) :
    demandMapOf inp d = 11 - (e.priority : Int) ∧
    demandWeight 1 = 10 ∧ demandWeight 10 = 1 := by
  refine ⟨?_, by decide, by decide⟩
  rw [demandMapOf_on_month inp d hd]
  have hmem : e ∈ consideredEvents inp := by
    refine active_mem_consideredEvents inp e ?_ d hd ha
    rw [hev]; simp
  have hcons : consideredEvents inp = [e] := by
    unfold consideredEvents
    rw [hev]
    rcases List.mem_filter.mp hmem with ⟨_, hp⟩
    simp [List.filter_cons, hp]
  rw [hcons, demandOn_eq_sum]
  simp [ha, demandWeight]

/-- Witness for demand_weight_formula: a priority-3 event active on day 1
of a two-day month yields demand weight 8. -/
theorem demand_weight_formula_witness :
    demandMapOf inpOneP3 1 = 11 - ((evP3.priority : Int)) ∧
    demandWeight 1 = 10 ∧ demandWeight 10 = 1 :=
  demand_weight_formula inpOneP3 evP3 1 (by decide) (by decide) (by decide)
    (by decide) (by decide)

/-! ### C6: empty-roster abort -/

/-- C6. Empty-roster failure: with no active, non-excluded trader-role
employee, generate aborts before deleting or writing anything: it returns
the input Schedule table unchanged together with a FAILED log carrying the
error entry and zero total assignments. -/
theorem empty_roster_fails (inp : GenInput) (db : List Schedule)
    (h : activeTraders inp = []) :
    (generate inp db).1.status = LogStatus.failed ∧
    (generate inp db).1.totalAssignments = 0 ∧
    (generate inp db).1.errors = ["No hay traders activos disponibles."] ∧
    (generate inp db).2 = db := by
  unfold generate
  rw [h]
  simp [createLog]

/-- Witness for empty_roster_fails on a concrete empty-roster run. -/
theorem empty_roster_fails_witness :
    (generate inpNoTraders []).1.status = LogStatus.failed ∧
    (generate inpNoTraders []).1.totalAssignments = 0 ∧
    (generate inpNoTraders []).1.errors = ["No hay traders activos disponibles."] ∧
    (generate inpNoTraders []).2 = [] :=
  empty_roster_fails inpNoTraders [] (by decide)

/-! ### C4: high-demand day characterisation -/

/-- C4 counterexample: two priority-5 events active on the same day make it
high demand (summed weight 12 >= 9) although no event of priority <= 2 is
active, refuting the claimed if-and-only-if. -/
theorem high_demand_counterexample :
    ¬ (isHighDemandDay (dayCtxOf inpTwoP5 []) 0 = true ↔
        ∃ e ∈ inpTwoP5.events, eventActiveOn e 0 = true ∧ e.priority ≤ 2) := by
  decide

/-- C4 amended: a day of the month is treated as high demand by the
assignment engine iff the summed demand weight of the events active on it
reaches 9; any active priority <= 2 event forces this (its own weight is
already 9 or 10), but lower-priority events can also reach the threshold
together. -/
theorem high_demand_iff_weight (inp : GenInput) (db : List Schedule)
    (day : Int) (hday : day ∈ monthDays inp)
    (hprio : ∀ e ∈ inp.events, e.priority ≤ 11) :
    (isHighDemandDay (dayCtxOf inp db) day = true ↔
      9 ≤ demandOn (consideredEvents inp) day) ∧
    ((∃ e ∈ inp.events, eventActiveOn e day = true ∧ e.priority ≤ 2) →
      isHighDemandDay (dayCtxOf inp db) day = true) := by
  have hmap : (dayCtxOf inp db).demandMap day = demandOn (consideredEvents inp) day := by
    show demandMapOf inp day = _
    exact demandMapOf_on_month inp day hday
  constructor
  · unfold isHighDemandDay
    rw [hmap]
    exact decide_eq_true_iff
  · rintro ⟨e, he, ha, hp⟩
    have hmem := active_mem_consideredEvents inp e he day hday ha
    have hmemf : e ∈ (consideredEvents inp).filter (fun x => eventActiveOn x day) :=
      List.mem_filter.mpr ⟨hmem, ha⟩
    have hnn : ∀ x ∈ ((consideredEvents inp).filter
        (fun x => eventActiveOn x day)).map (fun x => demandWeight x.priority), 0 ≤ x := by
      intro x hx
      rcases List.mem_map.mp hx with ⟨ev, hev, rfl⟩
      have hev2 : ev ∈ inp.events := by
        rcases List.mem_filter.mp hev with ⟨h3, _⟩
        rcases List.mem_filter.mp h3 with ⟨h4, _⟩
        exact h4
      have := hprio ev hev2
      unfold demandWeight
      omega
    have hwe : demandWeight e.priority ∈ ((consideredEvents inp).filter
        (fun x => eventActiveOn x day)).map (fun x => demandWeight x.priority) :=
      List.mem_map.mpr ⟨e, hmemf, rfl⟩
    have hle := List.single_le_sum hnn _ hwe
    have h9 : (9 : Int) ≤ demandWeight e.priority := by
      unfold demandWeight; omega
    have hsum : demandOn (consideredEvents inp) day ≥ 9 := by
      rw [demandOn_eq_sum]
      omega
    unfold isHighDemandDay
    rw [hmap]
    exact decide_eq_true hsum

/-- Witness for high_demand_iff_weight on the two-P5-event day. -/
theorem high_demand_iff_weight_witness :
    (isHighDemandDay (dayCtxOf inpTwoP5 []) 0 = true ↔
      9 ≤ demandOn (consideredEvents inpTwoP5) 0) ∧
    ((∃ e ∈ inpTwoP5.events, eventActiveOn e 0 = true ∧ e.priority ≤ 2) →
      isHighDemandDay (dayCtxOf inpTwoP5 []) 0 = true) :=
  high_demand_iff_weight inpTwoP5 [] 0 (by decide) (by decide)

/-! ### C8: the cycle walk -/

theorem firstMatchFrom_eq_some (cycle : List String) (pos : Nat)
    (codes : List String) :
    ∀ (remaining start off : Nat), start ≤ off → off < start + remaining →
      codes.contains (cycle.getD ((pos + off) % cycle.length) "") = true →
      (∀ k, start ≤ k → k < off →
        codes.contains (cycle.getD ((pos + k) % cycle.length) "") = false) →
      firstMatchFrom cycle pos codes start remaining = some off := by
  intro remaining
  induction remaining with
  | zero => intro start off h1 h2; omega
  | succ n ih =>
    intro start off h1 h2 hmatch hmin
    unfold firstMatchFrom
    by_cases hs : codes.contains (cycle.getD ((pos + start) % cycle.length) "") = true
    · rw [if_pos hs]
      rcases Nat.lt_or_ge start off with hlt | hge
      · rw [hmin start (le_refl start) hlt] at hs
        exact absurd hs (by decide)
      · have : start = off := by omega
        rw [this]
    · rw [if_neg hs]
      have hne : start ≠ off := fun h => hs (h ▸ hmatch)
      exact ih (start + 1) off (by omega) (by omega) hmatch
        (fun k hk1 hk2 => hmin k (by omega) hk2)

theorem firstMatchFrom_eq_none (cycle : List String) (pos : Nat)
    (codes : List String) :
    ∀ (remaining start : Nat),
      (∀ k, start ≤ k → k < start + remaining →
        codes.contains (cycle.getD ((pos + k) % cycle.length) "") = false) →
      firstMatchFrom cycle pos codes start remaining = none := by
  intro remaining
  induction remaining with
  | zero => intro start _; rfl
  | succ n ih =>
    intro start hnone
    have h0 := hnone start (le_refl start) (by omega)
    unfold firstMatchFrom
    rw [if_neg (by rw [h0]; exact Bool.false_ne_true)]
    exact ih (start + 1) (fun k hk1 hk2 => hnone k (by omega) (by omega))

/-- C8. Cycle walk: with a non-empty rotation and a non-empty applicable
set, _pick_shift_from_cycle returns the first shift (in applicable order)
bearing the first rotation code met scanning forward from the current
position with wraparound that lies in the applicable set, advancing the
stored position to just past that code; when no rotation code is
applicable it returns the first applicable candidate, rotation order
ignored and position unchanged. In both cases a shift is returned. -/
theorem cycle_walk (cycle : List String) (pos : Nat)
    (applicable : List ShiftType) (hcyc : cycle ≠ [])
    (happ : applicable ≠ []) :
    (∀ off : Nat, off < cycle.length →
      ((applicable.map (fun s => s.code)).contains
        (cycle.getD ((pos + off) % cycle.length) "") = true) →
      (∀ k : Nat, k < off →
        (applicable.map (fun s => s.code)).contains
          (cycle.getD ((pos + k) % cycle.length) "") = false) →
      ∃ s : ShiftType,
        pickShiftFromCycle cycle pos applicable =
          (some s, (pos + off + 1) % cycle.length) ∧
        s.code = cycle.getD ((pos + off) % cycle.length) "" ∧
        applicable.find? (fun x => x.code = s.code) = some s) ∧
    ((∀ off : Nat, off < cycle.length →
        (applicable.map (fun s => s.code)).contains
          (cycle.getD ((pos + off) % cycle.length) "") = false) →
      pickShiftFromCycle cycle pos applicable = (applicable.head?, pos) ∧
      (applicable.head?).isSome = true) := by
  constructor
  · intro off hoff hmatch hmin
    have hfm : firstMatchOffset cycle pos (applicable.map (fun s => s.code)) =
        some off := by
      unfold firstMatchOffset
      exact firstMatchFrom_eq_some cycle pos _ cycle.length 0 off
        (Nat.zero_le off) (by omega) hmatch (fun k _ hk2 => hmin k hk2)
    have hmem : ∃ x ∈ applicable,
        x.code = cycle.getD ((pos + off) % cycle.length) "" := by
      rcases List.mem_map.mp (List.mem_of_elem_eq_true hmatch) with ⟨x, hx, hxe⟩
      exact ⟨x, hx, hxe⟩
    have hsome : (applicable.find?
        (fun x => decide (x.code = cycle.getD ((pos + off) % cycle.length) ""))).isSome := by
      rw [List.find?_isSome]
      rcases hmem with ⟨x, hx, hxe⟩
      exact ⟨x, hx, by simp [hxe]⟩
    rcases Option.isSome_iff_exists.mp hsome with ⟨s, hs⟩
    refine ⟨s, ?_, ?_, ?_⟩
    · simp only [pickShiftFromCycle, hfm, hs]
    · have := List.find?_some hs
      simpa using this
    · have hcode := List.find?_some hs
      have : s.code = cycle.getD ((pos + off) % cycle.length) "" := by simpa using hcode
      rw [this]
      exact hs
  · intro hnone
    have hfm : firstMatchOffset cycle pos (applicable.map (fun s => s.code)) =
        none := by
      unfold firstMatchOffset
      exact firstMatchFrom_eq_none cycle pos _ cycle.length 0
        (fun k _ hk2 => hnone k (by omega))
    constructor
    · simp only [pickShiftFromCycle, hfm]
    · cases applicable with
      | nil => exact absurd rfl happ
      | cons a l => rfl

/-- Witness for cycle_walk on the built-in monitor rotation at position 1
with MON14 and MON12 applicable (the scan should match MON12 at offset 0,
advancing the position to 2, and return MON12). -/
theorem cycle_walk_witness :
    (∀ off : Nat, off < (["MON6", "MON12", "MON14", "OFF"] : List String).length →
      (([stMON14, stMON12].map (fun s => s.code)).contains
        ((["MON6", "MON12", "MON14", "OFF"] : List String).getD
          ((1 + off) % (["MON6", "MON12", "MON14", "OFF"] : List String).length) "") = true) →
      (∀ k : Nat, k < off →
        ([stMON14, stMON12].map (fun s => s.code)).contains
          ((["MON6", "MON12", "MON14", "OFF"] : List String).getD
            ((1 + k) % (["MON6", "MON12", "MON14", "OFF"] : List String).length) "") = false) →
      ∃ s : ShiftType,
        pickShiftFromCycle ["MON6", "MON12", "MON14", "OFF"] 1 [stMON14, stMON12] =
          (some s, (1 + off + 1) % (["MON6", "MON12", "MON14", "OFF"] : List String).length) ∧
        s.code = (["MON6", "MON12", "MON14", "OFF"] : List String).getD
          ((1 + off) % (["MON6", "MON12", "MON14", "OFF"] : List String).length) "" ∧
        [stMON14, stMON12].find? (fun x => x.code = s.code) = some s) ∧
    ((∀ off : Nat, off < (["MON6", "MON12", "MON14", "OFF"] : List String).length →
        ([stMON14, stMON12].map (fun s => s.code)).contains
          ((["MON6", "MON12", "MON14", "OFF"] : List String).getD
            ((1 + off) % (["MON6", "MON12", "MON14", "OFF"] : List String).length) "") = false) →
      pickShiftFromCycle ["MON6", "MON12", "MON14", "OFF"] 1 [stMON14, stMON12] =
        ([stMON14, stMON12].head?, 1) ∧
      ([stMON14, stMON12].head?).isSome = true) :=
  cycle_walk ["MON6", "MON12", "MON14", "OFF"] 1 [stMON14, stMON12]
    (by decide) (by decide)

/-! ### List utilities for the phase proofs -/

theorem removeFirstById_subset (l : List Employee) (tid : Nat) :
    ∀ x ∈ removeFirstById l tid, x ∈ l := by
  induction l with
  | nil => intro x hx; simp [removeFirstById] at hx
  | cons y ys ih =>
    intro x hx
    unfold removeFirstById at hx
    by_cases h : y.id = tid
    · rw [if_pos h] at hx; exact List.mem_cons_of_mem y hx
    · rw [if_neg h] at hx
      rcases List.mem_cons.mp hx with h1 | h1
      · exact h1 ▸ List.mem_cons_self y ys
      · exact List.mem_cons_of_mem y (ih x h1)

theorem mem_removeFirstById_of_ne (l : List Employee) (tid : Nat) (x : Employee)
    (hx : x ∈ l) (hne : x.id ≠ tid) : x ∈ removeFirstById l tid := by
  induction l with
  | nil => simp at hx
  | cons y ys ih =>
    unfold removeFirstById
    by_cases h : y.id = tid
    · rw [if_pos h]
      rcases List.mem_cons.mp hx with h1 | h1
      · exact absurd (h1 ▸ h) hne
      · exact h1
    · rw [if_neg h]
      rcases List.mem_cons.mp hx with h1 | h1
      · rw [h1]; exact List.mem_cons_self y (removeFirstById ys tid)
      · exact List.mem_cons_of_mem y (ih h1)

theorem removeFirstById_sublist (l : List Employee) (tid : Nat) :
    (removeFirstById l tid).Sublist l := by
  induction l with
  | nil => simp [removeFirstById]
  | cons y ys ih =>
    unfold removeFirstById
    by_cases h : y.id = tid
    · rw [if_pos h]; exact List.sublist_cons_self y ys
    · rw [if_neg h]; exact ih.cons₂ y

theorem removeFirstById_ids_nodup (l : List Employee) (tid : Nat)
    (h : (l.map (fun u => u.id)).Nodup) :
    ((removeFirstById l tid).map (fun u => u.id)).Nodup :=
  List.Nodup.sublist ((removeFirstById_sublist l tid).map (fun u => u.id)) h

theorem not_mem_removeFirstById (l : List Employee) (tid : Nat)
    (h : (l.map (fun u => u.id)).Nodup) :
    ∀ x ∈ removeFirstById l tid, x.id ≠ tid := by
  induction l with
  | nil => intro x hx; simp [removeFirstById] at hx
  | cons y ys ih =>
    intro x hx
    unfold removeFirstById at hx
    by_cases hy : y.id = tid
    · rw [if_pos hy] at hx
      simp only [List.map_cons, List.nodup_cons] at h
      intro hxid
      apply h.1
      have hmm : x.id ∈ ys.map (fun u => u.id) := List.mem_map.mpr ⟨x, hx, rfl⟩
      rw [hxid, ← hy] at hmm
      exact hmm
    · rw [if_neg hy] at hx
      rcases List.mem_cons.mp hx with h1 | h1
      · exact h1 ▸ hy
      · simp only [List.map_cons, List.nodup_cons] at h
        exact ih h.2 x h1

theorem insertBy_perm (lt : α → α → Bool) (x : α) (l : List α) :
    (insertBy lt x l).Perm (x :: l) := by
  induction l with
  | nil => simp [insertBy]
  | cons y ys ih =>
    unfold insertBy
    by_cases h : lt x y
    · rw [if_pos h]
    · rw [if_neg h]
      exact (ih.cons y).trans (List.Perm.swap x y ys)

theorem sortBy_perm (lt : α → α → Bool) (l : List α) : (sortBy lt l).Perm l := by
  suffices h : ∀ (l acc : List α), ((l.foldl (fun acc x => insertBy lt x acc) acc)).Perm (acc ++ l) by
    simpa using h l []
  intro l
  induction l with
  | nil => intro acc; simp
  | cons y ys ih =>
    intro acc
    simp only [List.foldl_cons]
    exact (ih (insertBy lt y acc)).trans
      (((insertBy_perm lt y acc).append_right ys).trans
        (by simpa using List.perm_middle.symm))

theorem ids_nodup_eq (l : List Employee) (h : (l.map (fun u => u.id)).Nodup)
    (a b : Employee) (ha : a ∈ l) (hb : b ∈ l) (hid : a.id = b.id) : a = b := by
  have := List.inj_on_of_nodup_map h
  exact this ha hb hid

/-! ### Seeding and prologue facts -/

theorem foldl_preserve {α β : Type _} (f : β → α → β) (P : β → Prop) :
    ∀ (l : List α) (s : β), (∀ x ∈ l, ∀ s2, P s2 → P (f s2 x)) → P s →
      P (l.foldl f s) := by
  intro l
  induction l with
  | nil => intro s _ hs; exact hs
  | cons x xs ih =>
    intro s hstep hs
    exact ih (f s x) (fun y hy s2 h => hstep y (List.mem_cons_of_mem x hy) s2 h)
      (hstep x (List.mem_cons_self x xs) s hs)

theorem seedStep_frame (ctx : DayCtx) (day : Int) (s : DS) (t : Employee) :
    (seedStep ctx day s t).assignments = s.assignments ∧
    (seedStep ctx day s t).available = s.available ∧
    (seedStep ctx day s t).availMonitors = s.availMonitors ∧
    (seedStep ctx day s t).run = s.run ∧
    (seedStep ctx day s t).needOff = s.needOff ∧
    (seedStep ctx day s t).offToday = s.offToday := by
  unfold seedStep
  split
  · split <;> (try split) <;> (try split) <;> simp
  · simp

theorem seedStep_assigned (ctx : DayCtx) (day : Int) (s : DS) (t : Employee) :
    (seedStep ctx day s t).assignedTraders =
      if (ctx.locked (t.id, day)).isSome then s.assignedTraders ++ [t.id]
      else s.assignedTraders := by
  unfold seedStep
  split
  · rename_i code hcode
    rw [if_pos (by simp [hcode])]
    split <;> (try split) <;> (try split) <;> simp
  · rename_i hcode
    rw [if_neg (by simp [hcode])]

theorem seedFold_frame (ctx : DayCtx) (day : Int) (l : List Employee)
    (s0 : DS) :
    (l.foldl (seedStep ctx day) s0).assignments = s0.assignments ∧
    (l.foldl (seedStep ctx day) s0).available = s0.available ∧
    (l.foldl (seedStep ctx day) s0).availMonitors = s0.availMonitors ∧
    (l.foldl (seedStep ctx day) s0).run = s0.run ∧
    (l.foldl (seedStep ctx day) s0).needOff = s0.needOff ∧
    (l.foldl (seedStep ctx day) s0).offToday = s0.offToday := by
  refine foldl_preserve (seedStep ctx day) (fun s =>
    s.assignments = s0.assignments ∧ s.available = s0.available ∧
    s.availMonitors = s0.availMonitors ∧ s.run = s0.run ∧
    s.needOff = s0.needOff ∧ s.offToday = s0.offToday) l s0 ?_ ?_
  · intro x _ s2 hs
    have hf := seedStep_frame ctx day s2 x
    exact ⟨hf.1.trans hs.1, hf.2.1.trans hs.2.1, hf.2.2.1.trans hs.2.2.1,
      hf.2.2.2.1.trans hs.2.2.2.1, hf.2.2.2.2.1.trans hs.2.2.2.2.1,
      hf.2.2.2.2.2.trans hs.2.2.2.2.2⟩
  · exact ⟨rfl, rfl, rfl, rfl, rfl, rfl⟩

theorem mem_seedFold_assigned (ctx : DayCtx) (day : Int) :
    ∀ (l : List Employee) (s0 : DS) (tid : Nat),
      tid ∈ (l.foldl (seedStep ctx day) s0).assignedTraders ↔
        tid ∈ s0.assignedTraders ∨
        ∃ u ∈ l, u.id = tid ∧ (ctx.locked (u.id, day)).isSome := by
  intro l
  induction l with
  | nil => intro s0 tid; simp
  | cons u rest ih =>
    intro s0 tid
    simp only [List.foldl_cons]
    rw [ih]
    rw [seedStep_assigned]
    by_cases h : (ctx.locked (u.id, day)).isSome
    · rw [if_pos h]
      constructor
      · rintro (hmem | hx)
        · rcases List.mem_append.mp hmem with h2 | h2
          · exact Or.inl h2
          · exact Or.inr ⟨u, by simp, (List.mem_singleton.mp h2).symm, h⟩
        · rcases hx with ⟨v, hv, hid, hsome⟩
          exact Or.inr ⟨v, by simp [hv], hid, hsome⟩
      · rintro (hmem | ⟨v, hv, hid, hsome⟩)
        · exact Or.inl (by simp [hmem])
        · rcases List.mem_cons.mp hv with h1 | h1
          · subst h1; exact Or.inl (by simp [hid])
          · exact Or.inr ⟨v, h1, hid, hsome⟩
    · rw [if_neg h]
      constructor
      · rintro (hmem | ⟨v, hv, hid, hsome⟩)
        · exact Or.inl hmem
        · exact Or.inr ⟨v, by simp [hv], hid, hsome⟩
      · rintro (hmem | ⟨v, hv, hid, hsome⟩)
        · exact Or.inl hmem
        · rcases List.mem_cons.mp hv with h1 | h1
          · exact absurd (h1 ▸ hsome) h
          · exact Or.inr ⟨v, h1, hid, hsome⟩

theorem seedLocked_frame (ctx : DayCtx) (day : Int) (rs : RunState) :
    (seedLocked ctx day rs).assignments = [] ∧
    (seedLocked ctx day rs).available = [] ∧
    (seedLocked ctx day rs).availMonitors = [] ∧
    (seedLocked ctx day rs).run = rs ∧
    (seedLocked ctx day rs).needOff = [] ∧
    (seedLocked ctx day rs).offToday = 0 :=
  seedFold_frame ctx day ctx.traders (seedInit rs)

theorem mem_seedLocked_assigned (ctx : DayCtx) (day : Int) (rs : RunState)
    (tid : Nat) :
    tid ∈ (seedLocked ctx day rs).assignedTraders ↔
      ∃ u ∈ ctx.traders, u.id = tid ∧ (ctx.locked (u.id, day)).isSome := by
  rw [seedLocked, mem_seedFold_assigned]
  simp [seedInit]

theorem mem_stageSorted_available (ctx : DayCtx) (day : Int) (rs : RunState)
    (u : Employee) :
    u ∈ (stageSorted ctx day rs).available ↔
      u ∈ ctx.traders ∧ u.id ∉ (seedLocked ctx day rs).assignedTraders := by
  show u ∈ sortBy _ (availableOf ctx (seedLocked ctx day rs)) ↔ _
  rw [(sortBy_perm _ _).mem_iff]
  unfold availableOf
  rw [List.mem_filter]
  constructor
  · rintro ⟨h1, h2⟩
    rw [decide_eq_true_iff] at h2
    exact ⟨h1, fun hmem => h2 (List.elem_eq_true_of_mem hmem)⟩
  · rintro ⟨h1, h2⟩
    exact ⟨h1, decide_eq_true (fun hc => h2 (List.elem_iff.mp hc))⟩

theorem stageSorted_base (ctx : DayCtx) (day : Int) (rs : RunState) :
    (stageSorted ctx day rs).assignments = [] ∧
    (stageSorted ctx day rs).run = rs ∧
    (stageSorted ctx day rs).assignedTraders =
      (seedLocked ctx day rs).assignedTraders ∧
    (stageSorted ctx day rs).availMonitors =
      (stageSorted ctx day rs).available.filter
        (fun t => t.role == Role.monitorTrader) := by
  have hf := seedLocked_frame ctx day rs
  exact ⟨hf.1, hf.2.2.2.1, rfl, rfl⟩

theorem WS_stageSorted (ctx : DayCtx) (day : Int) (rs : RunState) :
    WS ctx day (stageSorted ctx day rs) := by
  have havail : ∀ u ∈ (stageSorted ctx day rs).available,
      u ∈ ctx.traders ∧ ctx.locked (u.id, day) = none := by
    intro u hu
    rcases (mem_stageSorted_available ctx day rs u).mp hu with ⟨h1, h2⟩
    refine ⟨h1, ?_⟩
    by_cases hl : ctx.locked (u.id, day) = none
    · exact hl
    · exfalso
      exact h2 ((mem_seedLocked_assigned ctx day rs u.id).mpr
        ⟨u, h1, rfl, Option.isSome_iff_ne_none.mpr hl⟩)
  refine ⟨havail, ?_, ?_, ?_⟩
  · intro u hu
    have : u ∈ (stageSorted ctx day rs).available :=
      List.mem_of_mem_filter hu
    exact havail u this
  · rw [(stageSorted_base ctx day rs).1]
    intro a ha
    simp at ha
  · intro u hu hlock
    rw [(stageSorted_base ctx day rs).2.2.1]
    exact (mem_seedLocked_assigned ctx day rs u.id).mpr
      ⟨u, hu, rfl, Option.isSome_iff_ne_none.mpr hlock⟩

theorem IdsNodup_stageSorted (ctx : DayCtx) (day : Int) (rs : RunState)
    (h : (ctx.traders.map (fun u => u.id)).Nodup) :
    IdsNodup (stageSorted ctx day rs) := by
  have h1 : ((stageSorted ctx day rs).available.map (fun u => u.id)).Nodup := by
    have hperm : ((stageSorted ctx day rs).available.map (fun u => u.id)).Perm
        ((availableOf ctx (seedLocked ctx day rs)).map (fun u => u.id)) :=
      (sortBy_perm _ _).map _
    rw [hperm.nodup_iff]
    exact List.Nodup.sublist ((List.filter_sublist _).map _) h
  refine ⟨h1, ?_⟩
  exact List.Nodup.sublist ((List.filter_sublist _).map _) h1

theorem stageSorted_untouched (ctx : DayCtx) (day : Int) (rs : RunState)
    (t : Employee) (ht : t ∈ ctx.traders)
    (hids : (ctx.traders.map (fun u => u.id)).Nodup)
    (hlock : ctx.locked (t.id, day) = none) :
    Untouched (stageSorted ctx day rs) t := by
  have hna : t.id ∉ (seedLocked ctx day rs).assignedTraders := by
    intro hmem
    rcases (mem_seedLocked_assigned ctx day rs t.id).mp hmem with
      ⟨u, hu, hid, hsome⟩
    have : u = t := ids_nodup_eq ctx.traders hids u t hu ht hid
    rw [this, hlock] at hsome
    cases hsome
  refine ⟨?_, ?_, ?_⟩
  · unfold cntRows
    rw [(stageSorted_base ctx day rs).1]
    rfl
  · rw [(stageSorted_base ctx day rs).2.2.1]
    exact hna
  · exact (mem_stageSorted_available ctx day rs t).mpr ⟨ht, hna⟩

theorem stageSorted_locked_done (ctx : DayCtx) (day : Int) (rs : RunState)
    (t : Employee) (ht : t ∈ ctx.traders)
    (hids : (ctx.traders.map (fun u => u.id)).Nodup)
    (hlock : (ctx.locked (t.id, day)).isSome) :
    TDone (stageSorted ctx day rs) t.id 0 := by
  refine ⟨?_, ?_, ?_, ?_⟩
  · unfold cntRows
    rw [(stageSorted_base ctx day rs).1]
    rfl
  · rw [(stageSorted_base ctx day rs).2.2.1]
    exact (mem_seedLocked_assigned ctx day rs t.id).mpr ⟨t, ht, rfl, hlock⟩
  · intro u hu hid
    rcases (WS_stageSorted ctx day rs).1 u hu with ⟨hut, hul⟩
    have : u = t := ids_nodup_eq ctx.traders hids u t hut ht hid
    rw [this] at hul
    rw [hul] at hlock
    cases hlock
  · intro u hu hid
    have hu2 : u ∈ (stageSorted ctx day rs).available :=
      List.mem_of_mem_filter hu
    rcases (WS_stageSorted ctx day rs).1 u hu2 with ⟨hut, hul⟩
    have : u = t := ids_nodup_eq ctx.traders hids u t hut ht hid
    rw [this] at hul
    rw [hul] at hlock
    cases hlock

/-! ### Step characterisations -/

theorem assignShift_fields (s : DS) (t : Employee) (day : Int) (st : ShiftType) :
    (assignShift s t day st).assignments = s.assignments ++
      [{ employeeId := t.id, date := day, shiftType := st,
         editSource := EditSource.algorithm }] ∧
    (assignShift s t day st).assignedTraders = s.assignedTraders ∧
    (assignShift s t day st).available = s.available ∧
    (assignShift s t day st).availMonitors = s.availMonitors ∧
    (assignShift s t day st).needOff = s.needOff ∧
    (assignShift s t day st).offToday = s.offToday :=
  ⟨rfl, rfl, rfl, rfl, rfl, rfl⟩

theorem assignOffTo_fields (s : DS) (t : Employee) (day : Int) (off : ShiftType) :
    (assignOffTo s t day off).assignments = s.assignments ++
      [{ employeeId := t.id, date := day, shiftType := off,
         editSource := EditSource.algorithm }] ∧
    (assignOffTo s t day off).assignedTraders = s.assignedTraders ∧
    (assignOffTo s t day off).available = s.available ∧
    (assignOffTo s t day off).availMonitors = s.availMonitors ∧
    (assignOffTo s t day off).needOff = s.needOff ∧
    (assignOffTo s t day off).offToday = s.offToday :=
  ⟨rfl, rfl, rfl, rfl, rfl, rfl⟩

theorem cntRows_of_append (s s2 : DS) (row : Schedule)
    (h : s2.assignments = s.assignments ++ [row]) (tid : Nat) :
    cntRows s2 tid = cntRows s tid + (if row.employeeId = tid then 1 else 0) := by
  unfold cntRows
  rw [h, List.filter_append, List.length_append]
  by_cases h2 : row.employeeId = tid <;> simp [h2]

theorem cntRows_congr (s s2 : DS) (h : s2.assignments = s.assignments)
    (tid : Nat) : cntRows s2 tid = cntRows s tid := by
  unfold cntRows
  rw [h]

theorem pickShift_mem (cycle : List String) (pos : Nat)
    (applicable : List ShiftType) (shift : ShiftType)
    (h : (pickShiftFromCycle cycle pos applicable).1 = some shift) :
    shift ∈ applicable := by
  unfold pickShiftFromCycle at h
  simp only [] at h
  split at h
  · exact List.mem_of_find?_eq_some h
  · exact List.mem_of_mem_head? h

theorem monitorScan_some_spec (ctx : DayCtx) (day : Int) (cat : String)
    (passOne : Bool) :
    ∀ (m : List Employee) (s s2 : DS),
      monitorScan ctx day cat passOne m s = some s2 →
      ∃ u ∈ m, ∃ shift ∈ catShiftsForMonitor ctx cat u,
        (passOne = true → u.id ∉ s.needOff) ∧
        s2.assignments = s.assignments ++
          [{ employeeId := u.id, date := day, shiftType := shift,
             editSource := EditSource.algorithm }] ∧
        s2.assignedTraders = s.assignedTraders ++ [u.id] ∧
        s2.available = removeFirstById s.available u.id ∧
        s2.availMonitors = removeFirstById s.availMonitors u.id ∧
        s2.needOff = s.needOff.filter (fun x => x ≠ u.id) ∧
        s2.offToday = s.offToday := by
  intro m
  induction m with
  | nil => intro s s2 h; simp [monitorScan] at h
  | cons u rest ih =>
    intro s s2 h
    unfold monitorScan at h
    by_cases hskip : (passOne && s.needOff.contains u.id) = true
    · rw [if_pos hskip] at h
      rcases ih s s2 h with ⟨v, hv, rest2⟩
      exact ⟨v, List.mem_cons_of_mem u hv, rest2⟩
    · rw [if_neg hskip] at h
      by_cases hempty : (catShiftsForMonitor ctx cat u).isEmpty = true
      · rw [if_pos hempty] at h
        rcases ih s s2 h with ⟨v, hv, rest2⟩
        exact ⟨v, List.mem_cons_of_mem u hv, rest2⟩
      · rw [if_neg hempty] at h
        simp only [] at h
        rcases hpick : (pickShiftFromCycle ((ctx.cycles u.role).getD [])
            (s.run.cyclePositions u.id) (catShiftsForMonitor ctx cat u)).1 with _ | shift
        · rw [hpick] at h
          simp only [] at h
          rcases ih s s2 h with ⟨v, hv, rest2⟩
          exact ⟨v, List.mem_cons_of_mem u hv, rest2⟩
        · rw [hpick] at h
          simp only [] at h
          refine ⟨u, List.mem_cons_self u rest, shift, pickShift_mem _ _ _ _ hpick, ?_⟩
          have hs2 := Option.some_injective _ h
          refine ⟨?_, ?_⟩
          · intro hp1 hmem
            apply hskip
            rw [hp1]
            simpa using List.elem_eq_true_of_mem hmem
          · rw [← hs2]
            exact ⟨rfl, rfl, rfl, rfl, rfl, rfl⟩

/-! ### Invariant transport -/

theorem WS_of_fieldsEq (ctx : DayCtx) (day : Int) (s s2 : DS)
    (h : FieldsEq s s2) (hws : WS ctx day s) : WS ctx day s2 := by
  rcases h with ⟨h1, h2, h3, h4, _, _⟩
  refine ⟨?_, ?_, ?_, ?_⟩
  · rw [h3]; exact hws.1
  · rw [h4]; exact hws.2.1
  · rw [h1]; exact hws.2.2.1
  · intro u hu hl
    rw [h2]
    exact hws.2.2.2 u hu hl

theorem untouched_of_fieldsEq (s s2 : DS) (t : Employee) (h : FieldsEq s s2)
    (hu : Untouched s t) : Untouched s2 t := by
  rcases h with ⟨h1, h2, h3, _, _, _⟩
  refine ⟨?_, ?_, ?_⟩
  · rw [cntRows_congr s s2 h1 t.id]; exact hu.1
  · rw [h2]; exact hu.2.1
  · rw [h3]; exact hu.2.2

theorem tdone_of_fieldsEq (s s2 : DS) (tid n : Nat) (h : FieldsEq s s2)
    (hd : TDone s tid n) : TDone s2 tid n := by
  rcases h with ⟨h1, h2, h3, h4, _, _⟩
  refine ⟨?_, ?_, ?_, ?_⟩
  · rw [cntRows_congr s s2 h1 tid]; exact hd.1
  · rw [h2]; exact hd.2.1
  · rw [h3]; exact hd.2.2.1
  · rw [h4]; exact hd.2.2.2

theorem idsNodup_of_fieldsEq (s s2 : DS) (h : FieldsEq s s2)
    (hn : IdsNodup s) : IdsNodup s2 := by
  rcases h with ⟨_, _, h3, h4, _, _⟩
  exact ⟨h3 ▸ hn.1, h4 ▸ hn.2⟩

theorem WS_of_assign (ctx : DayCtx) (day : Int) (s s2 : DS) (u : Employee)
    (shift : ShiftType) (hu : u ∈ ctx.traders)
    (hl : ctx.locked (u.id, day) = none)
    (ha : s2.assignments = s.assignments ++
      [{ employeeId := u.id, date := day, shiftType := shift,
         editSource := EditSource.algorithm }])
    (hat : ∀ x ∈ s.assignedTraders, x ∈ s2.assignedTraders)
    (hav : ∀ v ∈ s2.available, v ∈ s.available)
    (ham : ∀ v ∈ s2.availMonitors, v ∈ s.availMonitors)
    (hws : WS ctx day s) : WS ctx day s2 := by
  refine ⟨?_, ?_, ?_, ?_⟩
  · intro v hv; exact hws.1 v (hav v hv)
  · intro v hv; exact hws.2.1 v (ham v hv)
  · intro a hmem
    rw [ha] at hmem
    rcases List.mem_append.mp hmem with h1 | h1
    · exact hws.2.2.1 a h1
    · rw [List.mem_singleton.mp h1]
      exact ⟨rfl, rfl, ⟨u, hu, rfl⟩, hl⟩
  · intro v hv hvl
    exact hat v.id (hws.2.2.2 v hv hvl)

/-! ### Monitor phase -/

theorem monitorStep_spec (ctx : DayCtx) (day : Int) (s : DS) (cat : String) :
    FieldsEq s (monitorStep ctx day s cat) ∨
    ∃ u ∈ s.availMonitors, ∃ shift ∈ catShiftsForMonitor ctx cat u,
      (monitorStep ctx day s cat).assignments = s.assignments ++
        [{ employeeId := u.id, date := day, shiftType := shift,
           editSource := EditSource.algorithm }] ∧
      (monitorStep ctx day s cat).assignedTraders = s.assignedTraders ++ [u.id] ∧
      (monitorStep ctx day s cat).available = removeFirstById s.available u.id ∧
      (monitorStep ctx day s cat).availMonitors =
        removeFirstById s.availMonitors u.id ∧
      (monitorStep ctx day s cat).needOff = s.needOff.filter (fun x => x ≠ u.id) ∧
      (monitorStep ctx day s cat).offToday = s.offToday := by
  unfold monitorStep
  simp only []
  split
  · exact Or.inl ⟨rfl, rfl, rfl, rfl, rfl, rfl⟩
  · rcases h1 : monitorScan ctx day cat true s.availMonitors s with _ | s2
    · rcases h2 : monitorScan ctx day cat false s.availMonitors s with _ | s3
      · exact Or.inl ⟨rfl, rfl, rfl, rfl, rfl, rfl⟩
      · rcases monitorScan_some_spec ctx day cat false s.availMonitors s s3 h2 with
          ⟨u, hu, shift, hsh, _, hfields⟩
        exact Or.inr ⟨u, hu, shift, hsh, hfields⟩
    · rcases monitorScan_some_spec ctx day cat true s.availMonitors s s2 h1 with
        ⟨u, hu, shift, hsh, _, hfields⟩
      exact Or.inr ⟨u, hu, shift, hsh, hfields⟩

/-- Weakened settled state once avail_monitors is no longer consulted
(after the monitor phase): n rows, registered assigned, and out of the
available pool. -/
def TD1 (s : DS) (tid : Nat) (n : Nat) : Prop :=
  cntRows s tid = n ∧ tid ∈ s.assignedTraders ∧
  (∀ u ∈ s.available, u.id ≠ tid)

/-- Invariant of the monitor loop for tracked trader t and target count n. -/
def QM (ctx : DayCtx) (day : Int) (t : Employee) (n : Nat) (s : DS) : Prop :=
  WS ctx day s ∧ IdsNodup s ∧ (Untouched s t → n = 1) ∧
  (Untouched s t ∨ TDone s t.id n)

/-- Invariant of the Phase-1 loop. -/
def QP (ctx : DayCtx) (day : Int) (t : Employee) (n : Nat) (s : DS) : Prop :=
  WS ctx day s ∧ IdsNodup s ∧ (Untouched s t → n = 1) ∧
  (Untouched s t ∨ TD1 s t.id n)

theorem td1_of_fieldsEq (s s2 : DS) (tid n : Nat) (h : FieldsEq s s2)
    (hd : TD1 s tid n) : TD1 s2 tid n := by
  rcases h with ⟨h1, h2, h3, _, _, _⟩
  refine ⟨?_, ?_, ?_⟩
  · rw [cntRows_congr s s2 h1 tid]; exact hd.1
  · rw [h2]; exact hd.2.1
  · rw [h3]; exact hd.2.2

/-- A monitor-rule assignment step preserves the monitor-loop invariant. -/
theorem QM_step_assign (ctx : DayCtx) (day : Int) (t : Employee) (n : Nat)
    (hids : (ctx.traders.map (fun u => u.id)).Nodup) (ht : t ∈ ctx.traders)
    (s s2 : DS) (u : Employee) (shift : ShiftType)
    (humem : u ∈ s.availMonitors)
    (ha : s2.assignments = s.assignments ++
      [{ employeeId := u.id, date := day, shiftType := shift,
         editSource := EditSource.algorithm }])
    (hat : s2.assignedTraders = s.assignedTraders ++ [u.id])
    (hav : s2.available = removeFirstById s.available u.id)
    (ham : s2.availMonitors = removeFirstById s.availMonitors u.id)
    (hq : QM ctx day t n s) : QM ctx day t n s2 := by
  rcases hq with ⟨hws, hnd, himp, hstate⟩
  have huT : u ∈ ctx.traders ∧ ctx.locked (u.id, day) = none := hws.2.1 u humem
  have havsub : ∀ v ∈ s2.available, v ∈ s.available := by
    rw [hav]; exact removeFirstById_subset s.available u.id
  have hamsub : ∀ v ∈ s2.availMonitors, v ∈ s.availMonitors := by
    rw [ham]; exact removeFirstById_subset s.availMonitors u.id
  have hws2 : WS ctx day s2 :=
    WS_of_assign ctx day s s2 u shift huT.1 huT.2 ha
      (fun x hx => by rw [hat]; exact List.mem_append_left _ hx) havsub hamsub hws
  have hnd2 : IdsNodup s2 := by
    constructor
    · rw [hav]; exact removeFirstById_ids_nodup s.available u.id hnd.1
    · rw [ham]; exact removeFirstById_ids_nodup s.availMonitors u.id hnd.2
  have hcnt : cntRows s2 t.id = cntRows s t.id + (if u.id = t.id then 1 else 0) := by
    simpa using cntRows_of_append s s2 _ ha t.id
  refine ⟨hws2, hnd2, ?_, ?_⟩
  · intro hu2
    rcases hstate with hus | hds
    · exact himp hus
    · exfalso
      apply hu2.2.1
      rw [hat]
      exact List.mem_append_left _ hds.2.1
  · rcases hstate with hus | hds
    · by_cases hid : u.id = t.id
      · have hn1 : n = 1 := himp hus
        have h0 := hus.1
        right
        refine ⟨?_, ?_, ?_, ?_⟩
        · rw [hcnt, if_pos hid]; omega
        · rw [hat, hid]; exact List.mem_append_right _ (by simp)
        · intro v hv
          rw [hav] at hv
          have := not_mem_removeFirstById s.available u.id hnd.1 v hv
          rw [hid] at this
          exact this
        · intro v hv
          rw [ham] at hv
          have := not_mem_removeFirstById s.availMonitors u.id hnd.2 v hv
          rw [hid] at this
          exact this
      · left
        have h0 := hus.1
        refine ⟨?_, ?_, ?_⟩
        · rw [hcnt, if_neg hid]; omega
        · rw [hat]
          intro hmem
          rcases List.mem_append.mp hmem with h1 | h1
          · exact hus.2.1 h1
          · exact hid (List.mem_singleton.mp h1).symm
        · rw [hav]
          exact mem_removeFirstById_of_ne s.available u.id t hus.2.2
            (fun he => hid he.symm)
    · right
      have huid : u.id ≠ t.id := hds.2.2.2 u humem
      have h0 := hds.1
      refine ⟨?_, ?_, ?_, ?_⟩
      · rw [hcnt, if_neg huid]; omega
      · rw [hat]; exact List.mem_append_left _ hds.2.1
      · intro v hv; exact hds.2.2.1 v (havsub v hv)
      · intro v hv; exact hds.2.2.2 v (hamsub v hv)

theorem QM_monitorStep (ctx : DayCtx) (day : Int) (t : Employee) (n : Nat)
    (hids : (ctx.traders.map (fun u => u.id)).Nodup) (ht : t ∈ ctx.traders)
    (s : DS) (cat : String) (hq : QM ctx day t n s) :
    QM ctx day t n (monitorStep ctx day s cat) := by
  rcases monitorStep_spec ctx day s cat with hfe | ⟨u, hu, shift, _, hfields⟩
  · rcases hq with ⟨hws, hnd, himp, hstate⟩
    refine ⟨WS_of_fieldsEq ctx day s _ hfe hws, idsNodup_of_fieldsEq s _ hfe hnd, ?_, ?_⟩
    · intro hu2
      apply himp
      rcases hfe with ⟨h1, h2, h3, _, _, _⟩
      exact ⟨by rw [← cntRows_congr s _ h1 t.id]; exact hu2.1,
        by rw [← h2]; exact hu2.2.1, by rw [← h3]; exact hu2.2.2⟩
    · rcases hstate with hus | hds
      · exact Or.inl (untouched_of_fieldsEq s _ t hfe hus)
      · exact Or.inr (tdone_of_fieldsEq s _ t.id n hfe hds)
  · exact QM_step_assign ctx day t n hids ht s _ u shift hu hfields.1
      hfields.2.1 hfields.2.2.1 hfields.2.2.2.1 hq

theorem QM_stageMonitor (ctx : DayCtx) (day : Int) (t : Employee) (n : Nat)
    (hids : (ctx.traders.map (fun u => u.id)).Nodup) (ht : t ∈ ctx.traders)
    (rs : RunState) (hq : QM ctx day t n (stageSorted ctx day rs)) :
    QM ctx day t n (stageMonitor ctx day rs) := by
  unfold stageMonitor
  exact foldl_preserve (monitorStep ctx day) (QM ctx day t n) monitorTargetCats
    (stageSorted ctx day rs)
    (fun cat _ s2 h => QM_monitorStep ctx day t n hids ht s2 cat h) hq

/-! ### Phase 1 -/

theorem QP_step_assign (ctx : DayCtx) (day : Int) (t : Employee) (n : Nat)
    (s s2 : DS) (u : Employee) (shift : ShiftType)
    (huT : u ∈ ctx.traders) (hul : ctx.locked (u.id, day) = none)
    (hne : TD1 s t.id n → u.id ≠ t.id)
    (ha : s2.assignments = s.assignments ++
      [{ employeeId := u.id, date := day, shiftType := shift,
         editSource := EditSource.algorithm }])
    (hat : s2.assignedTraders = s.assignedTraders ++ [u.id])
    (hav : s2.available = removeFirstById s.available u.id)
    (ham : s2.availMonitors = s.availMonitors)
    (hq : QP ctx day t n s) : QP ctx day t n s2 := by
  rcases hq with ⟨hws, hnd, himp, hstate⟩
  have havsub : ∀ v ∈ s2.available, v ∈ s.available := by
    rw [hav]; exact removeFirstById_subset s.available u.id
  have hamsub : ∀ v ∈ s2.availMonitors, v ∈ s.availMonitors := by
    rw [ham]; intro v hv; exact hv
  have hws2 : WS ctx day s2 :=
    WS_of_assign ctx day s s2 u shift huT hul ha
      (fun x hx => by rw [hat]; exact List.mem_append_left _ hx) havsub hamsub hws
  have hnd2 : IdsNodup s2 := by
    constructor
    · rw [hav]; exact removeFirstById_ids_nodup s.available u.id hnd.1
    · rw [ham]; exact hnd.2
  have hcnt : cntRows s2 t.id = cntRows s t.id + (if u.id = t.id then 1 else 0) := by
    simpa using cntRows_of_append s s2 _ ha t.id
  refine ⟨hws2, hnd2, ?_, ?_⟩
  · intro hu2
    rcases hstate with hus | hds
    · exact himp hus
    · exfalso
      apply hu2.2.1
      rw [hat]
      exact List.mem_append_left _ hds.2.1
  · rcases hstate with hus | hds
    · by_cases hid : u.id = t.id
      · have hn1 : n = 1 := himp hus
        have h0 := hus.1
        right
        refine ⟨?_, ?_, ?_⟩
        · rw [hcnt, if_pos hid]; omega
        · rw [hat, hid]; exact List.mem_append_right _ (by simp)
        · intro v hv
          rw [hav] at hv
          have := not_mem_removeFirstById s.available u.id hnd.1 v hv
          rw [hid] at this
          exact this
      · left
        have h0 := hus.1
        refine ⟨?_, ?_, ?_⟩
        · rw [hcnt, if_neg hid]; omega
        · rw [hat]
          intro hmem
          rcases List.mem_append.mp hmem with h1 | h1
          · exact hus.2.1 h1
          · exact hid (List.mem_singleton.mp h1).symm
        · rw [hav]
          exact mem_removeFirstById_of_ne s.available u.id t hus.2.2
            (fun he => hid he.symm)
    · right
      have huid : u.id ≠ t.id := hne hds
      have h0 := hds.1
      refine ⟨?_, ?_, ?_⟩
      · rw [hcnt, if_neg huid]; omega
      · rw [hat]; exact List.mem_append_left _ hds.2.1
      · intro v hv; exact hds.2.2 v (havsub v hv)

theorem QP_phase1Scan (ctx : DayCtx) (day : Int) (cat : String) (needed : Nat)
    (catShifts : List ShiftType) (high : Bool) (t : Employee) (n : Nat) :
    ∀ (snap : List Employee) (filled : Nat) (s : DS),
      (∀ u ∈ snap, u ∈ ctx.traders ∧ ctx.locked (u.id, day) = none) →
      ((snap.map (fun u => u.id)).Nodup) →
      (TD1 s t.id n → ∀ u ∈ snap, u.id ≠ t.id) →
      QP ctx day t n s →
      QP ctx day t n (phase1Scan ctx day cat needed catShifts high snap filled s).1 := by
  intro snap
  induction snap with
  | nil => intro filled s _ _ _ hq; exact hq
  | cons u rest ih =>
    intro filled s hsnap hnodup hD hq
    unfold phase1Scan
    by_cases hfill : filled ≥ needed
    · rw [if_pos hfill]; exact hq
    · rw [if_neg hfill]
      by_cases hskip : (s.needOff.contains u.id && ¬ high) = true
      · rw [if_pos hskip]
        exact ih filled s (fun v hv => hsnap v (List.mem_cons_of_mem u hv))
          (by simpa using (List.nodup_cons.mp (by simpa using hnodup)).2)
          (fun htd v hv => hD htd v (List.mem_cons_of_mem u hv)) hq
      · rw [if_neg hskip]
        by_cases hempty : (catShifts.filter
            (fun st => shiftApplicableToTrader st u)).isEmpty = true
        · rw [if_pos hempty]
          exact ih filled s (fun v hv => hsnap v (List.mem_cons_of_mem u hv))
            (by simpa using (List.nodup_cons.mp (by simpa using hnodup)).2)
            (fun htd v hv => hD htd v (List.mem_cons_of_mem u hv)) hq
        · rw [if_neg hempty]
          simp only []
          rcases hpick : (pickShiftFromCycle ((ctx.cycles u.role).getD [])
              (s.run.cyclePositions u.id)
              (catShifts.filter (fun st => shiftApplicableToTrader st u))).1
            with _ | shift
          · simp only []
            exact ih filled s (fun v hv => hsnap v (List.mem_cons_of_mem u hv))
              (by simpa using (List.nodup_cons.mp (by simpa using hnodup)).2)
              (fun htd v hv => hD htd v (List.mem_cons_of_mem u hv)) hq
          · simp only []
            set s3 := { assignShift s u day shift with
              run := { (assignShift s u day shift).run with
                cyclePositions := updFun (assignShift s u day shift).run.cyclePositions
                  u.id (pickShiftFromCycle ((ctx.cycles u.role).getD [])
                    (s.run.cyclePositions u.id)
                    (catShifts.filter (fun st => shiftApplicableToTrader st u))).2
                lastShift := updFun (assignShift s u day shift).run.lastShift
                  u.id (some shift.code) }
              dayCoverage := updFun (assignShift s u day shift).dayCoverage cat
                ((assignShift s u day shift).dayCoverage cat + 1)
              assignedTraders := (assignShift s u day shift).assignedTraders ++ [u.id]
              available := removeFirstById (assignShift s u day shift).available u.id }
              with hs3
            have hq3 : QP ctx day t n s3 := by
              refine QP_step_assign ctx day t n s s3 u shift
                (hsnap u (List.mem_cons_self u rest)).1
                (hsnap u (List.mem_cons_self u rest)).2
                (fun htd => hD htd u (List.mem_cons_self u rest))
                rfl rfl rfl rfl hq
            refine ih (filled + 1) s3 (fun v hv => hsnap v (List.mem_cons_of_mem u hv))
              (by simpa using (List.nodup_cons.mp (by simpa using hnodup)).2)
              ?_ hq3
            intro htd3 v hv
            rcases hq3.2.2.2 with hus3 | htd3b
            · exact absurd htd3.2.1 hus3.2.1
            · by_cases hid : u.id = t.id
              · intro hvid
                have hnd0 : u.id ∉ rest.map (fun w => w.id) :=
                  (List.nodup_cons.mp (by simpa using hnodup)).1
                exact hnd0 (by rw [hid, ← hvid]; exact List.mem_map.mpr ⟨v, hv, rfl⟩)
              · rcases hq.2.2.2 with hus | htd
                · exfalso
                  apply hus.2.1
                  have := htd3.2.1
                  rw [hs3] at this
                  simp only [] at this
                  rcases List.mem_append.mp this with h1 | h1
                  · exact h1
                  · exact absurd (List.mem_singleton.mp h1).symm hid
                · exact hD htd v (List.mem_cons_of_mem u hv)

theorem fieldsEq_symm (s s2 : DS) (h : FieldsEq s s2) : FieldsEq s2 s :=
  ⟨h.1.symm, h.2.1.symm, h.2.2.1.symm, h.2.2.2.1.symm, h.2.2.2.2.1.symm,
   h.2.2.2.2.2.symm⟩

theorem QP_of_fieldsEq (ctx : DayCtx) (day : Int) (t : Employee) (n : Nat)
    (s s2 : DS) (h : FieldsEq s s2) (hq : QP ctx day t n s) :
    QP ctx day t n s2 := by
  rcases hq with ⟨hws, hnd, himp, hstate⟩
  refine ⟨WS_of_fieldsEq ctx day s s2 h hws, idsNodup_of_fieldsEq s s2 h hnd, ?_, ?_⟩
  · intro hu2
    exact himp (untouched_of_fieldsEq s2 s t (fieldsEq_symm s s2 h) hu2)
  · rcases hstate with hus | hds
    · exact Or.inl (untouched_of_fieldsEq s s2 t h hus)
    · exact Or.inr (td1_of_fieldsEq s s2 t.id n h hds)

theorem QP_phase1Step (ctx : DayCtx) (day : Int) (high : Bool) (t : Employee)
    (n : Nat) (s : DS) (cat : ShiftCategory) (hq : QP ctx day t n s) :
    QP ctx day t n (phase1Step ctx day high s cat) := by
  unfold phase1Step
  by_cases h1 : ctxCatMin ctx cat.code ≤ s.dayCoverage cat.code
  · rw [if_pos h1]; exact hq
  · rw [if_neg h1]
    by_cases h2 : (catShiftsForCategory ctx cat.code).isEmpty = true
    · rw [if_pos h2]; exact hq
    · rw [if_neg h2]
      simp only []
      have hscan : QP ctx day t n (phase1Scan ctx day cat.code
          (ctxCatMin ctx cat.code - s.dayCoverage cat.code)
          (catShiftsForCategory ctx cat.code) high s.available 0 s).1 := by
        refine QP_phase1Scan ctx day cat.code _ _ high t n s.available 0 s
          (fun u hu => hq.1.1 u hu) hq.2.1.1 ?_ hq
        intro htd u hu
        exact htd.2.2 u hu
      split
      · exact QP_of_fieldsEq ctx day t n _ _ ⟨rfl, rfl, rfl, rfl, rfl, rfl⟩ hscan
      · exact hscan

theorem QP_of_QM (ctx : DayCtx) (day : Int) (t : Employee) (n : Nat) (s : DS)
    (hq : QM ctx day t n s) : QP ctx day t n s := by
  rcases hq with ⟨hws, hnd, himp, hstate⟩
  refine ⟨hws, hnd, himp, ?_⟩
  rcases hstate with hus | hds
  · exact Or.inl hus
  · exact Or.inr ⟨hds.1, hds.2.1, hds.2.2.1⟩

theorem QP_stagePhase1 (ctx : DayCtx) (day : Int) (t : Employee) (n : Nat)
    (rs : RunState) (hq : QP ctx day t n (stageMonitor ctx day rs)) :
    QP ctx day t n (stagePhase1 ctx day rs) := by
  unfold stagePhase1
  exact foldl_preserve (phase1Step ctx day (isHighDemandDay ctx day))
    (QP ctx day t n) ctx.categories (stageMonitor ctx day rs)
    (fun cat _ s2 h => QP_phase1Step ctx day (isHighDemandDay ctx day) t n s2 cat h) hq

/-! ### Phase 2 -/

theorem firstMatchFrom_some_contains (cycle : List String) (pos : Nat)
    (codes : List String) :
    ∀ (remaining start off : Nat),
      firstMatchFrom cycle pos codes start remaining = some off →
      codes.contains (cycle.getD ((pos + off) % cycle.length) "") = true := by
  intro remaining
  induction remaining with
  | zero => intro start off h; simp [firstMatchFrom] at h
  | succ k ih =>
    intro start off h
    unfold firstMatchFrom at h
    by_cases hc : codes.contains (cycle.getD ((pos + start) % cycle.length) "") = true
    · rw [if_pos hc] at h
      rw [← Option.some_injective _ h]
      exact hc
    · rw [if_neg hc] at h
      exact ih (start + 1) off h

theorem pickShift_isSome (cycle : List String) (pos : Nat)
    (applicable : List ShiftType) (h : applicable ≠ []) :
    ∃ st, (pickShiftFromCycle cycle pos applicable).1 = some st := by
  unfold pickShiftFromCycle
  simp only []
  rcases hfm : firstMatchOffset cycle pos (applicable.map (fun s => s.code))
    with _ | off
  · rw [hfm]
    simp only []
    cases applicable with
    | nil => exact absurd rfl h
    | cons a l => exact ⟨a, rfl⟩
  · rw [hfm]
    simp only []
    have hcont := firstMatchFrom_some_contains cycle pos _ cycle.length 0 off hfm
    rcases List.mem_map.mp (List.mem_of_elem_eq_true hcont) with ⟨x, hx, hxe⟩
    have : ∃ b ∈ applicable,
        (fun s => decide (s.code = cycle.getD ((pos + off) % cycle.length) "")) b
          = true := ⟨x, hx, by simp [hxe]⟩
    rcases Option.isSome_iff_exists.mp (List.find?_isSome.mpr this) with ⟨st, hst⟩
    exact ⟨st, hst⟩

theorem phase2Step_spec (ctx : DayCtx) (day : Int) (high : Bool) (emax : Nat)
    (off : Option ShiftType) (s : DS) (u : Employee) :
    FieldsEq s (phase2Step ctx day high emax off s u) ∨
    ∃ st : ShiftType,
      (phase2Step ctx day high emax off s u).assignments = s.assignments ++
        [{ employeeId := u.id, date := day, shiftType := st,
           editSource := EditSource.algorithm }] ∧
      (phase2Step ctx day high emax off s u).assignedTraders =
        s.assignedTraders ++ [u.id] ∧
      (phase2Step ctx day high emax off s u).available = s.available ∧
      (phase2Step ctx day high emax off s u).availMonitors = s.availMonitors ∧
      (phase2Step ctx day high emax off s u).needOff = s.needOff := by
  unfold phase2Step
  simp only []
  split
  · exact Or.inr ⟨_, rfl, rfl, rfl, rfl, rfl⟩
  · split
    · split
      · exact Or.inr ⟨_, rfl, rfl, rfl, rfl, rfl⟩
      · exact Or.inl ⟨rfl, rfl, rfl, rfl, rfl, rfl⟩
    · split
      · split
        · exact Or.inr ⟨_, rfl, rfl, rfl, rfl, rfl⟩
        · exact Or.inr ⟨_, rfl, rfl, rfl, rfl, rfl⟩
      · split
        · exact Or.inr ⟨_, rfl, rfl, rfl, rfl, rfl⟩
        · exact Or.inl ⟨rfl, rfl, rfl, rfl, rfl, rfl⟩

theorem phase2Step_assigns (ctx : DayCtx) (day : Int) (high : Bool)
    (emax : Nat) (o : ShiftType) (s : DS) (u : Employee) :
    ∃ st : ShiftType,
      (phase2Step ctx day high emax (some o) s u).assignments =
        s.assignments ++
        [{ employeeId := u.id, date := day, shiftType := st,
           editSource := EditSource.algorithm }] ∧
      (phase2Step ctx day high emax (some o) s u).assignedTraders =
        s.assignedTraders ++ [u.id] ∧
      (phase2Step ctx day high emax (some o) s u).available = s.available ∧
      (phase2Step ctx day high emax (some o) s u).availMonitors =
        s.availMonitors ∧
      (phase2Step ctx day high emax (some o) s u).needOff = s.needOff := by
  unfold phase2Step
  simp only []
  split
  · exact ⟨_, rfl, rfl, rfl, rfl, rfl⟩
  · rename_i hnone
    by_cases hempty : (((ctx.cycles u.role).getD ["OFF"]).filterMap (fun c =>
        if c = "OFF" then none
        else
          match cacheGet ctx.stCache c with
          | some st => if shiftApplicableToTrader st u then some st else none
          | none => none)).isEmpty = true
    · rw [if_pos hempty]
      exact ⟨o, rfl, rfl, rfl, rfl, rfl⟩
    · rw [if_neg hempty]
      have hne : ((ctx.cycles u.role).getD ["OFF"]).filterMap (fun c =>
          if c = "OFF" then none
          else
            match cacheGet ctx.stCache c with
            | some st => if shiftApplicableToTrader st u then some st else none
            | none => none) ≠ [] := by
        intro he
        rw [he] at hempty
        exact hempty rfl
      rcases pickShift_isSome ((ctx.cycles u.role).getD [])
          (s.run.cyclePositions u.id) _ hne with ⟨st, hst⟩
      rw [hst]
      simp only []
      split
      · exact ⟨_, rfl, rfl, rfl, rfl, rfl⟩
      · exact ⟨_, rfl, rfl, rfl, rfl, rfl⟩

theorem done_of_cnt_assigned (s s2 : DS) (tid n : Nat)
    (h1 : s2.assignments = s.assignments)
    (h2 : s2.assignedTraders = s.assignedTraders)
    (hd : Done s tid n) : Done s2 tid n := by
  refine ⟨?_, ?_⟩
  · rw [cntRows_congr s s2 h1 tid]; exact hd.1
  · rw [h2]; exact hd.2

theorem WS_of_eq4 (ctx : DayCtx) (day : Int) (s s2 : DS)
    (h1 : s2.assignments = s.assignments)
    (h2 : s2.assignedTraders = s.assignedTraders)
    (h3 : s2.available = s.available)
    (h4 : s2.availMonitors = s.availMonitors)
    (hws : WS ctx day s) : WS ctx day s2 := by
  refine ⟨?_, ?_, ?_, ?_⟩
  · rw [h3]; exact hws.1
  · rw [h4]; exact hws.2.1
  · rw [h1]; exact hws.2.2.1
  · intro u hu hl
    rw [h2]
    exact hws.2.2.2 u hu hl

theorem WS_seedLocked (ctx : DayCtx) (day : Int) (rs : RunState) :
    WS ctx day (seedLocked ctx day rs) := by
  have hf := seedLocked_frame ctx day rs
  refine ⟨?_, ?_, ?_, ?_⟩
  · rw [hf.2.1]; intro u hu; simp at hu
  · rw [hf.2.2.1]; intro u hu; simp at hu
  · rw [hf.1]; intro a ha; simp at ha
  · intro u hu hl
    exact (mem_seedLocked_assigned ctx day rs u.id).mpr
      ⟨u, hu, rfl, Option.isSome_iff_ne_none.mpr hl⟩

theorem guaranteeStep_spec (ctx : DayCtx) (day : Int) (off : Option ShiftType)
    (s : DS) (u : Employee) :
    FieldsEq s (guaranteeStep ctx day off s u) ∨
    (u.id ∉ s.assignedTraders ∧ ctx.locked (u.id, day) = none ∧
      ∃ o : ShiftType, off = some o ∧
      (guaranteeStep ctx day off s u).assignments = s.assignments ++
        [{ employeeId := u.id, date := day, shiftType := o,
           editSource := EditSource.algorithm }] ∧
      (guaranteeStep ctx day off s u).assignedTraders = s.assignedTraders ∧
      (guaranteeStep ctx day off s u).available = s.available ∧
      (guaranteeStep ctx day off s u).availMonitors = s.availMonitors ∧
      (guaranteeStep ctx day off s u).needOff = s.needOff ∧
      (guaranteeStep ctx day off s u).offToday = s.offToday) := by
  unfold guaranteeStep
  by_cases hc : s.assignedTraders.contains u.id = true
  · rw [if_pos hc]
    exact Or.inl ⟨rfl, rfl, rfl, rfl, rfl, rfl⟩
  · rw [if_neg hc]
    rcases hl : ctx.locked (u.id, day) with _ | code
    · rcases hoff : off with _ | o
      · exact Or.inl ⟨rfl, rfl, rfl, rfl, rfl, rfl⟩
      · refine Or.inr ⟨fun hm => hc (List.elem_eq_true_of_mem hm), rfl, o, rfl,
          rfl, rfl, rfl, rfl, rfl, rfl⟩
    · exact Or.inl ⟨rfl, rfl, rfl, rfl, rfl, rfl⟩

theorem weekendStep_spec (off : Option ShiftType) (day : Int) (s : DS)
    (u : Employee) :
    FieldsEq s (weekendStep off day s u) ∨
    (u.id ∉ s.assignedTraders ∧
      ∃ o : ShiftType, off = some o ∧
      (weekendStep off day s u).assignments = s.assignments ++
        [{ employeeId := u.id, date := day, shiftType := o,
           editSource := EditSource.algorithm }] ∧
      (weekendStep off day s u).assignedTraders = s.assignedTraders ∧
      (weekendStep off day s u).available = s.available ∧
      (weekendStep off day s u).availMonitors = s.availMonitors ∧
      (weekendStep off day s u).needOff = s.needOff ∧
      (weekendStep off day s u).offToday = s.offToday) := by
  unfold weekendStep
  by_cases hc : s.assignedTraders.contains u.id = true
  · rw [if_pos hc]
    exact Or.inl ⟨rfl, rfl, rfl, rfl, rfl, rfl⟩
  · rw [if_neg hc]
    rcases hoff : off with _ | o
    · exact Or.inl ⟨rfl, rfl, rfl, rfl, rfl, rfl⟩
    · refine Or.inr ⟨fun hm => hc (List.elem_eq_true_of_mem hm), o, rfl,
        rfl, rfl, rfl, rfl, rfl, rfl⟩

theorem phase2_fold (ctx : DayCtx) (day : Int) (high : Bool) (emax : Nat)
    (o : ShiftType) (t : Employee) (n : Nat) :
    ∀ (snap : List Employee) (s : DS),
      (∀ u ∈ snap, u ∈ ctx.traders ∧ ctx.locked (u.id, day) = none) →
      ((snap.map (fun u => u.id)).Nodup) →
      WS ctx day s →
      ((cntRows s t.id = 0 ∧ t.id ∉ s.assignedTraders ∧ t ∈ snap ∧ n = 1) ∨
        (Done s t.id n ∧ ∀ u ∈ snap, u.id ≠ t.id)) →
      WS ctx day (snap.foldl (phase2Step ctx day high emax (some o)) s) ∧
      Done (snap.foldl (phase2Step ctx day high emax (some o)) s) t.id n := by
  intro snap
  induction snap with
  | nil =>
    intro s _ _ hws hstate
    rcases hstate with ⟨_, _, htin, _⟩ | ⟨hdone, _⟩
    · simp at htin
    · exact ⟨hws, hdone⟩
  | cons u rest ih =>
    intro s hsnap hnodup hws hstate
    simp only [List.foldl_cons]
    rcases phase2Step_assigns ctx day high emax o s u with
      ⟨st, ha, hat, hav, ham, hno⟩
    set s2 := phase2Step ctx day high emax (some o) s u with hs2
    have huT := hsnap u (List.mem_cons_self u rest)
    have hws2 : WS ctx day s2 :=
      WS_of_assign ctx day s s2 u st huT.1 huT.2 ha
        (fun x hx => by rw [hat]; exact List.mem_append_left _ hx)
        (fun v hv => by rw [hav] at hv; exact hv)
        (fun v hv => by rw [ham] at hv; exact hv) hws
    have hcnt : cntRows s2 t.id = cntRows s t.id + (if u.id = t.id then 1 else 0) := by
      simpa using cntRows_of_append s s2 _ ha t.id
    have hrest : ∀ v ∈ rest, v ∈ ctx.traders ∧ ctx.locked (v.id, day) = none :=
      fun v hv => hsnap v (List.mem_cons_of_mem u hv)
    have hrnodup : (rest.map (fun w => w.id)).Nodup :=
      (by simpa using (List.nodup_cons.mp (by simpa using hnodup)).2)
    have hhead : u.id ∉ rest.map (fun w => w.id) :=
      (List.nodup_cons.mp (by simpa using hnodup)).1
    rcases hstate with ⟨h0, hna, htin, hn1⟩ | ⟨hdone, hexc⟩
    · by_cases hid : u.id = t.id
      · refine ih s2 hrest hrnodup hws2 (Or.inr ⟨⟨?_, ?_⟩, ?_⟩)
        · rw [hcnt, if_pos hid]; omega
        · rw [hat, hid]; exact List.mem_append_right _ (by simp)
        · intro v hv hvid
          exact hhead (by rw [hid, ← hvid]; exact List.mem_map.mpr ⟨v, hv, rfl⟩)
      · refine ih s2 hrest hrnodup hws2 (Or.inl ⟨?_, ?_, ?_, hn1⟩)
        · rw [hcnt, if_neg hid]; omega
        · rw [hat]
          intro hmem
          rcases List.mem_append.mp hmem with h1 | h1
          · exact hna h1
          · exact hid (List.mem_singleton.mp h1).symm
        · rcases List.mem_cons.mp htin with h1 | h1
          · exfalso; apply hid; rw [h1]
          · exact h1
    · have huid : u.id ≠ t.id := hexc u (List.mem_cons_self u rest)
      have h0 := hdone.1
      refine ih s2 hrest hrnodup hws2 (Or.inr ⟨⟨?_, ?_⟩, ?_⟩)
      · rw [hcnt, if_neg huid]; omega
      · rw [hat]; exact List.mem_append_left _ hdone.2
      · intro v hv
        exact hexc v (List.mem_cons_of_mem u hv)

theorem guarantee_fold (ctx : DayCtx) (day : Int) (off : Option ShiftType)
    (t : Employee) (n : Nat) :
    ∀ (l : List Employee) (s : DS),
      (∀ u ∈ l, u ∈ ctx.traders) → WS ctx day s → Done s t.id n →
      WS ctx day (l.foldl (guaranteeStep ctx day off) s) ∧
      Done (l.foldl (guaranteeStep ctx day off) s) t.id n := by
  intro l
  induction l with
  | nil => intro s _ hws hdone; exact ⟨hws, hdone⟩
  | cons u rest ih =>
    intro s hl hws hdone
    simp only [List.foldl_cons]
    rcases guaranteeStep_spec ctx day off s u with hfe | ⟨hna, hlock, o, _, ha, hat, hav, ham, _, _⟩
    · exact ih _ (fun v hv => hl v (List.mem_cons_of_mem u hv))
        (WS_of_fieldsEq ctx day s _ hfe hws)
        (done_of_cnt_assigned s _ t.id n hfe.1 hfe.2.1 hdone)
    · have huid : u.id ≠ t.id := fun he => hna (he ▸ hdone.2)
      have hcnt : cntRows (guaranteeStep ctx day off s u) t.id = cntRows s t.id := by
        have := cntRows_of_append s _ _ ha t.id
        simpa [huid] using this
      refine ih _ (fun v hv => hl v (List.mem_cons_of_mem u hv)) ?_ ⟨by rw [hcnt]; exact hdone.1, by rw [hat]; exact hdone.2⟩
      exact WS_of_assign ctx day s _ u o (hl u (List.mem_cons_self u rest)) hlock ha
        (fun x hx => by rw [hat]; exact hx)
        (fun v hv => by rw [hav] at hv; exact hv)
        (fun v hv => by rw [ham] at hv; exact hv) hws

theorem weekend_fold (ctx : DayCtx) (day : Int) (off : Option ShiftType)
    (o : ShiftType) (hoffo : off = some o) (t : Employee) (n : Nat) :
    ∀ (l : List Employee) (s : DS),
      (∀ u ∈ l, u ∈ ctx.traders) →
      ((l.map (fun u => u.id)).Nodup) →
      WS ctx day s →
      ((cntRows s t.id = 0 ∧ t.id ∉ s.assignedTraders ∧ t ∈ l ∧ n = 1) ∨
        (cntRows s t.id = n ∧ (t.id ∈ s.assignedTraders ∨ ∀ u ∈ l, u.id ≠ t.id))) →
      WS ctx day (l.foldl (weekendStep off day) s) ∧
      cntRows (l.foldl (weekendStep off day) s) t.id = n := by
  intro l
  induction l with
  | nil =>
    intro s _ _ hws hstate
    rcases hstate with ⟨_, _, htin, _⟩ | ⟨hcnt, _⟩
    · simp at htin
    · exact ⟨hws, hcnt⟩
  | cons u rest ih =>
    intro s hl hnodup hws hstate
    simp only [List.foldl_cons]
    have hrest : ∀ v ∈ rest, v ∈ ctx.traders :=
      fun v hv => hl v (List.mem_cons_of_mem u hv)
    have hrnodup : (rest.map (fun w => w.id)).Nodup :=
      (by simpa using (List.nodup_cons.mp (by simpa using hnodup)).2)
    have hhead : u.id ∉ rest.map (fun w => w.id) :=
      (List.nodup_cons.mp (by simpa using hnodup)).1
    rcases weekendStep_spec off day s u with hfe | ⟨hna, o2, _, ha, hat, hav, ham, _, _⟩
    · have hws2 := WS_of_fieldsEq ctx day s _ hfe hws
      have hcnteq := cntRows_congr s _ hfe.1 t.id
      rcases hstate with ⟨h0, hna, htin, hn1⟩ | ⟨hcnt, hdisj⟩
      · rcases List.mem_cons.mp htin with h1 | h1
        · exfalso
          subst h1
          have hc : s.assignedTraders.contains t.id = false := by
            by_cases hcc : s.assignedTraders.contains t.id = true
            · exact absurd (List.elem_iff.mp hcc) hna
            · simpa using hcc
          have heq : weekendStep off day s t = assignOffTo s t day o := by
            unfold weekendStep
            rw [hoffo]
            rw [if_neg (by rw [hc]; exact Bool.false_ne_true)]
          have hfa := hfe.1
          rw [heq, (assignOffTo_fields s t day o).1] at hfa
          simpa using congrArg List.length hfa
        · refine ih _ hrest hrnodup hws2 (Or.inl ⟨?_, ?_, h1, hn1⟩)
          · rw [hcnteq]; exact h0
          · rw [hfe.2.1]; exact hna
      · refine ih _ hrest hrnodup hws2 (Or.inr ⟨?_, ?_⟩)
        · rw [hcnteq]; exact hcnt
        · rcases hdisj with h1 | h1
          · exact Or.inl (by rw [hfe.2.1]; exact h1)
          · exact Or.inr (fun v hv => h1 v (List.mem_cons_of_mem u hv))
    · have huT := hl u (List.mem_cons_self u rest)
      have hulock : ctx.locked (u.id, day) = none := by
        by_cases hlk : ctx.locked (u.id, day) = none
        · exact hlk
        · exact absurd (hws.2.2.2 u huT hlk) hna
      have hws2 : WS ctx day (weekendStep off day s u) :=
        WS_of_assign ctx day s _ u o2 huT hulock ha
          (fun x hx => by rw [hat]; exact hx)
          (fun v hv => by rw [hav] at hv; exact hv)
          (fun v hv => by rw [ham] at hv; exact hv) hws
      have hcnt2 : cntRows (weekendStep off day s u) t.id =
          cntRows s t.id + (if u.id = t.id then 1 else 0) := by
        simpa using cntRows_of_append s _ _ ha t.id
      rcases hstate with ⟨h0, hna2, htin, hn1⟩ | ⟨hcnt, hdisj⟩
      · by_cases hid : u.id = t.id
        · refine ih _ hrest hrnodup hws2 (Or.inr ⟨?_, Or.inr ?_⟩)
          · rw [hcnt2, if_pos hid]; omega
          · intro v hv hvid
            exact hhead (by rw [hid, ← hvid]; exact List.mem_map.mpr ⟨v, hv, rfl⟩)
        · refine ih _ hrest hrnodup hws2 (Or.inl ⟨?_, ?_, ?_, hn1⟩)
          · rw [hcnt2, if_neg hid]; omega
          · rw [hat]; exact hna2
          · rcases List.mem_cons.mp htin with h1 | h1
            · exfalso; apply hid; rw [h1]
            · exact h1
      · have huid : u.id ≠ t.id := by
          intro he
          rcases hdisj with h1 | h1
          · exact hna (he ▸ h1)
          · exact h1 u (List.mem_cons_self u rest) he
        refine ih _ hrest hrnodup hws2 (Or.inr ⟨?_, ?_⟩)
        · rw [hcnt2, if_neg huid]; omega
        · rcases hdisj with h1 | h1
          · exact Or.inl (by rw [hat]; exact h1)
          · exact Or.inr (fun v hv => h1 v (List.mem_cons_of_mem u hv))

/-! ### Per-day counting theorem -/

theorem assignDay_exactly_one (ctx : DayCtx) (rs : RunState) (day : Int)
    (o : ShiftType) (hoff : cacheGet ctx.stCache "OFF" = some o)
    (hids : (ctx.traders.map (fun u => u.id)).Nodup)
    (t : Employee) (ht : t ∈ ctx.traders) :
    ((assignDay ctx rs day).1.filter (fun a => a.employeeId == t.id)).length =
      if ctx.locked (t.id, day) = none then 1 else 0 := by
  set n := if ctx.locked (t.id, day) = none then 1 else 0 with hn
  unfold assignDay
  by_cases hw : (¬ ctx.settings.weekendScheduling && isWeekendDay day) = true
  · rw [if_pos hw]
    show cntRows (weekendState ctx day rs) t.id = n
    have hcnt0 : cntRows (seedLocked ctx day rs) t.id = 0 := by
      unfold cntRows
      rw [(seedLocked_frame ctx day rs).1]
      rfl
    unfold weekendState
    refine (weekend_fold ctx day (cacheGet ctx.stCache "OFF") o hoff t n
      ctx.traders (seedLocked ctx day rs) (fun u hu => hu) hids
      (WS_seedLocked ctx day rs) ?_).2
    by_cases hl : ctx.locked (t.id, day) = none
    · left
      refine ⟨hcnt0, ?_, ht, by rw [hn, if_pos hl]⟩
      intro hmem
      rcases (mem_seedLocked_assigned ctx day rs t.id).mp hmem with
        ⟨u, hu, hid, hsome⟩
      have heq := ids_nodup_eq ctx.traders hids u t hu ht hid
      rw [heq, hl] at hsome
      cases hsome
    · right
      refine ⟨by rw [hn, if_neg hl]; exact hcnt0, Or.inl ?_⟩
      exact (mem_seedLocked_assigned ctx day rs t.id).mpr
        ⟨t, ht, rfl, Option.isSome_iff_ne_none.mpr hl⟩
  · rw [if_neg hw]
    show cntRows (stageFinal ctx day rs) t.id = n
    have hqm : QM ctx day t n (stageSorted ctx day rs) := by
      by_cases hl : ctx.locked (t.id, day) = none
      · exact ⟨WS_stageSorted ctx day rs, IdsNodup_stageSorted ctx day rs hids,
          fun _ => by rw [hn, if_pos hl],
          Or.inl (stageSorted_untouched ctx day rs t ht hids hl)⟩
      · have hdone := stageSorted_locked_done ctx day rs t ht hids
          (Option.isSome_iff_ne_none.mpr hl)
        refine ⟨WS_stageSorted ctx day rs, IdsNodup_stageSorted ctx day rs hids,
          ?_, Or.inr ?_⟩
        · intro hu
          exact (hu.2.1 hdone.2.1).elim
        · exact ⟨by rw [hn, if_neg hl]; exact hdone.1, hdone.2.1,
            hdone.2.2.1, hdone.2.2.2⟩
    have hqp : QP ctx day t n (stagePhase1 ctx day rs) :=
      QP_stagePhase1 ctx day t n rs
        (QP_of_QM ctx day t n _ (QM_stageMonitor ctx day t n hids ht rs hqm))
    set s5 : DS := { stagePhase1 ctx day rs with
      offToday := offTodayInitOf ctx day } with hs5
    have hqp5 : QP ctx day t n s5 := hqp
    have hstage2 : stagePhase2 ctx day rs = s5.available.foldl
        (phase2Step ctx day (isHighDemandDay ctx day) (effectiveMaxOffOf ctx day)
          (some o)) s5 := by
      unfold stagePhase2
      rw [hoff]
    rcases hqp5 with ⟨hws5, hnd5, himp5, hstate5⟩
    have hfold := phase2_fold ctx day (isHighDemandDay ctx day)
      (effectiveMaxOffOf ctx day) o t n s5.available s5
      (fun u hu => hws5.1 u hu) hnd5.1 hws5 ?_
    · have hfin := guarantee_fold ctx day (cacheGet ctx.stCache "OFF") t n
        ctx.traders (stagePhase2 ctx day rs) (fun u hu => hu)
        (by rw [hstage2]; exact hfold.1) (by rw [hstage2]; exact hfold.2)
      exact hfin.2.1
    · rcases hstate5 with hus | htd
      · exact Or.inl ⟨hus.1, hus.2.1, hus.2.2, himp5 hus⟩
      · exact Or.inr ⟨⟨htd.1, htd.2.1⟩, htd.2.2⟩

/-! ### Row-shape (WS) preservation without counting hypotheses -/

theorem WS_monitorStep (ctx : DayCtx) (day : Int) (s : DS) (cat : String)
    (hws : WS ctx day s) : WS ctx day (monitorStep ctx day s cat) := by
  rcases monitorStep_spec ctx day s cat with hfe | ⟨u, hu, shift, _, hfields⟩
  · exact WS_of_fieldsEq ctx day s _ hfe hws
  · have huT := hws.2.1 u hu
    refine WS_of_assign ctx day s _ u shift huT.1 huT.2 hfields.1
      (fun x hx => by rw [hfields.2.1]; exact List.mem_append_left _ hx)
      (fun v hv => by
        rw [hfields.2.2.1] at hv
        exact removeFirstById_subset s.available u.id v hv)
      (fun v hv => by
        rw [hfields.2.2.2.1] at hv
        exact removeFirstById_subset s.availMonitors u.id v hv) hws

theorem WS_stageMonitor (ctx : DayCtx) (day : Int) (rs : RunState) :
    WS ctx day (stageMonitor ctx day rs) := by
  unfold stageMonitor
  exact foldl_preserve (monitorStep ctx day) (WS ctx day) monitorTargetCats
    (stageSorted ctx day rs)
    (fun cat _ s2 h => WS_monitorStep ctx day s2 cat h)
    (WS_stageSorted ctx day rs)

theorem WS_phase1Scan (ctx : DayCtx) (day : Int) (cat : String) (needed : Nat)
    (catShifts : List ShiftType) (high : Bool) :
    ∀ (snap : List Employee) (filled : Nat) (s : DS),
      (∀ u ∈ snap, u ∈ ctx.traders ∧ ctx.locked (u.id, day) = none) →
      WS ctx day s →
      WS ctx day (phase1Scan ctx day cat needed catShifts high snap filled s).1 := by
  intro snap
  induction snap with
  | nil => intro filled s _ hws; exact hws
  | cons u rest ih =>
    intro filled s hsnap hws
    unfold phase1Scan
    by_cases hfill : filled ≥ needed
    · rw [if_pos hfill]; exact hws
    · rw [if_neg hfill]
      by_cases hskip : (s.needOff.contains u.id && ¬ high) = true
      · rw [if_pos hskip]
        exact ih filled s (fun v hv => hsnap v (List.mem_cons_of_mem u hv)) hws
      · rw [if_neg hskip]
        by_cases hempty : (catShifts.filter
            (fun st => shiftApplicableToTrader st u)).isEmpty = true
        · rw [if_pos hempty]
          exact ih filled s (fun v hv => hsnap v (List.mem_cons_of_mem u hv)) hws
        · rw [if_neg hempty]
          simp only []
          rcases hpick : (pickShiftFromCycle ((ctx.cycles u.role).getD [])
              (s.run.cyclePositions u.id)
              (catShifts.filter (fun st => shiftApplicableToTrader st u))).1
            with _ | shift
          · simp only []
            exact ih filled s (fun v hv => hsnap v (List.mem_cons_of_mem u hv)) hws
          · simp only []
            refine ih (filled + 1) _ (fun v hv => hsnap v (List.mem_cons_of_mem u hv)) ?_
            have huT := hsnap u (List.mem_cons_self u rest)
            refine WS_of_assign ctx day s _ u shift huT.1 huT.2 rfl
              (fun x hx => List.mem_append_left _ hx)
              (fun v hv => removeFirstById_subset s.available u.id v hv)
              (fun v hv => hv) hws

theorem WS_phase1Step (ctx : DayCtx) (day : Int) (high : Bool) (s : DS)
    (cat : ShiftCategory) (hws : WS ctx day s) :
    WS ctx day (phase1Step ctx day high s cat) := by
  unfold phase1Step
  by_cases h1 : ctxCatMin ctx cat.code ≤ s.dayCoverage cat.code
  · rw [if_pos h1]; exact hws
  · rw [if_neg h1]
    by_cases h2 : (catShiftsForCategory ctx cat.code).isEmpty = true
    · rw [if_pos h2]; exact hws
    · rw [if_neg h2]
      simp only []
      have hscan := WS_phase1Scan ctx day cat.code
        (ctxCatMin ctx cat.code - s.dayCoverage cat.code)
        (catShiftsForCategory ctx cat.code) high s.available 0 s
        (fun u hu => hws.1 u hu) hws
      split
      · exact WS_of_eq4 ctx day _ _ rfl rfl rfl rfl hscan
      · exact hscan

theorem WS_stagePhase1 (ctx : DayCtx) (day : Int) (rs : RunState) :
    WS ctx day (stagePhase1 ctx day rs) := by
  unfold stagePhase1
  exact foldl_preserve (phase1Step ctx day (isHighDemandDay ctx day))
    (WS ctx day) ctx.categories (stageMonitor ctx day rs)
    (fun cat _ s2 h => WS_phase1Step ctx day (isHighDemandDay ctx day) s2 cat h)
    (WS_stageMonitor ctx day rs)

theorem WS_phase2_fold (ctx : DayCtx) (day : Int) (high : Bool) (emax : Nat)
    (off : Option ShiftType) :
    ∀ (snap : List Employee) (s : DS),
      (∀ u ∈ snap, u ∈ ctx.traders ∧ ctx.locked (u.id, day) = none) →
      WS ctx day s →
      WS ctx day (snap.foldl (phase2Step ctx day high emax off) s) := by
  intro snap
  induction snap with
  | nil => intro s _ hws; exact hws
  | cons u rest ih =>
    intro s hsnap hws
    simp only [List.foldl_cons]
    refine ih _ (fun v hv => hsnap v (List.mem_cons_of_mem u hv)) ?_
    rcases phase2Step_spec ctx day high emax off s u with hfe | ⟨st, ha, hat, hav, ham, _⟩
    · exact WS_of_fieldsEq ctx day s _ hfe hws
    · have huT := hsnap u (List.mem_cons_self u rest)
      exact WS_of_assign ctx day s _ u st huT.1 huT.2 ha
        (fun x hx => by rw [hat]; exact List.mem_append_left _ hx)
        (fun v hv => by rw [hav] at hv; exact hv)
        (fun v hv => by rw [ham] at hv; exact hv) hws

theorem WS_stagePhase2 (ctx : DayCtx) (day : Int) (rs : RunState) :
    WS ctx day (stagePhase2 ctx day rs) := by
  unfold stagePhase2
  simp only []
  have hws5 : WS ctx day { stagePhase1 ctx day rs with
      offToday := offTodayInitOf ctx day } :=
    WS_of_eq4 ctx day (stagePhase1 ctx day rs) _ rfl rfl rfl rfl
      (WS_stagePhase1 ctx day rs)
  exact WS_phase2_fold ctx day (isHighDemandDay ctx day)
    (effectiveMaxOffOf ctx day) (cacheGet ctx.stCache "OFF") _ _
    (fun u hu => hws5.1 u hu) hws5

theorem WS_guarantee_fold (ctx : DayCtx) (day : Int) (off : Option ShiftType) :
    ∀ (l : List Employee) (s : DS),
      (∀ u ∈ l, u ∈ ctx.traders) → WS ctx day s →
      WS ctx day (l.foldl (guaranteeStep ctx day off) s) := by
  intro l
  induction l with
  | nil => intro s _ hws; exact hws
  | cons u rest ih =>
    intro s hl hws
    simp only [List.foldl_cons]
    refine ih _ (fun v hv => hl v (List.mem_cons_of_mem u hv)) ?_
    rcases guaranteeStep_spec ctx day off s u with hfe |
      ⟨_, hlock, o, _, ha, hat, hav, ham, _, _⟩
    · exact WS_of_fieldsEq ctx day s _ hfe hws
    · exact WS_of_assign ctx day s _ u o (hl u (List.mem_cons_self u rest)) hlock
        ha (fun x hx => by rw [hat]; exact hx)
        (fun v hv => by rw [hav] at hv; exact hv)
        (fun v hv => by rw [ham] at hv; exact hv) hws

theorem WS_stageFinal (ctx : DayCtx) (day : Int) (rs : RunState) :
    WS ctx day (stageFinal ctx day rs) := by
  unfold stageFinal
  exact WS_guarantee_fold ctx day (cacheGet ctx.stCache "OFF") ctx.traders
    (stagePhase2 ctx day rs) (fun u hu => hu) (WS_stagePhase2 ctx day rs)

theorem WS_weekend_fold (ctx : DayCtx) (day : Int) (off : Option ShiftType) :
    ∀ (l : List Employee) (s : DS),
      (∀ u ∈ l, u ∈ ctx.traders) → WS ctx day s →
      WS ctx day (l.foldl (weekendStep off day) s) := by
  intro l
  induction l with
  | nil => intro s _ hws; exact hws
  | cons u rest ih =>
    intro s hl hws
    simp only [List.foldl_cons]
    refine ih _ (fun v hv => hl v (List.mem_cons_of_mem u hv)) ?_
    rcases weekendStep_spec off day s u with hfe |
      ⟨hna, o, _, ha, hat, hav, ham, _, _⟩
    · exact WS_of_fieldsEq ctx day s _ hfe hws
    · have huT := hl u (List.mem_cons_self u rest)
      have hulock : ctx.locked (u.id, day) = none := by
        by_cases hlk : ctx.locked (u.id, day) = none
        · exact hlk
        · exact absurd (hws.2.2.2 u huT hlk) hna
      exact WS_of_assign ctx day s _ u o huT hulock ha
        (fun x hx => by rw [hat]; exact hx)
        (fun v hv => by rw [hav] at hv; exact hv)
        (fun v hv => by rw [ham] at hv; exact hv) hws

theorem WS_weekendState (ctx : DayCtx) (day : Int) (rs : RunState) :
    WS ctx day (weekendState ctx day rs) := by
  unfold weekendState
  exact WS_weekend_fold ctx day (cacheGet ctx.stCache "OFF") ctx.traders
    (seedLocked ctx day rs) (fun u hu => hu) (WS_seedLocked ctx day rs)

/-- Every row _assign_day produces is an algorithm row of an in-scope
trader, dated that day, at an unlocked cell. -/
theorem assignDay_rows_shape (ctx : DayCtx) (rs : RunState) (day : Int) :
    ∀ a ∈ (assignDay ctx rs day).1, a.date = day ∧
      a.editSource = EditSource.algorithm ∧
      (∃ u ∈ ctx.traders, u.id = a.employeeId) ∧
      ctx.locked (a.employeeId, day) = none := by
  intro a ha
  unfold assignDay at ha
  by_cases hw : (¬ ctx.settings.weekendScheduling && isWeekendDay day) = true
  · rw [if_pos hw] at ha
    exact (WS_weekendState ctx day rs).2.2.1 a ha
  · rw [if_neg hw] at ha
    exact (WS_stageFinal ctx day rs).2.2.1 a ha

/-! ### Day-loop counting -/

theorem monthDays_nodup (inp : GenInput) : (monthDays inp).Nodup := by
  unfold monthDays
  refine List.Nodup.map ?_ (List.nodup_range inp.numDays)
  intro a b h
  simp only [] at h
  omega

theorem dayLoop_count (ctx : DayCtx) (t : Employee) (d : Int)
    (o : ShiftType) (hoff : cacheGet ctx.stCache "OFF" = some o)
    (hids : (ctx.traders.map (fun u => u.id)).Nodup) (ht : t ∈ ctx.traders) :
    ∀ (days : List Int) (acc : List Schedule) (rs : RunState),
      days.Nodup →
      (((days.foldl (fun acc2 day =>
          let step := assignDay ctx acc2.2 day
          (acc2.1 ++ step.1, step.2)) (acc, rs)).1).filter
        (fun a => a.employeeId == t.id && a.date == d)).length =
      (acc.filter (fun a => a.employeeId == t.id && a.date == d)).length +
        (if d ∈ days then (if ctx.locked (t.id, d) = none then 1 else 0)
         else 0) := by
  intro days
  induction days with
  | nil => intro acc rs _; simp
  | cons day rest ih =>
    intro acc rs hnd
    rcases List.nodup_cons.mp hnd with ⟨hnotin, hrest⟩
    simp only [List.foldl_cons]
    rw [ih (acc ++ (assignDay ctx rs day).1) (assignDay ctx rs day).2 hrest]
    rw [List.filter_append, List.length_append]
    have hshape := assignDay_rows_shape ctx rs day
    by_cases hday : day = d
    · subst hday
      have hcong : (assignDay ctx rs day).1.filter
          (fun a => a.employeeId == t.id && a.date == day) =
          (assignDay ctx rs day).1.filter (fun a => a.employeeId == t.id) := by
        apply List.filter_congr
        intro a ha
        have := (hshape a ha).1
        simp [this]
      rw [hcong, assignDay_exactly_one ctx rs day o hoff hids t ht]
      rw [if_pos (List.mem_cons_self day rest), if_neg (fun hmem => hnotin hmem)]
      omega
    · have hzero : (assignDay ctx rs day).1.filter
          (fun a => a.employeeId == t.id && a.date == d) = [] := by
        rw [List.filter_eq_nil_iff]
        intro a ha
        have := (hshape a ha).1
        simp [this, hday]
      rw [hzero]
      have hiff : (d ∈ (day :: rest)) ↔ (d ∈ rest) := by
        rw [List.mem_cons]
        constructor
        · rintro (h | h)
          · exact absurd h.symm hday
          · exact h
        · exact fun h => Or.inr h
      by_cases hm : d ∈ rest
      · rw [if_pos hm, if_pos (hiff.mpr hm)]
        simp
      · rw [if_neg hm, if_neg (fun hx => hm (hiff.mp hx))]
        simp

/-! ### C1: completeness -/

/-- C1 counterexample: with no active OFF shift type and no applicable
working shift, the run produces zero assignments for an unlocked in-scope
trader on a day of the month, refuting unconditional completeness. -/
theorem completeness_counterexample :
    empI ∈ activeTraders inpNoOff ∧ (0 : Int) ∈ monthDays inpNoOff ∧
    lockedCellsOf inpNoOff [] (empI.id, 0) = none ∧
    ((generateCore inpNoOff []).1.filter
      (fun a => a.employeeId == empI.id && a.date == (0 : Int))).length = 0 := by
  decide

/-- C1 amended. Completeness given the day-off shift type: provided an
active shift type with code OFF exists and employee ids are unique, every
in-scope trader receives exactly one assignment on every day of the month
whose cell is not locked, and none on locked cells. -/
theorem completeness_amended (inp : GenInput) (db : List Schedule)
    (o : ShiftType) (hoff : cacheGet (stCacheOf inp) "OFF" = some o)
    (hids : ((activeTraders inp).map (fun u => u.id)).Nodup)
    (t : Employee) (ht : t ∈ activeTraders inp) (d : Int)
    (hd : d ∈ monthDays inp) :
    (((generateCore inp db).1).filter
      (fun a => a.employeeId == t.id && a.date == d)).length =
      (if lockedCellsOf inp db (t.id, d) = none then 1 else 0) := by
  unfold generateCore
  have h := dayLoop_count (dayCtxOf inp db) t d o hoff hids ht
    (monthDays inp) [] (initRunState inp db) (monthDays_nodup inp)
  rw [if_pos hd] at h
  simpa using h

/-- Witness for completeness_amended: the basic two-day one-trader run. -/
theorem completeness_amended_witness :
    (((generateCore inpBasic []).1).filter
      (fun a => a.employeeId == empI.id && a.date == (0 : Int))).length =
      (if lockedCellsOf inpBasic [] (empI.id, 0) = none then 1 else 0) :=
  completeness_amended inpBasic [] stOFFc (by decide) (by decide) empI
    (by decide) 0 (by decide)

/-! ### C2: leave inviolability -/

theorem innerVacFold_preserves (v : Vacation) (days : List Int)
    (k : Nat × Int) :
    ∀ (f : Nat × Int → Option String), f k = some "VAC" →
      (days.foldl (fun g d =>
        if v.startDate ≤ d && d ≤ v.endDate then
          updFun g (v.employeeId, d) (some "VAC")
        else g) f) k = some "VAC" := by
  induction days with
  | nil => intro f hf; exact hf
  | cons d rest ih =>
    intro f hf
    simp only [List.foldl_cons]
    apply ih
    by_cases hc : (v.startDate ≤ d && d ≤ v.endDate) = true
    · rw [if_pos hc]
      unfold updFun
      by_cases hk : k = (v.employeeId, d)
      · rw [if_pos hk]
      · rw [if_neg hk]; exact hf
    · rw [if_neg hc]; exact hf

theorem innerVacFold_covers (v : Vacation) (d : Int) :
    ∀ (days : List Int) (f : Nat × Int → Option String), d ∈ days →
      (v.startDate ≤ d && d ≤ v.endDate) = true →
      (days.foldl (fun g d2 =>
        if v.startDate ≤ d2 && d2 ≤ v.endDate then
          updFun g (v.employeeId, d2) (some "VAC")
        else g) f) (v.employeeId, d) = some "VAC" := by
  intro days
  induction days with
  | nil => intro f hd; simp at hd
  | cons d2 rest ih =>
    intro f hd hrange
    simp only [List.foldl_cons]
    rcases List.mem_cons.mp hd with h1 | h1
    · subst h1
      apply innerVacFold_preserves
      rw [if_pos hrange]
      unfold updFun
      rw [if_pos rfl]
    · exact ih _ h1 hrange

theorem outerVacFold_preserves (days : List Int) (k : Nat × Int) :
    ∀ (l : List Vacation) (f : Nat × Int → Option String),
      f k = some "VAC" →
      (l.foldl (fun f2 v =>
        days.foldl (fun g d =>
          if v.startDate ≤ d && d ≤ v.endDate then
            updFun g (v.employeeId, d) (some "VAC")
          else g) f2) f) k = some "VAC" := by
  intro l
  induction l with
  | nil => intro f hf; exact hf
  | cons v rest ih =>
    intro f hf
    simp only [List.foldl_cons]
    exact ih _ (innerVacFold_preserves v days k f hf)

theorem outerVacFold_covers (days : List Int) (v : Vacation) (d : Int)
    (hd : d ∈ days)
    (hrange : (v.startDate ≤ d && d ≤ v.endDate) = true) :
    ∀ (l : List Vacation) (f : Nat × Int → Option String), v ∈ l →
      (l.foldl (fun f2 v2 =>
        days.foldl (fun g d2 =>
          if v2.startDate ≤ d2 && d2 ≤ v2.endDate then
            updFun g (v2.employeeId, d2) (some "VAC")
          else g) f2) f) (v.employeeId, d) = some "VAC" := by
  intro l
  induction l with
  | nil => intro f hv; simp at hv
  | cons v2 rest ih =>
    intro f hv
    simp only [List.foldl_cons]
    rcases List.mem_cons.mp hv with h1 | h1
    · subst h1
      apply outerVacFold_preserves
      exact innerVacFold_covers v d days f hd hrange
    · exact ih _ h1

theorem vacationLocked_covers (inp : GenInput) (v : Vacation)
    (hv : v ∈ approvedVacs inp) (d : Int) (hd : d ∈ monthDays inp)
    (hrange : (v.startDate ≤ d && d ≤ v.endDate) = true)
    (hvac : (cacheGet (stCacheOf inp) "VAC").isSome = true) :
    vacationLocked inp (v.employeeId, d) = some "VAC" := by
  unfold vacationLocked
  rw [if_pos hvac]
  exact outerVacFold_covers (monthDays inp) v d hd hrange (approvedVacs inp) _ hv

theorem lockExisting_preserves (k : Nat × Int) (val : String) :
    ∀ (rows : List Schedule) (acc : (Nat × Int → Option String) × Nat),
      acc.1 k = some val →
      (rows.foldl (fun acc2 r =>
        match acc2.1 (r.employeeId, r.date) with
        | some _ => acc2
        | none => (updFun acc2.1 (r.employeeId, r.date)
            (some r.shiftType.code), acc2.2 + 1)) acc).1 k = some val := by
  intro rows
  induction rows with
  | nil => intro acc hacc; exact hacc
  | cons r rest ih =>
    intro acc hacc
    simp only [List.foldl_cons]
    apply ih
    rcases hmatch : acc.1 (r.employeeId, r.date) with _ | c
    · simp only [hmatch]
      unfold updFun
      by_cases hk : k = (r.employeeId, r.date)
      · rw [← hk] at hmatch
        rw [hacc] at hmatch
        cases hmatch
      · rw [if_neg hk]
        exact hacc
    · simp only [hmatch]
      exact hacc

theorem lockedCellsOf_vac (inp : GenInput) (db : List Schedule) (v : Vacation)
    (hv : v ∈ approvedVacs inp) (d : Int) (hd : d ∈ monthDays inp)
    (hrange : (v.startDate ≤ d && d ≤ v.endDate) = true)
    (hvac : (cacheGet (stCacheOf inp) "VAC").isSome = true) :
    lockedCellsOf inp db (v.employeeId, d) = some "VAC" := by
  unfold lockedCellsOf lockExisting
  exact lockExisting_preserves (v.employeeId, d) "VAC" (existingRows inp db) _
    (vacationLocked_covers inp v hv d hd hrange hvac)

theorem generateCore_avoids_locked (inp : GenInput) (db : List Schedule) :
    ∀ a ∈ (generateCore inp db).1,
      lockedCellsOf inp db (a.employeeId, a.date) = none := by
  unfold generateCore
  have key : ∀ (days : List Int) (acc : List Schedule) (rs : RunState),
      (∀ a ∈ acc, lockedCellsOf inp db (a.employeeId, a.date) = none) →
      ∀ a ∈ (days.foldl (fun acc2 day =>
          let step := assignDay (dayCtxOf inp db) acc2.2 day
          (acc2.1 ++ step.1, step.2)) (acc, rs)).1,
        lockedCellsOf inp db (a.employeeId, a.date) = none := by
    intro days
    induction days with
    | nil => intro acc rs hacc; exact hacc
    | cons day rest ih =>
      intro acc rs hacc
      simp only [List.foldl_cons]
      apply ih
      intro a ha
      rcases List.mem_append.mp ha with h1 | h1
      · exact hacc a h1
      · have hs := assignDay_rows_shape (dayCtxOf inp db) rs day a h1
        rw [hs.1]
        exact hs.2.2.2
  exact key (monthDays inp) [] (initRunState inp db) (by intro a ha; simp at ha)

/-- C2 counterexample: an approved vacation covering the month locks the
cell, but generation writes no Schedule row at all for it (and none
pre-exists), so no resulting Schedule row carries the VAC code. -/
theorem leave_counterexample :
    (∃ v ∈ inpVacFull.vacations, v.status = VacStatus.approved ∧
      v.employeeId = empI.id ∧ v.startDate ≤ 0 ∧ (0 : Int) ≤ v.endDate) ∧
    empI ∈ activeTraders inpVacFull ∧ (0 : Int) ∈ monthDays inpVacFull ∧
    (cacheGet (stCacheOf inpVacFull) "VAC").isSome = true ∧
    ¬ ∃ r ∈ (generate inpVacFull []).2,
        r.employeeId = empI.id ∧ r.date = 0 ∧ r.shiftType.code = "VAC" := by
  decide

/-- C2 amended. Leave inviolability as the engine actually realises it:
for an in-scope trader's APPROVED vacation intersecting the month, when
the VAC shift type is in the active catalog, the engine locks every
covered (employee, day) cell of the month with the VAC code and produces
no Schedule assignment for that cell (it never writes VAC rows; the cell
is simply never assigned, and any pre-existing non-algorithm row there is
preserved untouched). -/
theorem leave_lock_amended (inp : GenInput) (db : List Schedule)
    (v : Vacation) (hv : v ∈ inp.vacations)
    (happ : v.status = VacStatus.approved)
    (hemp : ∃ u ∈ activeTraders inp, u.id = v.employeeId)
    (d : Int) (hd : d ∈ monthDays inp)
    (hcov : v.startDate ≤ d ∧ d ≤ v.endDate)
    (hvac : (cacheGet (stCacheOf inp) "VAC").isSome = true) :
    lockedCellsOf inp db (v.employeeId, d) = some "VAC" ∧
    ∀ a ∈ (generateCore inp db).1,
      ¬ (a.employeeId = v.employeeId ∧ a.date = d) := by
  have hb := mem_monthDays_bounds inp d hd
  have happv : v ∈ approvedVacs inp := by
    unfold approvedVacs
    rw [List.mem_filter]
    refine ⟨hv, ?_⟩
    rcases hemp with ⟨u, hu, hid⟩
    simp only [Bool.and_eq_true, decide_eq_true_eq]
    refine ⟨⟨⟨?_, ?_⟩, ?_⟩, ?_⟩
    · exact List.any_eq_true.mpr ⟨u, hu, by simp [hid]⟩
    · rw [happ]; rfl
    · omega
    · omega
  have hrange : (v.startDate ≤ d && d ≤ v.endDate) = true := by
    simp only [Bool.and_eq_true, decide_eq_true_eq]
    exact hcov
  have hlock := lockedCellsOf_vac inp db v happv d hd hrange hvac
  refine ⟨hlock, ?_⟩
  intro a ha hcontra
  have := generateCore_avoids_locked inp db a ha
  rw [hcontra.1, hcontra.2] at this
  rw [this] at hlock
  cases hlock

/-- Witness for leave_lock_amended on the concrete full-month vacation. -/
theorem leave_lock_amended_witness :
    lockedCellsOf inpVacFull [] (2, (0 : Int)) = some "VAC" ∧
    ∀ a ∈ (generateCore inpVacFull []).1,
      ¬ (a.employeeId = 2 ∧ a.date = 0) :=
  leave_lock_amended inpVacFull []
    (⟨2, 0, 40, VacStatus.approved⟩ : Vacation)
    (by decide) (by decide) ⟨empI, by decide, by decide⟩ 0 (by decide)
    ⟨by decide, by decide⟩ (by decide)

/-! ### C3: the consecutive-day bound -/

/-- The tracked trader still awaits forced rest: untouched today and on
the need_off list. -/
def RestPend (s : DS) (t : Employee) : Prop :=
  Untouched s t ∧ t.id ∈ s.needOff

/-- The tracked trader is settled on the day-off shift: registered
assigned, still flagged need_off, with at least one produced row and every
produced row carrying the day-off shift. -/
def RestOff (s : DS) (t : Employee) (off : ShiftType) : Prop :=
  t.id ∈ s.assignedTraders ∧ t.id ∈ s.needOff ∧
  (∃ a ∈ s.assignments, a.employeeId = t.id ∧ a.shiftType = off) ∧
  (∀ a ∈ s.assignments, a.employeeId = t.id → a.shiftType = off)

/-- The avail_monitors pool holds only monitor-role traders. -/
def MonPool (s : DS) : Prop :=
  ∀ u ∈ s.availMonitors, u.role = Role.monitorTrader

theorem restPend_of_fieldsEq (s s2 : DS) (t : Employee) (h : FieldsEq s s2)
    (hr : RestPend s t) : RestPend s2 t :=
  ⟨untouched_of_fieldsEq s s2 t h hr.1, by rw [h.2.2.2.2.1]; exact hr.2⟩

theorem restOff_of_fieldsEq (s s2 : DS) (t : Employee) (off : ShiftType)
    (h : FieldsEq s s2) (hr : RestOff s t off) : RestOff s2 t off := by
  refine ⟨?_, ?_, ?_, ?_⟩
  · rw [h.2.1]; exact hr.1
  · rw [h.2.2.2.2.1]; exact hr.2.1
  · rw [h.1]; exact hr.2.2.1
  · rw [h.1]; exact hr.2.2.2

theorem monPool_of_fieldsEq (s s2 : DS) (h : FieldsEq s s2)
    (hm : MonPool s) : MonPool s2 := by
  intro u hu
  rw [h.2.2.2.1] at hu
  exact hm u hu

theorem cntRows_zero_no_row (s : DS) (tid : Nat) (h : cntRows s tid = 0) :
    ∀ a ∈ s.assignments, a.employeeId ≠ tid := by
  intro a ha he
  have hmem : a ∈ s.assignments.filter (fun a => a.employeeId == tid) :=
    List.mem_filter.mpr ⟨ha, by simp [he]⟩
  unfold cntRows at h
  rw [List.length_eq_zero] at h
  rw [h] at hmem
  simp at hmem

theorem restPend_step_assign (s s2 : DS) (t u : Employee) (day : Int)
    (shift : ShiftType) (hune : u.id ≠ t.id)
    (ha : s2.assignments = s.assignments ++
      [{ employeeId := u.id, date := day, shiftType := shift,
         editSource := EditSource.algorithm }])
    (hat : s2.assignedTraders = s.assignedTraders ++ [u.id])
    (hav : s2.available = removeFirstById s.available u.id ∨
      s2.available = s.available)
    (hno : s2.needOff = s.needOff ∨
      s2.needOff = s.needOff.filter (fun x => x ≠ u.id))
    (h : RestPend s t) : RestPend s2 t := by
  have hcnt : cntRows s2 t.id = cntRows s t.id +
      (if u.id = t.id then 1 else 0) := by
    simpa using cntRows_of_append s s2 _ ha t.id
  have h0 := h.1.1
  refine ⟨⟨?_, ?_, ?_⟩, ?_⟩
  · rw [hcnt, if_neg hune]; omega
  · rw [hat]
    intro hmem
    rcases List.mem_append.mp hmem with h1 | h1
    · exact h.1.2.1 h1
    · exact hune (List.mem_singleton.mp h1).symm
  · rcases hav with h2 | h2
    · rw [h2]
      exact mem_removeFirstById_of_ne s.available u.id t h.1.2.2
        (fun he => hune he.symm)
    · rw [h2]; exact h.1.2.2
  · rcases hno with h2 | h2
    · rw [h2]; exact h.2
    · rw [h2]
      exact List.mem_filter.mpr ⟨h.2, decide_eq_true (fun he => hune he.symm)⟩

theorem monPool_stageSorted (ctx : DayCtx) (day : Int) (rs : RunState) :
    MonPool (stageSorted ctx day rs) := by
  intro u hu
  rw [(stageSorted_base ctx day rs).2.2.2] at hu
  have h2 := (List.mem_filter.mp hu).2
  simpa using h2

theorem restPend_monitorStep (ctx : DayCtx) (day : Int)
    (hids : (ctx.traders.map (fun u => u.id)).Nodup) (t : Employee)
    (ht : t ∈ ctx.traders) (hrole : t.role ≠ Role.monitorTrader)
    (cat : String) (s : DS)
    (h : WS ctx day s ∧ MonPool s ∧ RestPend s t) :
    WS ctx day (monitorStep ctx day s cat) ∧
    MonPool (monitorStep ctx day s cat) ∧
    RestPend (monitorStep ctx day s cat) t := by
  obtain ⟨hws, hmp, hrp⟩ := h
  refine ⟨WS_monitorStep ctx day s cat hws, ?_, ?_⟩ <;>
    rcases monitorStep_spec ctx day s cat with
      hfe | ⟨u, hu, shift, hsh, ha, hat, hav, ham, hno, hot⟩
  · exact monPool_of_fieldsEq s _ hfe hmp
  · intro v hv
    rw [ham] at hv
    exact hmp v (removeFirstById_subset _ _ v hv)
  · exact restPend_of_fieldsEq s _ t hfe hrp
  · have hur : u.role = Role.monitorTrader := hmp u hu
    have huT : u ∈ ctx.traders := (hws.2.1 u hu).1
    have hune : u.id ≠ t.id := by
      intro he
      have heq : u = t := ids_nodup_eq ctx.traders hids u t huT ht he
      rw [heq] at hur
      exact hrole hur
    exact restPend_step_assign s _ t u day shift hune ha hat (Or.inl hav)
      (Or.inr hno) hrp

theorem restPend_stageMonitor (ctx : DayCtx) (day : Int) (rs : RunState)
    (hids : (ctx.traders.map (fun u => u.id)).Nodup) (t : Employee)
    (ht : t ∈ ctx.traders) (hrole : t.role ≠ Role.monitorTrader)
    (hrp : RestPend (stageSorted ctx day rs) t) :
    RestPend (stageMonitor ctx day rs) t := by
  unfold stageMonitor
  exact (foldl_preserve (monitorStep ctx day)
    (fun s => WS ctx day s ∧ MonPool s ∧ RestPend s t) monitorTargetCats
    (stageSorted ctx day rs)
    (fun cat _ s2 h2 => restPend_monitorStep ctx day hids t ht hrole cat s2 h2)
    ⟨WS_stageSorted ctx day rs, monPool_stageSorted ctx day rs, hrp⟩).2.2

theorem restPend_phase1Scan (ctx : DayCtx) (day : Int) (cat : String)
    (needed : Nat) (catShifts : List ShiftType) (t : Employee) :
    ∀ (snap : List Employee) (filled : Nat) (s : DS),
      RestPend s t →
      RestPend (phase1Scan ctx day cat needed catShifts false snap filled s).1 t := by
  intro snap
  induction snap with
  | nil => intro filled s h; exact h
  | cons u rest ih =>
    intro filled s h
    unfold phase1Scan
    by_cases hfill : filled ≥ needed
    · rw [if_pos hfill]; exact h
    · rw [if_neg hfill]
      by_cases hskip : (s.needOff.contains u.id && ¬ false) = true
      · rw [if_pos hskip]
        exact ih filled s h
      · rw [if_neg hskip]
        have hune : u.id ≠ t.id := by
          intro he
          apply hskip
          rw [he]
          simpa using List.elem_eq_true_of_mem h.2
        by_cases hempty : (catShifts.filter
            (fun st => shiftApplicableToTrader st u)).isEmpty = true
        · rw [if_pos hempty]
          exact ih filled s h
        · rw [if_neg hempty]
          simp only []
          rcases hpick : (pickShiftFromCycle ((ctx.cycles u.role).getD [])
              (s.run.cyclePositions u.id)
              (catShifts.filter (fun st => shiftApplicableToTrader st u))).1
            with _ | shift
          · simp only []
            exact ih filled s h
          · simp only []
            exact ih (filled + 1) _
              (restPend_step_assign s _ t u day shift hune rfl rfl
                (Or.inl rfl) (Or.inl rfl) h)

theorem restPend_phase1Step (ctx : DayCtx) (day : Int) (t : Employee)
    (s : DS) (cat : ShiftCategory) (h : RestPend s t) :
    RestPend (phase1Step ctx day false s cat) t := by
  unfold phase1Step
  by_cases h1 : ctxCatMin ctx cat.code ≤ s.dayCoverage cat.code
  · rw [if_pos h1]; exact h
  · rw [if_neg h1]
    by_cases h2 : (catShiftsForCategory ctx cat.code).isEmpty = true
    · rw [if_pos h2]; exact h
    · rw [if_neg h2]
      simp only []
      have hscan := restPend_phase1Scan ctx day cat.code
        (ctxCatMin ctx cat.code - s.dayCoverage cat.code)
        (catShiftsForCategory ctx cat.code) t s.available 0 s h
      split
      · exact restPend_of_fieldsEq _ _ t ⟨rfl, rfl, rfl, rfl, rfl, rfl⟩ hscan
      · exact hscan

theorem restPend_stagePhase1 (ctx : DayCtx) (day : Int) (rs : RunState)
    (t : Employee) (hhigh : isHighDemandDay ctx day = false)
    (hrp : RestPend (stageMonitor ctx day rs) t) :
    RestPend (stagePhase1 ctx day rs) t := by
  unfold stagePhase1
  rw [hhigh]
  exact foldl_preserve (phase1Step ctx day false) (fun s => RestPend s t)
    ctx.categories (stageMonitor ctx day rs)
    (fun cat _ s2 h2 => restPend_phase1Step ctx day t s2 cat h2) hrp

theorem phase2Step_needOff_assigns_off (ctx : DayCtx) (day : Int)
    (high : Bool) (emax : Nat) (off : ShiftType) (s : DS) (u : Employee)
    (hmem : u.id ∈ s.needOff) :
    (phase2Step ctx day high emax (some off) s u).assignments =
      s.assignments ++
      [{ employeeId := u.id, date := day, shiftType := off,
         editSource := EditSource.algorithm }] ∧
    (phase2Step ctx day high emax (some off) s u).assignedTraders =
      s.assignedTraders ++ [u.id] ∧
    (phase2Step ctx day high emax (some off) s u).needOff = s.needOff := by
  have hc : s.needOff.contains u.id = true := by
    simpa using List.elem_eq_true_of_mem hmem
  have hso : shouldAssignOff u.id s.offToday emax s.run.offCounts
      ctx.targetOffPerTrader s.needOff high ctx.totalDays
      (day - ctx.firstDay + 1) = true := by
    unfold shouldAssignOff
    rw [if_pos hc]
  unfold phase2Step
  simp only []
  rw [if_pos hso]
  exact ⟨rfl, rfl, rfl⟩

theorem phase2_fold_rest (ctx : DayCtx) (day : Int) (high : Bool)
    (emax : Nat) (off : ShiftType) (t : Employee) :
    ∀ (snap : List Employee) (s : DS),
      ((RestPend s t ∧ t ∈ snap) ∨ RestOff s t off) →
      RestOff (snap.foldl (phase2Step ctx day high emax (some off)) s) t off := by
  intro snap
  induction snap with
  | nil =>
    intro s h
    rcases h with ⟨_, htin⟩ | h
    · simp at htin
    · exact h
  | cons u rest ih =>
    intro s h
    simp only [List.foldl_cons]
    apply ih
    rcases h with ⟨hrp, htin⟩ | hro
    · by_cases hid : u.id = t.id
      · obtain ⟨ha, hat, hno⟩ := phase2Step_needOff_assigns_off ctx day high
          emax off s u (by rw [hid]; exact hrp.2)
        refine Or.inr ⟨?_, ?_, ?_, ?_⟩
        · rw [hat]
          exact List.mem_append_right _ (by simp [hid])
        · rw [hno]; exact hrp.2
        · rw [ha]
          exact ⟨_, List.mem_append_right _ (List.mem_singleton_self _), hid, rfl⟩
        · rw [ha]
          intro a hmem hae
          rcases List.mem_append.mp hmem with h1 | h1
          · exact absurd hae (cntRows_zero_no_row s t.id hrp.1.1 a h1)
          · rw [List.mem_singleton.mp h1]
      · have htin2 : t ∈ rest := by
          rcases List.mem_cons.mp htin with h1 | h1
          · exact absurd (congrArg (fun x => x.id) h1).symm hid
          · exact h1
        refine Or.inl ⟨?_, htin2⟩
        rcases phase2Step_spec ctx day high emax (some off) s u with
          hfe | ⟨st, ha, hat, hav, ham, hno⟩
        · exact restPend_of_fieldsEq s _ t hfe hrp
        · exact restPend_step_assign s _ t u day st hid ha hat (Or.inr hav)
            (Or.inl hno) hrp
    · by_cases hid : u.id = t.id
      · obtain ⟨ha, hat, hno⟩ := phase2Step_needOff_assigns_off ctx day high
          emax off s u (by rw [hid]; exact hro.2.1)
        refine Or.inr ⟨?_, ?_, ?_, ?_⟩
        · rw [hat]; exact List.mem_append_left _ hro.1
        · rw [hno]; exact hro.2.1
        · obtain ⟨a, hm, h1, h2⟩ := hro.2.2.1
          exact ⟨a, by rw [ha]; exact List.mem_append_left _ hm, h1, h2⟩
        · rw [ha]
          intro a hmem hae
          rcases List.mem_append.mp hmem with h1 | h1
          · exact hro.2.2.2 a h1 hae
          · rw [List.mem_singleton.mp h1]
      · refine Or.inr ?_
        rcases phase2Step_spec ctx day high emax (some off) s u with
          hfe | ⟨st, ha, hat, hav, ham, hno⟩
        · exact restOff_of_fieldsEq s _ t off hfe hro
        · refine ⟨by rw [hat]; exact List.mem_append_left _ hro.1,
            by rw [hno]; exact hro.2.1, ?_, ?_⟩
          · obtain ⟨a, hm, h1, h2⟩ := hro.2.2.1
            exact ⟨a, by rw [ha]; exact List.mem_append_left _ hm, h1, h2⟩
          · rw [ha]
            intro a hmem hae
            rcases List.mem_append.mp hmem with h1 | h1
            · exact hro.2.2.2 a h1 hae
            · exfalso
              rw [List.mem_singleton.mp h1] at hae
              exact hid hae

theorem restOff_guarantee_fold (ctx : DayCtx) (day : Int)
    (off0 : Option ShiftType) (off : ShiftType) (t : Employee) :
    ∀ (l : List Employee) (s : DS), RestOff s t off →
      RestOff (l.foldl (guaranteeStep ctx day off0) s) t off := by
  intro l
  induction l with
  | nil => intro s h; exact h
  | cons u rest ih =>
    intro s h
    simp only [List.foldl_cons]
    apply ih
    rcases guaranteeStep_spec ctx day off0 s u with
      hfe | ⟨hna, _, o, _, ha, hat, _, _, hno, _⟩
    · exact restOff_of_fieldsEq s _ t off hfe h
    · have hune : u.id ≠ t.id := fun he => hna (he ▸ h.1)
      refine ⟨by rw [hat]; exact h.1, by rw [hno]; exact h.2.1, ?_, ?_⟩
      · obtain ⟨a, hm, h1, h2⟩ := h.2.2.1
        exact ⟨a, by rw [ha]; exact List.mem_append_left _ hm, h1, h2⟩
      · intro a hmem hae
        rw [ha] at hmem
        rcases List.mem_append.mp hmem with h1 | h1
        · exact h.2.2.2 a h1 hae
        · exfalso
          rw [List.mem_singleton.mp h1] at hae
          exact hune hae

/-- C3 counterexample: a monitor trader with max_consecutive_days = 1 is
given a working anchor shift on both days of the month with no locked cell
anywhere, so the bound (a run of at most 1 consecutive working day unless
a locked cell forces it) fails: anchor pass 2 deliberately overrides the
forced-rest flag. -/
theorem consecutive_counterexample :
    inpTiredMonitor.settings.maxConsecutiveDays = 1 ∧
    lockedCellsOf inpTiredMonitor [] (empM.id, 0) = none ∧
    lockedCellsOf inpTiredMonitor [] (empM.id, 1) = none ∧
    (∃ r ∈ (generate inpTiredMonitor []).2,
      r.employeeId = empM.id ∧ r.date = 0 ∧ r.shiftType.isWorkingShift = true) ∧
    (∃ r ∈ (generate inpTiredMonitor []).2,
      r.employeeId = empM.id ∧ r.date = 1 ∧ r.shiftType.isWorkingShift = true) := by
  decide

/-- C3 amended. The forced-rest mechanism as the engine actually enforces
it, per day: a non-monitor trader of the roster whose cell is unlocked, on
a non-high-demand weekday-scheduled day, who trips the hard-rest test
(consecutive-day cap reached or rest hours failed), receives the day-off
shift and nothing else that day. (Monitor traders escape through anchor
pass 2, and high-demand days ignore the flag in Phase 1, so the global
consecutive-day bound of the specification fails without these provisos.) -/
theorem consecutive_rest_amended (ctx : DayCtx) (rs : RunState) (day : Int)
    (off : ShiftType) (hoff : cacheGet ctx.stCache "OFF" = some off)
    (hids : (ctx.traders.map (fun u => u.id)).Nodup)
    (t : Employee) (ht : t ∈ ctx.traders)
    (hrole : t.role ≠ Role.monitorTrader)
    (hlock : ctx.locked (t.id, day) = none)
    (hhigh : isHighDemandDay ctx day = false)
    (hweek : (¬ ctx.settings.weekendScheduling && isWeekendDay day) = false)
    (hrest : mustRest ctx day rs t = true) :
    (∃ a ∈ (assignDay ctx rs day).1,
      a.employeeId = t.id ∧ a.shiftType = off) ∧
    (∀ a ∈ (assignDay ctx rs day).1, a.employeeId = t.id → a.shiftType = off) := by
  have hw : ¬ ((¬ ctx.settings.weekendScheduling && isWeekendDay day) = true) := by
    rw [hweek]
    simp
  have hrp0 : RestPend (stageSorted ctx day rs) t := by
    refine ⟨stageSorted_untouched ctx day rs t ht hids hlock, ?_⟩
    show t.id ∈ computeNeedOff ctx day (seedLocked ctx day rs).run
      (availableOf ctx (seedLocked ctx day rs))
    rw [(seedLocked_frame ctx day rs).2.2.2.1]
    refine (mem_computeNeedOff ctx day rs _ t.id).mpr ⟨t, ?_, rfl, hrest⟩
    unfold availableOf
    refine List.mem_filter.mpr ⟨ht, decide_eq_true ?_⟩
    intro hc
    rcases (mem_seedLocked_assigned ctx day rs t.id).mp (List.elem_iff.mp hc)
      with ⟨u, hu, hid2, hsome⟩
    have heq : u = t := ids_nodup_eq ctx.traders hids u t hu ht hid2
    rw [heq, hlock] at hsome
    cases hsome
  have hrp1 : RestPend (stageMonitor ctx day rs) t :=
    restPend_stageMonitor ctx day rs hids t ht hrole hrp0
  have hrp2 : RestPend (stagePhase1 ctx day rs) t :=
    restPend_stagePhase1 ctx day rs t hhigh hrp1
  set s5 : DS := { stagePhase1 ctx day rs with
    offToday := offTodayInitOf ctx day } with hs5
  have hrp5 : RestPend s5 t := hrp2
  have hstage2 : stagePhase2 ctx day rs = s5.available.foldl
      (phase2Step ctx day (isHighDemandDay ctx day) (effectiveMaxOffOf ctx day)
        (some off)) s5 := by
    unfold stagePhase2
    rw [hoff]
  have hro : RestOff (stagePhase2 ctx day rs) t off := by
    rw [hstage2]
    exact phase2_fold_rest ctx day (isHighDemandDay ctx day)
      (effectiveMaxOffOf ctx day) off t s5.available s5
      (Or.inl ⟨hrp5, hrp5.1.2.2⟩)
  have hfin : RestOff (stageFinal ctx day rs) t off := by
    unfold stageFinal
    exact restOff_guarantee_fold ctx day (cacheGet ctx.stCache "OFF") off t
      ctx.traders _ hro
  unfold assignDay
  rw [if_neg hw]
  exact ⟨hfin.2.2.1, hfin.2.2.2⟩

/-- Witness for consecutive_rest_amended: after an IP6 day under
min_rest_hours = 20 the trader fails the rest check on day 1 and provably
receives the day-off shift. -/
theorem consecutive_rest_amended_witness :
    (∃ a ∈ (assignDay (dayCtxOf inpRest [])
        ((assignDay (dayCtxOf inpRest []) (initRunState inpRest []) 0).2) 1).1,
      a.employeeId = empI.id ∧ a.shiftType = stOFFc) ∧
    (∀ a ∈ (assignDay (dayCtxOf inpRest [])
        ((assignDay (dayCtxOf inpRest []) (initRunState inpRest []) 0).2) 1).1,
      a.employeeId = empI.id → a.shiftType = stOFFc) :=
  consecutive_rest_amended (dayCtxOf inpRest [])
    ((assignDay (dayCtxOf inpRest []) (initRunState inpRest []) 0).2) 1
    stOFFc (by decide) (by decide) empI (by decide) (by decide) (by decide)
    (by decide) (by decide) (by decide)

/-! ### C5: anchor coverage -/

/-- already_has_monitor: a monitor trader is locked today into a shift of
the anchor category. -/
def alreadyHasLockedMonitor (ctx : DayCtx) (day : Int) (catCode : String) : Bool :=
  ctx.monitorTraders.any (fun t =>
    match ctx.locked (t.id, day) with
    | some code =>
      match cacheGet ctx.stCache code with
      | some st => (match st.category with | some c => decide (c = catCode) | none => false)
      | none => false
    | none => false)

theorem isEmpty_true_eq_nil {α : Type _} (l : List α) (h : l.isEmpty = true) :
    l = [] := by
  cases l with
  | nil => rfl
  | cons a l2 => simp [List.isEmpty] at h

theorem monitorScan_pass1_none (ctx : DayCtx) (day : Int) (cat : String) :
    ∀ (l : List Employee) (s : DS),
      monitorScan ctx day cat true l s = none →
      ∀ v ∈ l, v.id ∈ s.needOff ∨ catShiftsForMonitor ctx cat v = [] := by
  intro l
  induction l with
  | nil => intro s _ v hv; simp at hv
  | cons u rest ih =>
    intro s h v hv
    unfold monitorScan at h
    by_cases hskip : (true && s.needOff.contains u.id) = true
    · rw [if_pos hskip] at h
      rcases List.mem_cons.mp hv with h1 | h1
      · left
        subst h1
        exact List.elem_iff.mp (by simpa using hskip)
      · exact ih s h v h1
    · rw [if_neg hskip] at h
      by_cases hempty : (catShiftsForMonitor ctx cat u).isEmpty = true
      · rw [if_pos hempty] at h
        rcases List.mem_cons.mp hv with h1 | h1
        · right
          subst h1
          exact isEmpty_true_eq_nil _ hempty
        · exact ih s h v h1
      · rw [if_neg hempty] at h
        simp only [] at h
        rcases hpick : (pickShiftFromCycle ((ctx.cycles u.role).getD [])
            (s.run.cyclePositions u.id) (catShiftsForMonitor ctx cat u)).1
          with _ | shift
        · exfalso
          have hne : catShiftsForMonitor ctx cat u ≠ [] := by
            intro he
            rw [he] at hempty
            exact hempty rfl
          rcases pickShift_isSome ((ctx.cycles u.role).getD [])
            (s.run.cyclePositions u.id) _ hne with ⟨st, hst⟩
          rw [hpick] at hst
          cases hst
        · rw [hpick] at h
          simp only [] at h
          cases h

theorem monitorScan_pass2_isSome (ctx : DayCtx) (day : Int) (cat : String) :
    ∀ (l : List Employee) (s : DS),
      (∃ u ∈ l, catShiftsForMonitor ctx cat u ≠ []) →
      ∃ s2, monitorScan ctx day cat false l s = some s2 := by
  intro l
  induction l with
  | nil =>
    intro s h
    rcases h with ⟨u, hu, _⟩
    simp at hu
  | cons u rest ih =>
    intro s h
    unfold monitorScan
    rw [if_neg (by simp)]
    by_cases hempty : (catShiftsForMonitor ctx cat u).isEmpty = true
    · rw [if_pos hempty]
      apply ih
      rcases h with ⟨v, hv, hne⟩
      rcases List.mem_cons.mp hv with h1 | h1
      · exfalso
        apply hne
        rw [h1]
        exact isEmpty_true_eq_nil _ hempty
      · exact ⟨v, h1, hne⟩
    · rw [if_neg hempty]
      simp only []
      have hne : catShiftsForMonitor ctx cat u ≠ [] := by
        intro he
        rw [he] at hempty
        exact hempty rfl
      rcases pickShift_isSome ((ctx.cycles u.role).getD [])
        (s.run.cyclePositions u.id) _ hne with ⟨st, hst⟩
      rw [hst]
      simp only []
      exact ⟨_, rfl⟩

/-- C5 counterexample: with a single monitor trader eligible for both AM
(MON6) and INS (MON12), the AM anchor consumes the monitor first and the
INS category ends the day with no monitor assignment at all, although an
eligible unlocked anchor-role employee for INS existed on that day. -/
theorem anchor_counterexample :
    empM ∈ (dayCtxOf inpOneMonitor []).monitorTraders ∧
    lockedCellsOf inpOneMonitor [] (empM.id, 0) = none ∧
    catShiftsForMonitor (dayCtxOf inpOneMonitor []) "INS" empM ≠ [] ∧
    ¬ ∃ r ∈ (generate inpOneMonitor []).2,
        r.shiftType.category = some "INS" := by
  decide

/-- C5 amended. Anchor coverage holds only at processing time: when the
anchor category is reached (in AM, INS, MID order), if no locked monitor
already covers it and some monitor still in the avail_monitors pool has an
applicable working shift of the category, the step assigns exactly one
such monitor a shift of the category; a monitor not currently forced to
rest is preferred (pass 1), with forced-to-rest monitors used only as the
pass-2 fallback. Eligibility at the start of the day is not enough: an
earlier category may consume the last monitor. -/
theorem anchor_amended (ctx : DayCtx) (day : Int) (cat : String) (s : DS)
    (halready : alreadyHasLockedMonitor ctx day cat = false)
    (hex : ∃ u ∈ s.availMonitors, catShiftsForMonitor ctx cat u ≠ []) :
    ∃ u ∈ s.availMonitors, ∃ shift ∈ catShiftsForMonitor ctx cat u,
      (monitorStep ctx day s cat).assignments = s.assignments ++
        [{ employeeId := u.id, date := day, shiftType := shift,
           editSource := EditSource.algorithm }] ∧
      ((∃ v ∈ s.availMonitors, v.id ∉ s.needOff ∧
          catShiftsForMonitor ctx cat v ≠ []) → u.id ∉ s.needOff) := by
  unfold monitorStep
  simp only []
  split
  · rename_i hcond
    unfold alreadyHasLockedMonitor at halready
    cases hcond.symm.trans halready
  · rcases h1 : monitorScan ctx day cat true s.availMonitors s with _ | s2
    · simp only []
      rcases monitorScan_pass2_isSome ctx day cat s.availMonitors s hex with
        ⟨s3, h2⟩
      rw [h2]
      simp only []
      rcases monitorScan_some_spec ctx day cat false s.availMonitors s s3 h2
        with ⟨u, hu, shift, hsh, _, ha, _⟩
      refine ⟨u, hu, shift, hsh, ha, ?_⟩
      rintro ⟨v, hv, hvno, hvne⟩
      exfalso
      rcases monitorScan_pass1_none ctx day cat s.availMonitors s h1 v hv with
        hmem | hnil
      · exact hvno hmem
      · exact hvne hnil
    · simp only []
      rcases monitorScan_some_spec ctx day cat true s.availMonitors s s2 h1
        with ⟨u, hu, shift, hsh, hp1, ha, _⟩
      exact ⟨u, hu, shift, hsh, ha, fun _ => hp1 rfl⟩

/-- Witness for anchor_amended: the INS anchor on the one-monitor roster
at the sorted day state, where the pool still holds the monitor. -/
theorem anchor_amended_witness :
    ∃ u ∈ (stageSorted (dayCtxOf inpOneMonitor []) 0
        (initRunState inpOneMonitor [])).availMonitors,
      ∃ shift ∈ catShiftsForMonitor (dayCtxOf inpOneMonitor []) "INS" u,
        (monitorStep (dayCtxOf inpOneMonitor []) 0
            (stageSorted (dayCtxOf inpOneMonitor []) 0
              (initRunState inpOneMonitor [])) "INS").assignments =
          (stageSorted (dayCtxOf inpOneMonitor []) 0
              (initRunState inpOneMonitor [])).assignments ++
          [{ employeeId := u.id, date := 0, shiftType := shift,
             editSource := EditSource.algorithm }] ∧
        ((∃ v ∈ (stageSorted (dayCtxOf inpOneMonitor []) 0
              (initRunState inpOneMonitor [])).availMonitors,
            v.id ∉ (stageSorted (dayCtxOf inpOneMonitor []) 0
              (initRunState inpOneMonitor [])).needOff ∧
            catShiftsForMonitor (dayCtxOf inpOneMonitor []) "INS" v ≠ []) →
          u.id ∉ (stageSorted (dayCtxOf inpOneMonitor []) 0
            (initRunState inpOneMonitor [])).needOff) :=
  anchor_amended (dayCtxOf inpOneMonitor []) 0 "INS"
    (stageSorted (dayCtxOf inpOneMonitor []) 0 (initRunState inpOneMonitor []))
    (by decide) (by decide)

/-! ### C7: the decision log never influences the produced rows -/

/-- The same cross-day state with the decision log replaced. -/
def withDecs (r : RunState) (d : List String) : RunState :=
  { r with decisions := d }

/-- The same in-day state with the decision log replaced. -/
def withDecsS (s : DS) (d : List String) : DS :=
  { s with run := withDecs s.run d }

theorem assignShift_withDecs (s : DS) (t : Employee) (day : Int)
    (st : ShiftType) (d : List String) :
    assignShift (withDecsS s d) t day st =
      withDecsS (assignShift s t day st) d := rfl

theorem assignOffTo_withDecs (s : DS) (t : Employee) (day : Int)
    (off : ShiftType) (d : List String) :
    assignOffTo (withDecsS s d) t day off =
      withDecsS (assignOffTo s t day off) d := rfl

theorem weekendStep_withDecs (off : Option ShiftType) (day : Int) (s : DS)
    (t : Employee) (d : List String) :
    weekendStep off day (withDecsS s d) t =
      withDecsS (weekendStep off day s t) d := by
  unfold weekendStep
  by_cases hc : s.assignedTraders.contains t.id = true
  · simp only [withDecsS, withDecs]
    simp only [if_pos hc]
  · simp only [withDecsS, withDecs]
    simp only [if_neg hc]
    rcases off with _ | o
    · rfl
    · rfl

theorem seedStep_withDecs (ctx : DayCtx) (day : Int) (s : DS) (t : Employee)
    (d : List String) :
    seedStep ctx day (withDecsS s d) t = withDecsS (seedStep ctx day s t) d := by
  unfold seedStep
  rcases ctx.locked (t.id, day) with _ | code
  · rfl
  · simp only []
    rcases cacheGet ctx.stCache code with _ | st
    · rfl
    · simp only []
      by_cases hw : st.isWorkingShift = true
      · simp only [if_pos hw]
        rcases st.category with _ | c
        · rfl
        · rfl
      · simp only [if_neg hw]
        rfl

theorem monitorScan_withDecs (ctx : DayCtx) (day : Int) (cat : String)
    (p : Bool) :
    ∀ (l : List Employee) (s : DS) (d : List String),
      monitorScan ctx day cat p l (withDecsS s d) =
        Option.map (fun s2 => withDecsS s2 d) (monitorScan ctx day cat p l s) := by
  intro l
  induction l with
  | nil => intro s d; rfl
  | cons u rest ih =>
    intro s d
    unfold monitorScan
    simp only [withDecsS, withDecs]
    by_cases hskip : (p && s.needOff.contains u.id) = true
    · simp only [if_pos hskip]
      exact ih s d
    · simp only [if_neg hskip]
      by_cases hempty : (catShiftsForMonitor ctx cat u).isEmpty = true
      · simp only [if_pos hempty]
        exact ih s d
      · simp only [if_neg hempty]
        rcases hpick : (pickShiftFromCycle ((ctx.cycles u.role).getD [])
            (s.run.cyclePositions u.id) (catShiftsForMonitor ctx cat u)).1
          with _ | shift
        · simp only []
          exact ih s d
        · simp only []
          rfl

theorem monitorStep_withDecs (ctx : DayCtx) (day : Int) (s : DS)
    (cat : String) (d : List String) :
    ∃ d2, monitorStep ctx day (withDecsS s d) cat =
      withDecsS (monitorStep ctx day s cat) d2 := by
  unfold monitorStep
  simp only [show (withDecsS s d).availMonitors = s.availMonitors from rfl]
  split
  · exact ⟨d, rfl⟩
  · rw [monitorScan_withDecs ctx day cat true s.availMonitors s d]
    rcases h1 : monitorScan ctx day cat true s.availMonitors s with _ | s2
    · simp only [Option.map]
      rw [monitorScan_withDecs ctx day cat false s.availMonitors s d]
      rcases h2 : monitorScan ctx day cat false s.availMonitors s with _ | s3
      · simp only [Option.map]
        exact ⟨_, rfl⟩
      · simp only [Option.map]
        exact ⟨d, rfl⟩
    · simp only [Option.map]
      exact ⟨d, rfl⟩

theorem phase1Scan_withDecs (ctx : DayCtx) (day : Int) (cat : String)
    (needed : Nat) (catShifts : List ShiftType) (high : Bool) :
    ∀ (l : List Employee) (filled : Nat) (s : DS) (d : List String),
      phase1Scan ctx day cat needed catShifts high l filled (withDecsS s d) =
        (withDecsS (phase1Scan ctx day cat needed catShifts high l filled s).1 d,
         (phase1Scan ctx day cat needed catShifts high l filled s).2) := by
  intro l
  induction l with
  | nil => intro filled s d; rfl
  | cons u rest ih =>
    intro filled s d
    unfold phase1Scan
    by_cases hfill : filled ≥ needed
    · simp only [if_pos hfill]
    · simp only [if_neg hfill]
      simp only [show (withDecsS s d).needOff = s.needOff from rfl]
      by_cases hskip : (s.needOff.contains u.id && ¬ high) = true
      · simp only [if_pos hskip]
        exact ih filled s d
      · simp only [if_neg hskip]
        by_cases hempty : (catShifts.filter
            (fun st => shiftApplicableToTrader st u)).isEmpty = true
        · simp only [if_pos hempty]
          exact ih filled s d
        · simp only [if_neg hempty]
          simp only [show (withDecsS s d).run = withDecs s.run d from rfl,
            show ∀ x, (withDecs s.run d).cyclePositions x =
              s.run.cyclePositions x from fun _ => rfl]
          rcases hpick : (pickShiftFromCycle ((ctx.cycles u.role).getD [])
              (s.run.cyclePositions u.id)
              (catShifts.filter (fun st => shiftApplicableToTrader st u))).1
            with _ | shift
          · simp only []
            exact ih filled s d
          · simp only []
            set s3 := { assignShift s u day shift with
              run := { (assignShift s u day shift).run with
                cyclePositions := updFun (assignShift s u day shift).run.cyclePositions
                  u.id (pickShiftFromCycle ((ctx.cycles u.role).getD [])
                    (s.run.cyclePositions u.id)
                    (catShifts.filter (fun st => shiftApplicableToTrader st u))).2
                lastShift := updFun (assignShift s u day shift).run.lastShift
                  u.id (some shift.code) }
              dayCoverage := updFun (assignShift s u day shift).dayCoverage cat
                ((assignShift s u day shift).dayCoverage cat + 1)
              assignedTraders := (assignShift s u day shift).assignedTraders ++ [u.id]
              available := removeFirstById (assignShift s u day shift).available u.id }
              with hs3
            exact ih (filled + 1) s3 d

theorem phase1Step_withDecs (ctx : DayCtx) (day : Int) (high : Bool)
    (s : DS) (cat : ShiftCategory) (d : List String) :
    ∃ d2, phase1Step ctx day high (withDecsS s d) cat =
      withDecsS (phase1Step ctx day high s cat) d2 := by
  unfold phase1Step
  simp only [show (withDecsS s d).dayCoverage = s.dayCoverage from rfl,
    show (withDecsS s d).available = s.available from rfl]
  by_cases h1 : ctxCatMin ctx cat.code ≤ s.dayCoverage cat.code
  · simp only [if_pos h1]
    exact ⟨d, rfl⟩
  · simp only [if_neg h1]
    by_cases h2 : (catShiftsForCategory ctx cat.code).isEmpty = true
    · simp only [if_pos h2]
      exact ⟨d, rfl⟩
    · simp only [if_neg h2]
      rw [phase1Scan_withDecs ctx day cat.code
        (ctxCatMin ctx cat.code - s.dayCoverage cat.code)
        (catShiftsForCategory ctx cat.code) high s.available 0 s d]
      simp only []
      by_cases h3 : (phase1Scan ctx day cat.code
          (ctxCatMin ctx cat.code - s.dayCoverage cat.code)
          (catShiftsForCategory ctx cat.code) high s.available 0 s).2 <
          ctxCatMin ctx cat.code - s.dayCoverage cat.code
      · simp only [if_pos h3]
        exact ⟨_, rfl⟩
      · simp only [if_neg h3]
        exact ⟨d, rfl⟩

theorem phase2Step_withDecs (ctx : DayCtx) (day : Int) (high : Bool)
    (emax : Nat) (off : Option ShiftType) (s : DS) (t : Employee)
    (d : List String) :
    phase2Step ctx day high emax off (withDecsS s d) t =
      withDecsS (phase2Step ctx day high emax off s t) d := by
  unfold phase2Step
  simp only [show (withDecsS s d).offToday = s.offToday from rfl,
    show (withDecsS s d).needOff = s.needOff from rfl,
    show (withDecsS s d).run = withDecs s.run d from rfl,
    show (withDecs s.run d).offCounts = s.run.offCounts from rfl,
    show (withDecs s.run d).cyclePositions = s.run.cyclePositions from rfl]
  rcases hscrut : (if shouldAssignOff t.id s.offToday emax s.run.offCounts
      ctx.targetOffPerTrader s.needOff high ctx.totalDays
      (day - ctx.firstDay + 1) = true then off else none) with _ | o
  · simp only []
    by_cases hempty : ((((ctx.cycles t.role).getD ["OFF"]).filterMap (fun c =>
        if c = "OFF" then none
        else
          match cacheGet ctx.stCache c with
          | some st => if shiftApplicableToTrader st t then some st else none
          | none => none)).isEmpty) = true
    · simp only [if_pos hempty]
      rcases off with _ | o2
      · rfl
      · rfl
    · simp only [if_neg hempty]
      rcases hpick : (pickShiftFromCycle ((ctx.cycles t.role).getD [])
          (s.run.cyclePositions t.id)
          ((((ctx.cycles t.role).getD ["OFF"]).filterMap (fun c =>
            if c = "OFF" then none
            else
              match cacheGet ctx.stCache c with
              | some st => if shiftApplicableToTrader st t then some st else none
              | none => none)))).1 with _ | shift
      · simp only []
        rcases off with _ | o2
        · rfl
        · rfl
      · simp only []
        rcases shift.category with _ | c
        · rfl
        · rfl
  · simp only []
    rfl

theorem guaranteeStep_withDecs (ctx : DayCtx) (day : Int)
    (off : Option ShiftType) (s : DS) (t : Employee) (d : List String) :
    ∃ d2, guaranteeStep ctx day off (withDecsS s d) t =
      withDecsS (guaranteeStep ctx day off s t) d2 := by
  unfold guaranteeStep
  simp only [show (withDecsS s d).assignedTraders = s.assignedTraders from rfl]
  by_cases hc : s.assignedTraders.contains t.id = true
  · simp only [if_pos hc]
    exact ⟨d, rfl⟩
  · simp only [if_neg hc]
    rcases ctx.locked (t.id, day) with _ | code
    · simp only []
      rcases off with _ | o
      · exact ⟨d, rfl⟩
      · exact ⟨_, rfl⟩
    · exact ⟨d, rfl⟩

theorem foldl_withDecsS {α : Type _} (f : DS → α → DS)
    (hf : ∀ (x : α) (s : DS) (d : List String),
      f (withDecsS s d) x = withDecsS (f s x) d) :
    ∀ (l : List α) (s : DS) (d : List String),
      l.foldl f (withDecsS s d) = withDecsS (l.foldl f s) d := by
  intro l
  induction l with
  | nil => intro s d; rfl
  | cons x xs ih =>
    intro s d
    simp only [List.foldl_cons]
    rw [hf x s d]
    exact ih (f s x) d

theorem foldl_withDecsS_ex {α : Type _} (f : DS → α → DS)
    (hf : ∀ (x : α) (s : DS) (d : List String),
      ∃ d2, f (withDecsS s d) x = withDecsS (f s x) d2) :
    ∀ (l : List α) (s : DS) (d : List String),
      ∃ d2, l.foldl f (withDecsS s d) = withDecsS (l.foldl f s) d2 := by
  intro l
  induction l with
  | nil => intro s d; exact ⟨d, rfl⟩
  | cons x xs ih =>
    intro s d
    simp only [List.foldl_cons]
    rcases hf x s d with ⟨d2, h2⟩
    rw [h2]
    exact ih (f s x) d2

theorem seedLocked_withDecs (ctx : DayCtx) (day : Int) (rs : RunState)
    (d : List String) :
    seedLocked ctx day (withDecs rs d) = withDecsS (seedLocked ctx day rs) d := by
  unfold seedLocked
  rw [show seedInit (withDecs rs d) = withDecsS (seedInit rs) d from rfl]
  exact foldl_withDecsS (seedStep ctx day)
    (fun x s d0 => seedStep_withDecs ctx day s x d0) ctx.traders (seedInit rs) d

theorem stageSorted_withDecs (ctx : DayCtx) (day : Int) (rs : RunState)
    (d : List String) :
    stageSorted ctx day (withDecs rs d) = withDecsS (stageSorted ctx day rs) d := by
  unfold stageSorted
  rw [seedLocked_withDecs ctx day rs d]
  rfl

theorem stageMonitor_withDecs (ctx : DayCtx) (day : Int) (rs : RunState)
    (d : List String) :
    ∃ d2, stageMonitor ctx day (withDecs rs d) =
      withDecsS (stageMonitor ctx day rs) d2 := by
  unfold stageMonitor
  rw [stageSorted_withDecs ctx day rs d]
  exact foldl_withDecsS_ex (monitorStep ctx day)
    (fun cat s d0 => monitorStep_withDecs ctx day s cat d0) monitorTargetCats
    (stageSorted ctx day rs) d

theorem stagePhase1_withDecs (ctx : DayCtx) (day : Int) (rs : RunState)
    (d : List String) :
    ∃ d2, stagePhase1 ctx day (withDecs rs d) =
      withDecsS (stagePhase1 ctx day rs) d2 := by
  unfold stagePhase1
  rcases stageMonitor_withDecs ctx day rs d with ⟨d2, h⟩
  rw [h]
  exact foldl_withDecsS_ex (phase1Step ctx day (isHighDemandDay ctx day))
    (fun cat s d0 => phase1Step_withDecs ctx day (isHighDemandDay ctx day) s cat d0)
    ctx.categories (stageMonitor ctx day rs) d2

theorem stagePhase2_withDecs (ctx : DayCtx) (day : Int) (rs : RunState)
    (d : List String) :
    ∃ d2, stagePhase2 ctx day (withDecs rs d) =
      withDecsS (stagePhase2 ctx day rs) d2 := by
  unfold stagePhase2
  simp only []
  rcases stagePhase1_withDecs ctx day rs d with ⟨d2, h⟩
  rw [h]
  exact ⟨d2, foldl_withDecsS
    (phase2Step ctx day (isHighDemandDay ctx day) (effectiveMaxOffOf ctx day)
      (cacheGet ctx.stCache "OFF"))
    (fun t s d0 => phase2Step_withDecs ctx day _ _ _ s t d0) _
    ({ stagePhase1 ctx day rs with offToday := offTodayInitOf ctx day }) d2⟩

theorem stageFinal_withDecs (ctx : DayCtx) (day : Int) (rs : RunState)
    (d : List String) :
    ∃ d2, stageFinal ctx day (withDecs rs d) =
      withDecsS (stageFinal ctx day rs) d2 := by
  unfold stageFinal
  rcases stagePhase2_withDecs ctx day rs d with ⟨d2, h⟩
  rw [h]
  exact foldl_withDecsS_ex (guaranteeStep ctx day (cacheGet ctx.stCache "OFF"))
    (fun t s d0 => guaranteeStep_withDecs ctx day _ s t d0) ctx.traders
    (stagePhase2 ctx day rs) d2

theorem weekendState_withDecs (ctx : DayCtx) (day : Int) (rs : RunState)
    (d : List String) :
    weekendState ctx day (withDecs rs d) =
      withDecsS (weekendState ctx day rs) d := by
  unfold weekendState
  rw [seedLocked_withDecs ctx day rs d]
  exact foldl_withDecsS (weekendStep (cacheGet ctx.stCache "OFF") day)
    (fun t s d0 => weekendStep_withDecs _ day s t d0) ctx.traders
    (seedLocked ctx day rs) d

theorem assignDay_withDecs (ctx : DayCtx) (rs : RunState) (day : Int)
    (d : List String) :
    ∃ d2, assignDay ctx (withDecs rs d) day =
      ((assignDay ctx rs day).1, withDecs (assignDay ctx rs day).2 d2) := by
  unfold assignDay
  split
  · rw [weekendState_withDecs ctx day rs d]
    exact ⟨d, rfl⟩
  · rcases stageFinal_withDecs ctx day rs d with ⟨d2, h⟩
    rw [h]
    exact ⟨d2, rfl⟩

theorem dayFold_withDecs (ctx : DayCtx) :
    ∀ (days : List Int) (acc : List Schedule) (rs : RunState) (d : List String),
      ∃ d2,
        days.foldl (fun acc2 day =>
          let step := assignDay ctx acc2.2 day
          (acc2.1 ++ step.1, step.2)) (acc, withDecs rs d) =
        ((days.foldl (fun acc2 day =>
          let step := assignDay ctx acc2.2 day
          (acc2.1 ++ step.1, step.2)) (acc, rs)).1,
         withDecs (days.foldl (fun acc2 day =>
          let step := assignDay ctx acc2.2 day
          (acc2.1 ++ step.1, step.2)) (acc, rs)).2 d2) := by
  intro days
  induction days with
  | nil => intro acc rs d; exact ⟨d, rfl⟩
  | cons day rest ih =>
    intro acc rs d
    simp only [List.foldl_cons]
    rcases assignDay_withDecs ctx rs day d with ⟨d2, h⟩
    rw [h]
    exact ih (acc ++ (assignDay ctx rs day).1) (assignDay ctx rs day).2 d2

theorem generateCore_rows_algo (inp : GenInput) (db : List Schedule) :
    ∀ a ∈ (generateCore inp db).1, algoRowPred inp a = true := by
  unfold generateCore
  have key : ∀ (days : List Int), (∀ x ∈ days, x ∈ monthDays inp) →
      ∀ (acc : List Schedule) (rs : RunState),
      (∀ a ∈ acc, algoRowPred inp a = true) →
      ∀ a ∈ (days.foldl (fun acc2 day =>
          let step := assignDay (dayCtxOf inp db) acc2.2 day
          (acc2.1 ++ step.1, step.2)) (acc, rs)).1,
        algoRowPred inp a = true := by
    intro days
    induction days with
    | nil => intro _ acc rs hacc; exact hacc
    | cons day rest ihh =>
      intro hsub acc rs hacc
      simp only [List.foldl_cons]
      apply ihh (fun x hx => hsub x (List.mem_cons_of_mem day hx))
      intro a ha
      rcases List.mem_append.mp ha with h1 | h1
      · exact hacc a h1
      · have hs := assignDay_rows_shape (dayCtxOf inp db) rs day a h1
        have hday : day ∈ monthDays inp := hsub day (List.mem_cons_self day rest)
        have h1c : (monthDays inp).contains a.date = true := by
          rw [hs.1]
          exact List.elem_eq_true_of_mem hday
        have h2c : (activeTraders inp).any (fun t => t.id == a.employeeId) = true := by
          rcases hs.2.2.1 with ⟨u, hu, hid⟩
          exact List.any_eq_true.mpr ⟨u, hu, by simp [hid]⟩
        have h3c : (a.editSource == EditSource.algorithm) = true := by
          rw [hs.2.1]
          simp
        unfold algoRowPred
        rw [h1c, h2c, h3c]
        rfl
  exact key (monthDays inp) (fun x hx => hx) [] (initRunState inp db)
    (by intro a ha; simp at ha)

theorem filter_filter_of_imp {α : Type _} (p q : α → Bool)
    (h : ∀ a, q a = true → p a = true) :
    ∀ l : List α, (l.filter p).filter q = l.filter q := by
  intro l
  induction l with
  | nil => rfl
  | cons a l2 ih =>
    by_cases hp : p a = true
    · rw [List.filter_cons, if_pos hp]
      by_cases hq : q a = true
      · rw [List.filter_cons, if_pos hq, List.filter_cons, if_pos hq, ih]
      · rw [List.filter_cons, if_neg hq, List.filter_cons, if_neg hq, ih]
    · rw [List.filter_cons, if_neg hp]
      by_cases hq : q a = true
      · exact absurd (h a hq) hp
      · rw [ih, List.filter_cons, if_neg hq]

theorem filter_bulkCreate (q : Schedule → Bool) :
    ∀ (rows : List Schedule), (∀ r ∈ rows, q r = false) →
      ∀ (db0 : List Schedule),
        (bulkCreateIgnoreConflicts db0 rows).filter q = db0.filter q := by
  intro rows
  induction rows with
  | nil => intro _ db0; rfl
  | cons r rest ih =>
    intro h db0
    unfold bulkCreateIgnoreConflicts
    simp only [List.foldl_cons]
    by_cases hc : (db0.any (fun x =>
        x.employeeId == r.employeeId && x.date == r.date)) = true
    · rw [if_pos hc]
      exact ih (fun x hx => h x (List.mem_cons_of_mem r hx)) db0
    · rw [if_neg hc]
      have h2 := ih (fun x hx => h x (List.mem_cons_of_mem r hx)) (db0 ++ [r])
      have h3 : (db0 ++ [r]).filter q = db0.filter q := by
        rw [List.filter_append]
        simp [h r (List.mem_cons_self r rest)]
      exact h2.trans h3

/-- C7. Idempotent regeneration: a second run for the same month on the
table the first run produced yields exactly the same table: the second
run deletes precisely the first run's algorithm rows and re-creates them
identically, and every non-algorithm row survives both runs untouched. -/
theorem regeneration_idempotent (inp : GenInput) (db : List Schedule) :
    (generate inp (generate inp db).2).2 = (generate inp db).2 := by
  by_cases hroster : (activeTraders inp).isEmpty = true
  · have h1 : (generate inp db).2 = db := by
      unfold generate
      rw [if_pos hroster]
    rw [h1]
    exact h1
  · have hne : ¬ ((activeTraders inp).isEmpty = true) := hroster
    have hgen : ∀ dbx : List Schedule, (generate inp dbx).2 =
        (if (generateCore inp dbx).1.isEmpty then postDeleteDb inp dbx
         else bulkCreateIgnoreConflicts (postDeleteDb inp dbx)
           (generateCore inp dbx).1) := by
      intro dbx
      unfold generate
      rw [if_neg hne]
    have hdb1 := hgen db
    have hrows := generateCore_rows_algo inp db
    have hExistImp : ∀ a : Schedule,
        ((monthDays inp).contains a.date
          && (activeTraders inp).any (fun t => t.id == a.employeeId)
          && ¬ (a.editSource == EditSource.algorithm)) = true →
        (¬ algoRowPred inp a : Bool) = true := by
      intro a ha
      simp only [Bool.and_eq_true] at ha
      rcases ha with ⟨_, h3⟩
      have hb : (a.editSource == EditSource.algorithm) = false := by
        cases hx : (a.editSource == EditSource.algorithm)
        · rfl
        · exact absurd hx (by simpa using h3)
      have hfalse : algoRowPred inp a = false := by
        unfold algoRowPred
        rw [hb]
        simp
      simp [hfalse]
    have hExistFalse : ∀ r ∈ (generateCore inp db).1,
        ((monthDays inp).contains r.date
          && (activeTraders inp).any (fun t => t.id == r.employeeId)
          && ¬ (r.editSource == EditSource.algorithm)) = false := by
      intro r hr
      have halgo := hrows r hr
      unfold algoRowPred at halgo
      simp only [Bool.and_eq_true] at halgo
      have hbeq : (r.editSource == EditSource.algorithm) = true := halgo.2
      simp [hbeq]
    have hPriorImp : ∀ a : Schedule,
        ((activeTraders inp).any (fun t => t.id == a.employeeId)
          && inp.firstDay - 7 ≤ a.date && a.date ≤ inp.firstDay - 1) = true →
        (¬ algoRowPred inp a : Bool) = true := by
      intro a ha
      simp only [Bool.and_eq_true] at ha
      have hd : a.date ≤ inp.firstDay - 1 := of_decide_eq_true ha.2
      have hcont : (monthDays inp).contains a.date = false := by
        cases hx : (monthDays inp).contains a.date
        · rfl
        · exfalso
          have hb := mem_monthDays_bounds inp a.date (List.mem_of_elem_eq_true hx)
          omega
      have hfalse : algoRowPred inp a = false := by
        unfold algoRowPred
        rw [hcont]
        rfl
      simp [hfalse]
    have hPriorFalse : ∀ r ∈ (generateCore inp db).1,
        ((activeTraders inp).any (fun t => t.id == r.employeeId)
          && inp.firstDay - 7 ≤ r.date && r.date ≤ inp.firstDay - 1) = false := by
      intro r hr
      have halgo := hrows r hr
      unfold algoRowPred at halgo
      simp only [Bool.and_eq_true] at halgo
      have hcont : (monthDays inp).contains r.date = true := halgo.1.1
      have hb := mem_monthDays_bounds inp r.date (List.mem_of_elem_eq_true hcont)
      have hd : ¬ (r.date ≤ inp.firstDay - 1) := by omega
      simp [decide_eq_false hd]
    have hpost : postDeleteDb inp (generate inp db).2 = postDeleteDb inp db := by
      rw [hdb1]
      by_cases hce : (generateCore inp db).1.isEmpty = true
      · rw [if_pos hce]
        exact filter_filter_of_imp _ _ (fun a ha => ha) db
      · rw [if_neg hce]
        unfold postDeleteDb
        exact (filter_bulkCreate _ (generateCore inp db).1
          (fun r hr => by simp [hrows r hr]) (postDeleteDb inp db)).trans
          (filter_filter_of_imp _ _ (fun a ha => ha) db)
    have hexist : existingRows inp (generate inp db).2 = existingRows inp db := by
      rw [hdb1]
      by_cases hce : (generateCore inp db).1.isEmpty = true
      · rw [if_pos hce]
        exact filter_filter_of_imp _ _ hExistImp db
      · rw [if_neg hce]
        unfold existingRows
        exact (filter_bulkCreate _ (generateCore inp db).1 hExistFalse
          (postDeleteDb inp db)).trans (filter_filter_of_imp _ _ hExistImp db)
    have hprior : priorRows inp (generate inp db).2 = priorRows inp db := by
      rw [hdb1]
      by_cases hce : (generateCore inp db).1.isEmpty = true
      · rw [if_pos hce]
        unfold priorRows postDeleteDb
        exact congrArg _ (filter_filter_of_imp _ _ hPriorImp db)
      · rw [if_neg hce]
        unfold priorRows
        exact congrArg _ ((filter_bulkCreate _ (generateCore inp db).1
          hPriorFalse (postDeleteDb inp db)).trans
          (filter_filter_of_imp _ _ hPriorImp db))
    have hctx : dayCtxOf inp (generate inp db).2 = dayCtxOf inp db := by
      unfold dayCtxOf lockedCellsOf
      rw [hpost, hexist]
    have hinit : initRunState inp (generate inp db).2 =
        withDecs (initRunState inp db)
          (setupDecisions inp (generate inp db).2) := by
      have hlast : seededLastShift inp (generate inp db).2 =
          seededLastShift inp db := by
        funext tid
        unfold seededLastShift priorHistoryOf
        rw [hprior]
      have hcyc : seededCyclePositions inp (generate inp db).2 =
          seededCyclePositions inp db := by
        funext tid
        unfold seededCyclePositions priorHistoryOf
        rw [hprior]
      unfold initRunState withDecs
      rw [hlast, hcyc]
    have hcore : (generateCore inp (generate inp db).2).1 =
        (generateCore inp db).1 := by
      unfold generateCore
      rw [hctx, hinit]
      rcases dayFold_withDecs (dayCtxOf inp db) (monthDays inp) []
        (initRunState inp db) (setupDecisions inp (generate inp db).2)
        with ⟨d2, h⟩
      rw [h]
    have hrun2 := hgen (generate inp db).2
    rw [hrun2, hcore, hpost]
    exact hdb1.symm

end Caliente
